import Mathlib

/-!
Verification development for the wp-devdocs-mcp extraction-and-indexing
pipeline.  The JavaScript source is shallowly embedded: file contents and
all stored text fields are `List Char`, JS numbers indexing strings are
`Nat`, nullable columns are `Option`, and the SQLite tables are lists of
row structures.  Every definition below is a direct translation of the
function of the same name in the repository source.
-/

set_option maxHeartbeats 1000000

abbrev Str := List Char

/-- Single quote character. -/
def sqc : Char := Char.ofNat 39

/-- Double quote character. -/
def dqc : Char := Char.ofNat 34

/-- Backtick character. -/
def btc : Char := Char.ofNat 96

/-- Left curly brace character. -/
def lbc : Char := Char.ofNat 123

/-- Right curly brace character. -/
def rbc : Char := Char.ofNat 125

/-- Backslash character. -/
def bsc : Char := '\\'

def str (s : String) : Str := s.data

/-- JS whitespace (the ASCII part of the `\s` class and of `String.trim`). -/
def isJsSpace (c : Char) : Bool :=
  c = ' ' || c = '\t' || c = '\n' || c = '\r' || c = Char.ofNat 11 || c = Char.ofNat 12

/-- `String.prototype.trim`. -/
def jsTrim (s : Str) : Str :=
  ((s.dropWhile isJsSpace).reverse.dropWhile isJsSpace).reverse

/-- `content[i]` for a JS string: `none` models `undefined`. -/
def charAt (s : Str) (i : Nat) : Option Char := s.get? i

/-- `content[i] === c`, false out of bounds (undefined never equals a char). -/
def charIs (s : Str) (i : Nat) (c : Char) : Bool :=
  match charAt s i with
  | some x => x = c
  | none => false

/-- `s.includes(c)` for a single character. -/
def containsChar (s : Str) (c : Char) : Bool := s.any (fun x => x = c)

def startsWithS : Str → Str → Bool
  | _, [] => true
  | [], _ :: _ => false
  | c :: cs, p :: ps => c = p && startsWithS cs ps

def endsWithS (s p : Str) : Bool := startsWithS s.reverse p.reverse

/-- `s.includes(sub)` for a substring. -/
def containsSub : Str → Str → Bool
  | [], sub => startsWithS [] sub
  | c :: cs, sub => if startsWithS (c :: cs) sub then true else containsSub cs sub

/-- `s.slice(a, b)` (with 0 ≤ a ≤ b). -/
def sliceStr (s : Str) (a b : Nat) : Str := (s.drop a).take (b - a)

/-- `s.split(c)` for a single-character separator, JS semantics. -/
def splitOnChar (c : Char) : Str → List Str
  | [] => [[]]
  | x :: xs =>
    if x = c then [] :: splitOnChar c xs
    else
      match splitOnChar c xs with
      | [] => [[x]]
      | p :: ps => (x :: p) :: ps

/-- `s.split(/\s+/).filter(Boolean)`: maximal runs of non-whitespace. -/
def splitWsTokens : Str → List Str
  | [] => []
  | c :: cs =>
    if isJsSpace c then splitWsTokens cs
    else
      match splitWsTokens cs with
      | [] => [[c]]
      | t :: ts =>
        match cs with
        | [] => [[c]]
        | c2 :: _ => if isJsSpace c2 then [c] :: t :: ts else (c :: t) :: ts

def intercalateStr (sep : Str) (xs : List Str) : Str := List.intercalate sep xs

/-! ### SHA-256 (node `crypto` `createHash('sha256')`), over bytes as `Nat` -/

def pow32 : Nat := 4294967296

def and32 (a b : Nat) : Nat := a &&& b

def xor32 (a b : Nat) : Nat := a ^^^ b

def not32 (a : Nat) : Nat := a ^^^ (pow32 - 1)

def add32 (a b : Nat) : Nat := (a + b) % pow32

def rotr32 (n x : Nat) : Nat := ((x >>> n) ||| ((x <<< (32 - n)) % pow32)) % pow32

def shaS0 (x : Nat) : Nat := xor32 (xor32 (rotr32 7 x) (rotr32 18 x)) (x >>> 3)

def shaS1 (x : Nat) : Nat := xor32 (xor32 (rotr32 17 x) (rotr32 19 x)) (x >>> 10)

def shaB0 (x : Nat) : Nat := xor32 (xor32 (rotr32 2 x) (rotr32 13 x)) (rotr32 22 x)

def shaB1 (x : Nat) : Nat := xor32 (xor32 (rotr32 6 x) (rotr32 11 x)) (rotr32 25 x)

def shaCh (x y z : Nat) : Nat := xor32 (and32 x y) (and32 (not32 x) z)

def shaMaj (x y z : Nat) : Nat := xor32 (xor32 (and32 x y) (and32 x z)) (and32 y z)

def shaK : List Nat :=
  [1116352408, 1899447441, 3049323471, 3921009573, 961987163, 1508970993,
   2453635748, 2870763221, 3624381080, 310598401, 607225278, 1426881987,
   1925078388, 2162078206, 2614888103, 3248222580, 3835390401, 4022224774,
   264347078, 604807628, 770255983, 1249150122, 1555081692, 1996064986,
   2554220882, 2821834349, 2952996808, 3210313671, 3336571891, 3584528711,
   113926993, 338241895, 666307205, 773529912, 1294757372, 1396182291,
   1695183700, 1986661051, 2177026350, 2456956037, 2730485921, 2820302411,
   3259730800, 3345764771, 3516065817, 3600352804, 4094571909, 275423344,
   430227734, 506948616, 659060556, 883997877, 958139571, 1322822218,
   1537002063, 1747873779, 1955562222, 2024104815, 2227730452, 2361852424,
   2428436474, 2756734187, 3204031479, 3329325298]

def shaH0 : List Nat :=
  [1779033703, 3144134277, 1013904242, 2773480762,
   1359893119, 2600822924, 528734635, 1541459225]

/-- Big-endian 32-bit word from 4 bytes. -/
def word32Of (a b c d : Nat) : Nat := ((a * 256 + b) * 256 + c) * 256 + d

/-- Split the padded message into 32-bit words. -/
def shaWords : List Nat → List Nat
  | a :: b :: c :: d :: rest => word32Of a b c d :: shaWords rest
  | _ => []

/-- Extend a 16-word schedule to `n` more words. -/
def shaExtend (w : List Nat) : Nat → List Nat
  | 0 => w
  | n + 1 =>
    let k := w.length
    let w2 := w ++ [add32 (add32 (shaS1 (w.getD (k - 2) 0)) (w.getD (k - 7) 0))
                    (add32 (shaS0 (w.getD (k - 15) 0)) (w.getD (k - 16) 0))]
    shaExtend w2 n

/-- One round of the SHA-256 compression function. -/
def shaRound (st : List Nat) (kw : Nat × Nat) : List Nat :=
  match st with
  | [a, b, c, d, e, f, g, h] =>
    let t1 := add32 (add32 (add32 h (shaB1 e)) (add32 (shaCh e f g) kw.1)) kw.2
    let t2 := add32 (shaB0 a) (shaMaj a b c)
    [add32 t1 t2, a, b, c, add32 d t1, e, f, g]
  | other => other

/-- Process one 64-byte chunk. -/
def shaChunk (h : List Nat) (chunk : List Nat) : List Nat :=
  let w := shaExtend (shaWords chunk) 48
  let st := (List.zip shaK w).foldl shaRound h
  List.zipWith add32 h st

def shaChunks : List Nat → List (List Nat)
  | [] => []
  | b :: bytes => (b :: bytes).take 64 :: shaChunks ((b :: bytes).drop 64)
termination_by l => l.length
decreasing_by simp [List.length_drop]; omega

/-- Message length in bits as 8 big-endian bytes. -/
def shaLenBytes (lenBits : Nat) : List Nat :=
  [lenBits / 2 ^ 56 % 256, lenBits / 2 ^ 48 % 256, lenBits / 2 ^ 40 % 256, lenBits / 2 ^ 32 % 256,
   lenBits / 2 ^ 24 % 256, lenBits / 2 ^ 16 % 256, lenBits / 2 ^ 8 % 256, lenBits % 256]

def shaPad (msg : List Nat) : List Nat :=
  let padLen := (119 - msg.length % 64) % 64
  msg ++ (128 :: List.replicate padLen 0) ++ shaLenBytes (msg.length * 8)

def sha256Digest (msg : List Nat) : List Nat :=
  (shaChunks (shaPad msg)).foldl shaChunk shaH0

def hexDigit (n : Nat) : Char :=
  if n < 10 then Char.ofNat (48 + n) else Char.ofNat (87 + n)

def hexWord32 (w : Nat) : Str :=
  [hexDigit (w / 2 ^ 28 % 16), hexDigit (w / 2 ^ 24 % 16), hexDigit (w / 2 ^ 20 % 16),
   hexDigit (w / 2 ^ 16 % 16), hexDigit (w / 2 ^ 12 % 16), hexDigit (w / 2 ^ 8 % 16),
   hexDigit (w / 2 ^ 4 % 16), hexDigit (w % 16)]

/-- `createHash('sha256').update(utf8 bytes).digest('hex')`. -/
def sha256Hex (msg : List Nat) : Str := ((sha256Digest msg).map hexWord32).flatten

/-- UTF-8 encoding of one scalar value. -/
def utf8Char (n : Nat) : List Nat :=
  if n < 128 then [n]
  else if n < 2048 then [192 + n / 64, 128 + n % 64]
  else if n < 65536 then [224 + n / 4096, 128 + n / 64 % 64, 128 + n % 64]
  else [240 + n / 262144, 128 + n / 4096 % 64, 128 + n / 64 % 64, 128 + n % 64]

def utf8Str (s : Str) : List Nat := (s.map (fun c => utf8Char c.toNat)).flatten

/-! ### `JSON.stringify` for the flat objects fed to the content hash -/

/-- A JS value appearing in the hashed objects: `undefined`, `null`, or a string.
`JSON.stringify` omits `undefined`-valued properties entirely. -/
inductive JsVal where
  | undef : JsVal
  | null : JsVal
  | strv : Str → JsVal
deriving Repr, DecidableEq

def jsonEscapeChar (c : Char) : Str :=
  if c = dqc then [bsc, dqc]
  else if c = bsc then [bsc, bsc]
  else if c = Char.ofNat 8 then [bsc, 'b']
  else if c = '\t' then [bsc, 't']
  else if c = '\n' then [bsc, 'n']
  else if c = Char.ofNat 12 then [bsc, 'f']
  else if c = '\r' then [bsc, 'r']
  else if c.toNat < 32 then [bsc, 'u', '0', '0', hexDigit (c.toNat / 16), hexDigit (c.toNat % 16)]
  else [c]

def jsonQuote (s : Str) : Str := dqc :: (s.map jsonEscapeChar).flatten ++ [dqc]

def jsonField (k : Str) (v : JsVal) : Option Str :=
  match v with
  | JsVal.undef => none
  | JsVal.null => some (jsonQuote k ++ ':' :: str "null")
  | JsVal.strv s => some (jsonQuote k ++ ':' :: jsonQuote s)

def jsonObj (fields : List (Str × JsVal)) : Str :=
  lbc :: intercalateStr [','] (fields.filterMap (fun kv => jsonField kv.1 kv.2)) ++ [rbc]

/-! ### `src/indexer/parser-utils.js` -/

/-- `getLineNumber(content, offset)`: 1-based line number of a character offset. -/
def getLineNumber (content : Str) (offset : Nat) : Nat :=
  1 + ((content.take offset).filter (fun c => c = '\n')).length

structure CodeWindow where
  codeBefore : Str
  hookLine : Str
  codeAfter : Str
deriving Repr, DecidableEq

/-- `extractCodeWindow(lines, lineIndex, before, after)`. -/
def extractCodeWindow (lines : List Str) (lineIndex : Nat) (before : Nat := 8) (after : Nat := 4) :
    CodeWindow :=
  let start := lineIndex - before
  let stop := min (lines.length - 1) (lineIndex + after)
  { codeBefore := intercalateStr ['\n'] ((lines.drop start).take (lineIndex - start))
    hookLine := lines.getD lineIndex []
    codeAfter := intercalateStr ['\n'] ((lines.drop (lineIndex + 1)).take (stop + 1 - (lineIndex + 1))) }

/-- `generateContentHash(data)`: sha-256 over the JSON of the five accessed
properties (`name`, `type`, `params`, `docblock`, `hookLine`), hex, first 16
chars.  A property that is JS `undefined` is omitted from the JSON. -/
def generateContentHash (name ty params docblock hookLine : JsVal) : Str :=
  (sha256Hex (utf8Str (jsonObj
    [(str "name", name), (str "type", ty), (str "params", params),
     (str "docblock", docblock), (str "hookLine", hookLine)]))).take 16

def natToStrAux : Nat → Str → Str
  | 0, acc => acc
  | n + 1, acc =>
    let m := n + 1
    natToStrAux (m / 10) (Char.ofNat (48 + m % 10) :: acc)

/-- Decimal rendering of a JS number that is a small natural. -/
def natToStr (n : Nat) : Str :=
  if n = 0 then ['0'] else natToStrAux n []

/-- `inferDescription(data)`. -/
def inferDescription (ty : Str) (is_dynamic : Nat) (name : Str)
    (php_function class_name : Option Str) (param_count : Nat) : Str :=
  let typeLabel :=
    if ty = str "action" then str "Action hook"
    else if ty = str "filter" then str "Filter hook"
    else if ty = str "action_ref_array" then str "Action hook (ref array)"
    else if ty = str "filter_ref_array" then str "Filter hook (ref array)"
    else if ty = str "js_action" then str "JavaScript action hook"
    else if ty = str "js_filter" then str "JavaScript filter hook"
    else str "Hook"
  let parts := [typeLabel]
  let parts := if is_dynamic ≠ 0 then parts ++ [str "(dynamic name)"] else parts
  let parts := parts ++ [dqc :: name ++ [dqc]]
  let parts := match php_function with
    | some f => parts ++ [str "in " ++ f ++ str "()"]
    | none => parts
  let parts := match class_name with
    | some c => parts ++ [str "of class " ++ c]
    | none => parts
  let parts := if param_count > 0 then
      parts ++ [str "with " ++ natToStr param_count ++ str " parameter" ++
        (if param_count > 1 then ['s'] else [])]
    else parts
  intercalateStr [' '] parts

/-- Loop of `extractDocblock`: scan upward from `i` while `i ≥ stop`,
accumulating candidate doc lines (built by `unshift`, i.e. prepending).
The iteration counter starts at the initial index plus one, which the
downward scan can never exhaust before its own exit conditions fire. -/
def extractDocblockAux (lines : List Str) (stop : Nat) :
    Nat → Nat → Bool → List Str → List Str
  | 0, _, _, acc => acc
  | fuel + 1, i, foundEnd, acc =>
    let line := jsTrim (lines.getD i [])
    if !foundEnd then
      if endsWithS line (str "*/") || startsWithS line (str "*") || startsWithS line (str "/**") then
        let acc2 := lines.getD i [] :: acc
        if i = 0 ∨ i ≤ stop then acc2 else extractDocblockAux lines stop fuel (i - 1) true acc2
      else if line = [] || startsWithS line (str "//") then
        if i = 0 ∨ i ≤ stop then acc
        else extractDocblockAux lines stop fuel (i - 1) foundEnd acc
      else acc
    else
      let acc2 := lines.getD i [] :: acc
      if startsWithS line (str "/**") || startsWithS line (str "/*") then acc2
      else if i = 0 ∨ i ≤ stop then acc2
      else extractDocblockAux lines stop fuel (i - 1) true acc2

/-- `extractDocblock(lines, lineIndex, maxLines = 5)`. -/
def extractDocblock (lines : List Str) (lineIndex : Nat) (maxLines : Nat := 5) : Str :=
  match lineIndex with
  | 0 => []
  | li + 1 =>
    let docLines := extractDocblockAux lines (lineIndex - maxLines) lineIndex li false []
    if docLines = [] then [] else jsTrim (intercalateStr ['\n'] docLines)

/-! Regex helpers for the enclosing-scope scanners.  Each `...MatchAt` tries
the regex anchored at one position; `findFirstPos` gives the leftmost match,
which is the JS `String.match` result. -/

def isWordChar (c : Char) : Bool :=
  c = '_' || (48 ≤ c.toNat && c.toNat ≤ 57) || (65 ≤ c.toNat && c.toNat ≤ 90) ||
    (97 ≤ c.toNat && c.toNat ≤ 122)

def litAt (s : Str) (i : Nat) (lit : Str) : Bool := startsWithS (s.drop i) lit

/-- Length of the whitespace run (`\s*`) at position `i`. -/
def wsRun (s : Str) (i : Nat) : Nat := ((s.drop i).takeWhile isJsSpace).length

/-- Length of the word-character run (`\w*`) at position `i`. -/
def wordRun (s : Str) (i : Nat) : Nat := ((s.drop i).takeWhile isWordChar).length

def findFirstPosF (n : Nat) (f : Nat → Option α) : Nat → Nat → Option α
  | 0, _ => none
  | fuel + 1, i =>
    if i < n then
      match f i with
      | some r => some r
      | none => findFirstPosF n f fuel (i + 1)
    else none

/-- Leftmost position `j ≥ i` below `n` where `f` matches (the JS
`regex.exec` / `String.match` search).  The counter `n - i` runs out exactly
when `i ≥ n`, where the search fails anyway. -/
def findFirstPos (n : Nat) (f : Nat → Option α) (i : Nat) : Option α :=
  findFirstPosF n f (n - i) i

/-- `function\s+(\w+)\s*\(` anchored at `q` (the capture of `phpFuncRe`;
its `(?:public|protected|private|static|\s)*` prefix never changes which
`function` token is captured by the leftmost match). -/
def phpFuncMatchAt (line : Str) (q : Nat) : Option Str :=
  if litAt line q (str "function") then
    let j := q + 8
    let w := wsRun line j
    if w ≥ 1 then
      let k := j + w
      let idl := wordRun line k
      if idl ≥ 1 then
        let m := k + idl
        if charIs line (m + wsRun line m) '(' then some (sliceStr line k (k + idl)) else none
      else none
    else none
  else none

/-- `line.match(phpFuncRe)` capture. -/
def phpFuncMatch (line : Str) : Option Str :=
  findFirstPos line.length (phpFuncMatchAt line) 0

/-- First alternative of `jsFuncRe`: `(?:async\s+)?function\s+(\w+)`. -/
def jsFuncBranch1 (line : Str) (q : Nat) : Option Str :=
  let tryAt : Nat → Option Str := fun p =>
    if litAt line p (str "function") then
      let j := p + 8
      let w := wsRun line j
      if w ≥ 1 then
        let k := j + w
        let idl := wordRun line k
        if idl ≥ 1 then some (sliceStr line k (k + idl)) else none
      else none
    else none
  if litAt line q (str "async") && wsRun line (q + 5) ≥ 1 then
    match tryAt (q + 5 + wsRun line (q + 5)) with
    | some r => some r
    | none => tryAt q
  else tryAt q

/-- After `=` in the second `jsFuncRe` alternative:
`(?:async\s+)?(?:function|\(|=>)` anchored at `p`. -/
def jsFuncTail (line : Str) (p : Nat) : Bool :=
  let direct : Nat → Bool := fun r =>
    litAt line r (str "function") || charIs line r '(' || litAt line r (str "=>")
  if litAt line p (str "async") && wsRun line (p + 5) ≥ 1 then
    direct (p + 5 + wsRun line (p + 5)) || direct p
  else direct p

/-- Second alternative of `jsFuncRe`:
`(?:const|let|var)\s+(\w+)\s*=\s*(?:async\s+)?(?:function|\(|=>)`. -/
def jsFuncBranch2 (line : Str) (q : Nat) : Option Str :=
  let kwLen :=
    if litAt line q (str "const") then some 5
    else if litAt line q (str "let") then some 3
    else if litAt line q (str "var") then some 3
    else none
  match kwLen with
  | none => none
  | some kl =>
    let j := q + kl
    let w := wsRun line j
    if w ≥ 1 then
      let k := j + w
      let idl := wordRun line k
      if idl ≥ 1 then
        let m := k + idl
        let m2 := m + wsRun line m
        if charIs line m2 '=' then
          let p := m2 + 1 + wsRun line (m2 + 1)
          if jsFuncTail line p then some (sliceStr line k (k + idl)) else none
        else none
      else none
    else none

def jsFuncMatchAt (line : Str) (q : Nat) : Option Str :=
  match jsFuncBranch1 line q with
  | some r => some r
  | none => jsFuncBranch2 line q

/-- `line.match(jsFuncRe)`: `jsMatch[1] || jsMatch[2]`. -/
def jsFuncMatch (line : Str) : Option Str :=
  findFirstPos line.length (jsFuncMatchAt line) 0

/-- `(?:abstract\s+)?class\s+(\w+)` anchored at `q` (capture). -/
def classMatchAt (line : Str) (q : Nat) : Option Str :=
  if litAt line q (str "class") then
    let j := q + 5
    let w := wsRun line j
    if w ≥ 1 then
      let k := j + w
      let idl := wordRun line k
      if idl ≥ 1 then some (sliceStr line k (k + idl)) else none
    else none
  else none

/-- `line.match(classRe)` capture. -/
def classMatch (line : Str) : Option Str :=
  findFirstPos line.length (classMatchAt line) 0

/-- Per-line brace count: `}` increments, `{` decrements (the source walks the
line right to left; only the sum matters). -/
def braceDelta (line : Str) : Int :=
  (Int.ofNat (line.filter (fun c => c = rbc)).length) -
    (Int.ofNat (line.filter (fun c => c = lbc)).length)

/-- Upward scan of `findEnclosingFunction` (`fuel` starts above the initial
index, so the downward scan always returns before it runs out). -/
def findEnclosingFunctionAux (lines : List Str) : Nat → Nat → Int → Option Str
  | 0, _, _ => none
  | fuel + 1, i, depth =>
    let line := lines.getD i []
    let depth2 := depth + braceDelta line
    let hit :=
      match phpFuncMatch line with
      | some nm => if depth2 ≤ 0 then some nm else none
      | none => none
    match hit with
    | some nm => some nm
    | none =>
      let hit2 :=
        match jsFuncMatch line with
        | some nm => if depth2 ≤ 0 then some nm else none
        | none => none
      match hit2 with
      | some nm => some nm
      | none => if i = 0 then none else findEnclosingFunctionAux lines fuel (i - 1) depth2

/-- `findEnclosingFunction(lines, lineIndex)`. -/
def findEnclosingFunction (lines : List Str) (lineIndex : Nat) : Option Str :=
  findEnclosingFunctionAux lines (lineIndex + 1) lineIndex 0

/-- Upward scan of `findEnclosingClass`. -/
def findEnclosingClassAux (lines : List Str) : Nat → Nat → Int → Option Str
  | 0, _, _ => none
  | fuel + 1, i, depth =>
    let line := lines.getD i []
    let depth2 := depth + braceDelta line
    let hit :=
      match classMatch line with
      | some nm => if depth2 ≤ 0 then some nm else none
      | none => none
    match hit with
    | some nm => some nm
    | none => if i = 0 then none else findEnclosingClassAux lines fuel (i - 1) depth2

/-- `findEnclosingClass(lines, lineIndex)`. -/
def findEnclosingClass (lines : List Str) (lineIndex : Nat) : Option Str :=
  findEnclosingClassAux lines (lineIndex + 1) lineIndex 0

/-! ### `src/indexer/php-parser.js` -/

/-- Loop of `skipString(content, i)` after the initial `i++`, with an
iteration counter: every iteration advances the index by at least one, so
starting the counter at `content.length` it can only run out once the JS
loop would also have exited (`i ≥ content.length`). -/
def skipStringLoop (content : Str) (quote : Char) : Nat → Nat → Nat
  | 0, i => i
  | fuel + 1, i =>
    if i < content.length then
      if charIs content i bsc then skipStringLoop content quote fuel (i + 2)
      else if charIs content i quote then i
      else skipStringLoop content quote fuel (i + 1)
    else i

/-- `skipString(content, i)`: `i` points at the opening quote. -/
def skipString (content : Str) (i : Nat) : Nat :=
  skipStringLoop content (content.getD i ' ') content.length (i + 1)

theorem skipStringLoop_ge (content : Str) (quote : Char) :
    ∀ fuel i, i ≤ skipStringLoop content quote fuel i := by
  intro fuel
  induction fuel with
  | zero => intro i; simp [skipStringLoop]
  | succ fuel ih =>
    intro i
    rw [skipStringLoop]
    split
    · split
      · have h2 := ih (i + 2)
        omega
      · split
        · omega
        · have h1 := ih (i + 1)
          omega
    · omega

theorem skipString_ge (content : Str) (i : Nat) : i + 1 ≤ skipString content i := by
  unfold skipString
  exact skipStringLoop_ge content (content.getD i ' ') content.length (i + 1)

/-- The `while (i < max && depth > 0)` loop of `extractArguments`, with an
explicit iteration counter.  Each iteration advances `i` by at least one, so
with `fuel = maxI - i` the counter can only hit zero once `i ≥ maxI`, i.e. at
a point where the JS loop would also have exited: the two are equivalent. -/
def extractArgumentsLoop (content : Str) (maxI : Nat) : Nat → Nat → Nat → Nat × Nat
  | 0, i, depth => (i, depth)
  | fuel + 1, i, depth =>
    if i < maxI ∧ depth > 0 then
      let st :=
        if charIs content i '(' then (i, depth + 1)
        else if charIs content i ')' then (i, depth - 1)
        else if charIs content i sqc || charIs content i dqc then (skipString content i, depth)
        else (i, depth)
      if st.2 > 0 then extractArgumentsLoop content maxI fuel (st.1 + 1) st.2
      else st
    else (i, depth)

/-- `extractArguments(content, start)`: balanced argument span after an
opening parenthesis, `null` if it does not balance within the safety limit. -/
def extractArguments (content : Str) (start : Nat) : Option Str :=
  let maxI := min (start + 2000) content.length
  let r := extractArgumentsLoop content maxI (maxI - start) start 1
  if r.2 ≠ 0 then none else some (sliceStr content start (r.1 - start + start))

/-- `splitArguments(argsStr)` / `splitJsArguments(argsStr)`: split on top-level
commas; `jsQuotes` selects whether the backtick is a string delimiter. -/
def splitArgumentsLoop (jsQuotes : Bool) :
    Str → Str → Int → Bool → Char → List Str → List Str
  | [], current, _, _, _, args =>
    if jsTrim current ≠ [] then args ++ [current] else args
  | ch :: rest, current, depth, inString, stringChar, args =>
    if inString then
      let current2 := current ++ [ch]
      if ch = bsc then
        match rest with
        | [] => if jsTrim current2 ≠ [] then args ++ [current2] else args
        | c2 :: rest2 => splitArgumentsLoop jsQuotes rest2 (current2 ++ [c2]) depth true stringChar args
      else if ch = stringChar then
        splitArgumentsLoop jsQuotes rest current2 depth false stringChar args
      else splitArgumentsLoop jsQuotes rest current2 depth true stringChar args
    else if ch = sqc || ch = dqc || (jsQuotes && ch = btc) then
      splitArgumentsLoop jsQuotes rest (current ++ [ch]) depth true ch args
    else if ch = '(' || ch = '[' || ch = lbc then
      splitArgumentsLoop jsQuotes rest (current ++ [ch]) (depth + 1) false stringChar args
    else if ch = ')' || ch = ']' || ch = rbc then
      splitArgumentsLoop jsQuotes rest (current ++ [ch]) (depth - 1) false stringChar args
    else if ch = ',' ∧ depth = 0 then
      splitArgumentsLoop jsQuotes rest [] depth false stringChar (args ++ [current])
    else splitArgumentsLoop jsQuotes rest (current ++ [ch]) depth false stringChar args

def splitArguments (argsStr : Str) : List Str :=
  splitArgumentsLoop false argsStr [] 0 false ' ' []

def phpIsQuote (c : Char) : Bool := c = sqc || c = dqc

/-- `^[q]([^q]...)[q]$` for a quote class `isQ`: first and last characters are
(possibly different) quotes and the body contains none; `plus` requires a
non-empty body (`+` vs `*`). -/
def quotedBody (isQ : Char → Bool) (plus : Bool) (s : Str) : Option Str :=
  if s.length ≥ 2 then
    let first := s.getD 0 ' '
    let lastc := s.getD (s.length - 1) ' '
    let mid := (s.drop 1).take (s.length - 2)
    if isQ first && isQ lastc && (!plus || decide (mid ≠ [])) && mid.all (fun c => !isQ c) then
      some mid
    else none
  else none

/-- The `{dynamic}` placeholder token. -/
def dynamicTok : Str := lbc :: str "dynamic" ++ [rbc]

/-- `cleanHookName(raw)`.  The source splits concatenations on the regex
`\s*\.\s*` and then trims each part before the quoted-literal test; splitting
on the bare dot character and trimming each part yields the same parts up to
the whitespace that the trim removes, hence the same result. -/
def cleanHookName (raw : Str) : Option Str :=
  let trimmed := jsTrim raw
  match quotedBody phpIsQuote true trimmed with
  | some name => some name
  | none =>
    if containsChar trimmed '.' || containsChar trimmed '$' then
      let parts := splitOnChar '.' trimmed
      let cleaned := (parts.map (fun part =>
        match quotedBody phpIsQuote false (jsTrim part) with
        | some m => m
        | none => dynamicTok)).flatten
      if cleaned = [] then none else some cleaned
    else if startsWithS trimmed ['$'] then some dynamicTok
    else none

/- Note: the `startsWithS trimmed ['$']` arm translates
`if (trimmed.startsWith('$'))`; it is unreachable because a string containing
`$` always takes the concatenation arm, exactly as in the source. -/

/-- The inline dynamic-name test of `parsePhpFile`:
`rawName.includes('$') || (rawName.includes('.') && !rawName.startsWith("'") && !rawName.startsWith('"'))`. -/
def phpIsDynamic (rawName : Str) : Bool :=
  containsChar rawName '$' ||
    (containsChar rawName '.' && !startsWithS rawName [sqc] && !startsWithS rawName [dqc])

/-- `TYPE_MAP[funcName]` (the final arm is `apply_filters_ref_array`). -/
def phpTypeMap (funcName : Str) : Str :=
  if funcName = str "do_action" then str "action"
  else if funcName = str "apply_filters" then str "filter"
  else if funcName = str "do_action_ref_array" then str "action_ref_array"
  else str "filter_ref_array"

/-- The alternatives of `HOOK_REGEX`, in source order. -/
def phpHookAlts : List Str :=
  [str "do_action", str "apply_filters", str "do_action_ref_array", str "apply_filters_ref_array"]

structure RegexHit where
  funcName : Str
  index : Nat
  endIdx : Nat
deriving Repr, DecidableEq

/-- One alternative followed by `\s*\(\s*`, anchored at `i`; returns the match
end (= the offset just past the opening parenthesis and trailing spaces). -/
def phpAltAt (content : Str) (i : Nat) (alt : Str) : Option Nat :=
  if litAt content i alt then
    let j := i + alt.length
    let j2 := j + wsRun content j
    if charIs content j2 '(' then some (j2 + 1 + wsRun content (j2 + 1)) else none
  else none

def phpTryAlts (content : Str) (i : Nat) : List Str → Option (Str × Nat)
  | [] => none
  | alt :: rest =>
    match phpAltAt content i alt with
    | some e => some (alt, e)
    | none => phpTryAlts content i rest

/-- `HOOK_REGEX` anchored at `i` (`\b` word boundary, then the ordered
alternation with backtracking into `\s*\(\s*`). -/
def phpMatchAt (content : Str) (i : Nat) : Option RegexHit :=
  if i = 0 || !isWordChar (content.getD (i - 1) ' ') then
    match phpTryAlts content i phpHookAlts with
    | some (alt, e) => some { funcName := alt, index := i, endIdx := e }
    | none => none
  else none

theorem takeWhileLen {α : Type} (p : α → Bool) (l : List α) :
    (l.takeWhile p).length ≤ l.length := by
  induction l with
  | nil => simp
  | cons c cs ih =>
    by_cases h : p c <;> simp [List.takeWhile_cons, h] <;> omega

theorem wsRun_le (s : Str) (i : Nat) : wsRun s i ≤ s.length - i := by
  unfold wsRun
  have h1 := takeWhileLen isJsSpace (s.drop i)
  simpa using h1

theorem charIs_lt (s : Str) (i : Nat) (c : Char) (h : charIs s i c = true) :
    i < s.length := by
  unfold charIs charAt at h
  by_cases hlen : i < s.length
  · exact hlen
  · rw [List.get?_eq_none.mpr (by omega)] at h
    simp at h

theorem charIs_some (s : Str) (i : Nat) (c : Char) (h : charIs s i c = true) :
    charAt s i = some c := by
  unfold charIs at h
  split at h
  · next x hx => simp only [decide_eq_true_eq] at h; rw [hx, h]
  · simp at h

theorem phpAltAt_bounds (content : Str) (i : Nat) (alt : Str) (e : Nat)
    (h : phpAltAt content i alt = some e) : i < e ∧ e ≤ content.length := by
  simp only [phpAltAt] at h
  split at h
  · split at h
    · next hc =>
      have hlt := charIs_lt _ _ _ hc
      have hws := wsRun_le content (i + alt.length + wsRun content (i + alt.length) + 1)
      simp only [Option.some.injEq] at h
      omega
    · simp at h
  · simp at h

theorem phpTryAlts_bounds (content : Str) (i : Nat) (alts : List Str) (alt : Str) (e : Nat)
    (h : phpTryAlts content i alts = some (alt, e)) : i < e ∧ e ≤ content.length := by
  induction alts with
  | nil => simp [phpTryAlts] at h
  | cons a rest ih =>
    unfold phpTryAlts at h
    split at h
    · next e2 he =>
      simp only [Option.some.injEq, Prod.mk.injEq] at h
      obtain ⟨h1, h2⟩ := h
      subst h2
      exact phpAltAt_bounds content i a e2 he
    · exact ih h

theorem phpMatchAt_bounds (content : Str) (i : Nat) (hit : RegexHit)
    (h : phpMatchAt content i = some hit) :
    hit.index = i ∧ i < hit.endIdx ∧ hit.endIdx ≤ content.length := by
  unfold phpMatchAt at h
  split at h
  · split at h
    · next alt e he =>
      simp only [Option.some.injEq] at h
      subst h
      have := phpTryAlts_bounds content i phpHookAlts alt e he
      exact ⟨rfl, this.1, this.2⟩
    · exact absurd h (by simp)
  · exact absurd h (by simp)

theorem findFirstPosF_some {α : Type} (n : Nat) (f : Nat → Option α) :
    ∀ fuel i r, findFirstPosF n f fuel i = some r → ∃ j, i ≤ j ∧ j < n ∧ f j = some r := by
  intro fuel
  induction fuel with
  | zero => intro i r h; simp [findFirstPosF] at h
  | succ fuel ih =>
    intro i r h
    rw [findFirstPosF] at h
    split at h
    · next hin =>
      split at h
      · next a hf =>
        refine ⟨i, le_refl i, hin, ?_⟩
        rw [hf, h]
      · obtain ⟨j, hj1, hj2, hj3⟩ := ih (i + 1) r h
        exact ⟨j, by omega, hj2, hj3⟩
    · exact absurd h (by simp)

theorem findFirstPos_some {α : Type} (n : Nat) (f : Nat → Option α) :
    ∀ i r, findFirstPos n f i = some r → ∃ j, i ≤ j ∧ j < n ∧ f j = some r := by
  intro i r h
  exact findFirstPosF_some n f (n - i) i r h

/-- One extracted hook record, as built inside `parsePhpFile`/`parseJsFile`
(the object passed to `upsertHook`). -/
structure HookData where
  source_id : Nat
  file_path : Str
  line_number : Nat
  name : Str
  type : Str
  php_function : Option Str
  params : Option Str
  param_count : Nat
  docblock : Option Str
  inferred_description : Option Str
  function_context : Option Str
  class_name : Option Str
  code_before : Option Str
  code_after : Option Str
  hook_line : Option Str
  is_dynamic : Nat
  content_hash : Str
deriving Repr, DecidableEq

/-- `s || null` on a string field. -/
def optOfStr (s : Str) : Option Str := if s = [] then none else some s

def jsOfOpt (o : Option Str) : JsVal :=
  match o with
  | some s => JsVal.strv s
  | none => JsVal.null

/-- The content hash of a hook record: `generateContentHash(hookData)`.
`hookData` carries its line text under the key `hook_line`, so the
`data.hookLine` read inside `generateContentHash` is JS `undefined` and the
property is omitted from the hashed JSON. -/
def hookRecordHash (name ty : Str) (params docblock : Option Str) : Str :=
  generateContentHash (JsVal.strv name) (JsVal.strv ty) (jsOfOpt params) (jsOfOpt docblock)
    JsVal.undef

/-- Body of the `while` loop of `parsePhpFile` for one regex hit: `continue`
(on an unbalanced span, an empty argument list, or an unusable name
expression) is `none`; otherwise the pushed hook record. -/
def processPhpMatch (content : Str) (lines : List Str) (filePath : Str) (sourceId : Nat)
    (hit : RegexHit) : Option HookData :=
  let ty := phpTypeMap hit.funcName
  match extractArguments content hit.endIdx with
  | none => none
  | some argsStr =>
    match splitArguments argsStr with
    | [] => none
    | arg0 :: restArgs =>
      let rawName := jsTrim arg0
      match cleanHookName rawName with
      | none => none
      | some hookName =>
        let isDynamic := phpIsDynamic rawName
        let lineNumber := getLineNumber content hit.index
        let lineIndex := lineNumber - 1
        let params := (restArgs.map jsTrim).filter (fun p => p ≠ [])
        let paramsField := if params = [] then none else some (intercalateStr (str ", ") params)
        let docblock := optOfStr (extractDocblock lines lineIndex)
        let cw := extractCodeWindow lines lineIndex
        let phpFunction := findEnclosingFunction lines lineIndex
        let className := findEnclosingClass lines lineIndex
        let isDynArg := if isDynamic then 1 else 0
        some
          { source_id := sourceId
            file_path := filePath
            line_number := lineNumber
            name := hookName
            type := ty
            php_function := phpFunction
            params := paramsField
            param_count := params.length
            docblock := docblock
            inferred_description :=
              some (inferDescription ty isDynArg hookName phpFunction className params.length)
            function_context := phpFunction
            class_name := className
            code_before := optOfStr cw.codeBefore
            code_after := optOfStr cw.codeAfter
            hook_line := optOfStr cw.hookLine
            is_dynamic := isDynArg
            content_hash := hookRecordHash hookName ty paramsField docblock }

/-- The `while ((match = HOOK_REGEX.exec(content)) !== null)` loop, with an
iteration counter.  Every accepted match strictly advances `lastIndex` within
the content, so a counter starting at `content.length + 1` runs out only at a
`lastIndex` past the content, where `exec` fails anyway. -/
def phpLoopF (content : Str) (lines : List Str) (filePath : Str) (sourceId : Nat) :
    Nat → Nat → List HookData
  | 0, _ => []
  | fuel + 1, lastIndex =>
    match findFirstPos content.length (phpMatchAt content) lastIndex with
    | none => []
    | some hit =>
      match processPhpMatch content lines filePath sourceId hit with
      | none => phpLoopF content lines filePath sourceId fuel hit.endIdx
      | some hk => hk :: phpLoopF content lines filePath sourceId fuel hit.endIdx

def phpLoop (content : Str) (lines : List Str) (filePath : Str) (sourceId : Nat)
    (lastIndex : Nat) : List HookData :=
  phpLoopF content lines filePath sourceId (content.length + 1 - lastIndex) lastIndex

/-- `parsePhpFile(content, filePath, sourceId)`.  The function first resets
`HOOK_REGEX.lastIndex` to 0, so the scan always starts at offset 0. -/
def parsePhpFile (content : Str) (filePath : Str) (sourceId : Nat) : List HookData :=
  phpLoop content (splitOnChar '\n' content) filePath sourceId 0

/-- `parsePhpFile` together with the module-level `HOOK_REGEX.lastIndex`
state: the entry reset (`HOOK_REGEX.lastIndex = 0`) discards the incoming
state, and the final failed `exec` resets `lastIndex` to 0 again. -/
def parsePhpFileSt (content : Str) (filePath : Str) (sourceId : Nat) (st : Nat) :
    List HookData × Nat :=
  let _ := st
  (parsePhpFile content filePath sourceId, 0)

/-- The sequence of regex hits `HOOK_REGEX.exec` produces, without the loop
body: used to state that a failed extraction drops one hit and continues. -/
def phpMatchesF (content : Str) : Nat → Nat → List RegexHit
  | 0, _ => []
  | fuel + 1, lastIndex =>
    match findFirstPos content.length (phpMatchAt content) lastIndex with
    | none => []
    | some hit => hit :: phpMatchesF content fuel hit.endIdx

def phpMatches (content : Str) (lastIndex : Nat) : List RegexHit :=
  phpMatchesF content (content.length + 1 - lastIndex) lastIndex

theorem phpLoopF_eq_filterMap (content : Str) (lines : List Str) (filePath : Str)
    (sourceId : Nat) :
    ∀ fuel lastIndex, phpLoopF content lines filePath sourceId fuel lastIndex =
      (phpMatchesF content fuel lastIndex).filterMap
        (processPhpMatch content lines filePath sourceId) := by
  intro fuel
  induction fuel with
  | zero => intro li; simp [phpLoopF, phpMatchesF]
  | succ fuel ih =>
    intro li
    rw [phpLoopF, phpMatchesF]
    split
    · simp
    · next hit hfind =>
      have hrec := ih hit.endIdx
      rw [List.filterMap_cons]
      split
      · next hp => rw [hrec, hp]
      · next hk hp => rw [hrec, hp]

theorem phpLoop_eq_filterMap (content : Str) (lines : List Str) (filePath : Str)
    (sourceId : Nat) (lastIndex : Nat) :
    phpLoop content lines filePath sourceId lastIndex =
      (phpMatches content lastIndex).filterMap
        (processPhpMatch content lines filePath sourceId) :=
  phpLoopF_eq_filterMap content lines filePath sourceId _ lastIndex

/-! ### `src/indexer/js-parser.js` -/

def jsIsQuote (c : Char) : Bool := c = sqc || c = dqc || c = btc

/-- Inner loop of `skipJsString` skipping a `${...}` template expression
(counts nested braces; leaves the index on the closing brace). -/
def jsTplBraceLoop (content : Str) : Nat → Nat → Nat → Nat
  | 0, i, _ => i
  | fuel + 1, i, depth =>
    if i < content.length ∧ depth > 0 then
      let depth2 :=
        if charIs content i lbc then depth + 1
        else if charIs content i rbc then depth - 1
        else depth
      if depth2 > 0 then jsTplBraceLoop content fuel (i + 1) depth2 else i
    else i

/-- Loop of `skipJsString` after the initial `i++`.  `fuel` is an iteration
counter: every iteration advances the index, so starting it at
`content.length` it can only run out once the JS loop would have exited. -/
def skipJsStringLoop (content : Str) (quote : Char) : Nat → Nat → Nat
  | 0, i => i
  | fuel + 1, i =>
    if i < content.length then
      if charIs content i bsc then skipJsStringLoop content quote fuel (i + 2)
      else
        let i2 :=
          if quote = btc ∧ charIs content i '$' ∧ charIs content (i + 1) lbc then
            jsTplBraceLoop content (content.length - (i + 2)) (i + 2) 1
          else i
        if charIs content i2 quote then i2
        else skipJsStringLoop content quote fuel (i2 + 1)
    else i

/-- `skipJsString(content, i)`. -/
def skipJsString (content : Str) (i : Nat) : Nat :=
  skipJsStringLoop content (content.getD i ' ') content.length (i + 1)

/-- `while (i < max && content[i] !== '\n') i++` of the line-comment branch. -/
def lineCommentSkip (content : Str) (maxI i : Nat) : Nat :=
  i + (((content.drop i).take (maxI - i)).takeWhile (fun c => c ≠ '\n')).length

/-- `while (i < max && !(content[i] === '*' && content[i+1] === '/')) i++`. -/
def blockCommentSkip (content : Str) (maxI : Nat) : Nat → Nat → Nat
  | 0, i => i
  | fuel + 1, i =>
    if i < maxI ∧ ¬(charIs content i '*' ∧ charIs content (i + 1) '/') then
      blockCommentSkip content maxI fuel (i + 1)
    else i

/-- The `while (i < max && depth > 0)` loop of `extractJsArguments`, with an
iteration counter as in `extractArgumentsLoop`. -/
def extractJsArgumentsLoop (content : Str) (maxI : Nat) : Nat → Nat → Nat → Nat × Nat
  | 0, i, depth => (i, depth)
  | fuel + 1, i, depth =>
    if i < maxI ∧ depth > 0 then
      let st :=
        if charIs content i '(' then (i, depth + 1)
        else if charIs content i ')' then (i, depth - 1)
        else if charIs content i sqc || charIs content i dqc || charIs content i btc then
          (skipJsString content i, depth)
        else if charIs content i '/' ∧ i + 1 < maxI ∧ charIs content (i + 1) '/' then
          (lineCommentSkip content maxI i, depth)
        else if charIs content i '/' ∧ i + 1 < maxI ∧ charIs content (i + 1) '*' then
          (blockCommentSkip content maxI (maxI - (i + 2)) (i + 2) + 1, depth)
        else (i, depth)
      if st.2 > 0 then extractJsArgumentsLoop content maxI fuel (st.1 + 1) st.2
      else st
    else (i, depth)

/-- `extractJsArguments(content, start)`. -/
def extractJsArguments (content : Str) (start : Nat) : Option Str :=
  let maxI := min (start + 5000) content.length
  let r := extractJsArgumentsLoop content maxI (maxI - start) start 1
  if r.2 ≠ 0 then none else some (sliceStr content start (r.1 - start + start))

def splitJsArguments (argsStr : Str) : List Str :=
  splitArgumentsLoop true argsStr [] 0 false ' ' []

/-- `/^`([^$`]+)`$/`: template literal without expressions. -/
def jsTemplateMatch (s : Str) : Option Str :=
  if s.length ≥ 2 then
    let mid := (s.drop 1).take (s.length - 2)
    if s.getD 0 ' ' = btc && s.getD (s.length - 1) ' ' = btc &&
        decide (mid ≠ []) && mid.all (fun c => !(c = '$' || c = btc)) then
      some mid
    else none
  else none

/-- Fueled scanner behind `replaceTplExprs`: the remaining input shrinks at
every step, so with the input length as the counter the zero case is only
reached on the empty string. -/
def replaceTplExprsF : Nat → Str → Str
  | 0, _ => []
  | _ + 1, [] => []
  | fuel + 1, c :: cs =>
    if c = '$' then
      match cs with
      | c2 :: cs2 =>
        if c2 = lbc then
          let body := cs2.takeWhile (fun x => x ≠ rbc)
          if body ≠ [] ∧ charIs cs2 body.length rbc then
            dynamicTok ++ replaceTplExprsF fuel (cs2.drop (body.length + 1))
          else c :: replaceTplExprsF fuel (c2 :: cs2)
        else c :: replaceTplExprsF fuel (c2 :: cs2)
      | [] => [c]
    else c :: replaceTplExprsF fuel cs

/-- `.replace(/\$\{[^}]+\}/g, '{dynamic}')`: global left-to-right replacement
of each `${...}` span (body non-empty, no closing brace inside). -/
def replaceTplExprs (s : Str) : Str := replaceTplExprsF s.length s

/-- `cleanJsHookName(raw)`.  As in `cleanHookName`, the `\s*\+\s*` split
followed by per-part trimming is rendered as a split on `+` with trimming. -/
def cleanJsHookName (raw : Str) : Option Str :=
  let trimmed := jsTrim raw
  match quotedBody jsIsQuote true trimmed with
  | some name => some name
  | none =>
    match jsTemplateMatch trimmed with
    | some name => some name
    | none =>
      if startsWithS trimmed [btc] then
        let r := replaceTplExprs (trimmed.filter (fun c => c ≠ btc))
        if r = [] then none else some r
      else if containsChar trimmed '+' then
        let parts := splitOnChar '+' trimmed
        let cleaned := (parts.map (fun part =>
          match quotedBody jsIsQuote false (jsTrim part) with
          | some m => m
          | none => dynamicTok)).flatten
        if cleaned = [] then none else some cleaned
      else none

/-- The inline dynamic-name test of `parseJsFile`:
``rawName.includes('`') || rawName.includes('${') || rawName.includes('+')``. -/
def jsIsDynamic (rawName : Str) : Bool :=
  containsChar rawName btc || containsSub rawName ['$', lbc] || containsChar rawName '+'

/-- `JS_TYPE_MAP[funcName]` (the final arm is `doAction`). -/
def jsTypeMap (funcName : Str) : Str :=
  if funcName = str "addAction" then str "js_action"
  else if funcName = str "addFilter" then str "js_filter"
  else if funcName = str "applyFilters" then str "js_filter"
  else str "js_action"

def jsHookAlts : List Str :=
  [str "addAction", str "addFilter", str "applyFilters", str "doAction"]

def jsBlockAlts : List Str :=
  [str "registerBlockType", str "registerBlockVariation", str "registerBlockStyle",
   str "registerBlockCollection"]

/-- A keyword-call regex (`\b(kw1|...|kwn)\s*\(\s*`) anchored at `i`:
shared shape of `JS_HOOK_REGEX` and `BLOCK_REG_REGEX`. -/
def keywordMatchAt (alts : List Str) (content : Str) (i : Nat) : Option RegexHit :=
  if i = 0 || !isWordChar (content.getD (i - 1) ' ') then
    match phpTryAlts content i alts with
    | some (alt, e) => some { funcName := alt, index := i, endIdx := e }
    | none => none
  else none

theorem keywordMatchAt_bounds (alts : List Str) (content : Str) (i : Nat) (hit : RegexHit)
    (h : keywordMatchAt alts content i = some hit) :
    hit.index = i ∧ i < hit.endIdx ∧ hit.endIdx ≤ content.length := by
  unfold keywordMatchAt at h
  split at h
  · split at h
    · next alt e he =>
      simp only [Option.some.injEq] at h
      subst h
      have := phpTryAlts_bounds content i alts alt e he
      exact ⟨rfl, this.1, this.2⟩
    · exact absurd h (by simp)
  · exact absurd h (by simp)

/-- The namespace alternation of `API_USAGE_REGEX`, in source order. -/
def apiNamespaces : List Str :=
  [str "blocks", str "editor", str "blockEditor", str "data", str "element", str "components",
   str "plugins", str "editPost", str "editSite", str "hooks", str "i18n", str "richText"]

structure ApiHit where
  api_namespace : Str
  methodName : Str
  index : Nat
  endIdx : Nat
deriving Repr, DecidableEq

/-- One namespace alternative at offset `j` (just after `wp.`), followed by
`\s*\.\s*(\w+)`. -/
def apiNsAt (content : Str) (j : Nat) (ns : Str) : Option (Str × Str × Nat) :=
  if litAt content j ns then
    let k := j + ns.length
    let k2 := k + wsRun content k
    if charIs content k2 '.' then
      let k3 := k2 + 1 + wsRun content (k2 + 1)
      let ml := wordRun content k3
      if ml ≥ 1 then some (ns, sliceStr content k3 (k3 + ml), k3 + ml) else none
    else none
  else none

/-- Try the namespace alternatives in source order. -/
def apiTryNs (content : Str) (j : Nat) : List Str → Option (Str × Str × Nat)
  | [] => none
  | ns :: rest =>
    match apiNsAt content j ns with
    | some r => some r
    | none => apiTryNs content j rest

/-- `API_USAGE_REGEX` anchored at `i`. -/
def apiMatchAt (content : Str) (i : Nat) : Option ApiHit :=
  if i = 0 || !isWordChar (content.getD (i - 1) ' ') then
    if litAt content i (str "wp.") then
      match apiTryNs content (i + 3) apiNamespaces with
      | some (ns, m, e) => some { api_namespace := ns, methodName := m, index := i, endIdx := e }
      | none => none
    else none
  else none

theorem wordRun_le (s : Str) (i : Nat) : wordRun s i ≤ s.length - i := by
  unfold wordRun
  have h1 := takeWhileLen isWordChar (s.drop i)
  simpa using h1

theorem apiNsAt_bounds (content : Str) (j : Nat) (a ns m : Str) (e : Nat)
    (h : apiNsAt content j a = some (ns, m, e)) : j < e ∧ e ≤ content.length := by
  simp only [apiNsAt] at h
  split at h
  · split at h
    · next hdot =>
      split at h
      · next hml =>
        simp only [Option.some.injEq, Prod.mk.injEq] at h
        obtain ⟨-, -, he⟩ := h
        have hlt := charIs_lt _ _ _ hdot
        have hws := wsRun_le content (j + a.length + wsRun content (j + a.length) + 1)
        have hwr := wordRun_le content
          (j + a.length + wsRun content (j + a.length) + 1 +
            wsRun content (j + a.length + wsRun content (j + a.length) + 1))
        omega
      · exact absurd h (by simp)
    · exact absurd h (by simp)
  · exact absurd h (by simp)

theorem apiTryNs_bounds (content : Str) (j : Nat) (alts : List Str) (ns m : Str) (e : Nat)
    (h : apiTryNs content j alts = some (ns, m, e)) : j < e ∧ e ≤ content.length := by
  induction alts with
  | nil => simp [apiTryNs] at h
  | cons a rest ih =>
    unfold apiTryNs at h
    split at h
    · next r hr =>
      simp only [Option.some.injEq] at h
      subst h
      exact apiNsAt_bounds content j a ns m e hr
    · exact ih h

theorem apiMatchAt_bounds (content : Str) (i : Nat) (hit : ApiHit)
    (h : apiMatchAt content i = some hit) :
    hit.index = i ∧ i < hit.endIdx ∧ hit.endIdx ≤ content.length := by
  unfold apiMatchAt at h
  split at h
  · split at h
    · split at h
      · next ns m e he =>
        simp only [Option.some.injEq] at h
        subst h
        have := apiTryNs_bounds content (i + 3) apiNamespaces ns m e he
        exact ⟨rfl, show i < e by omega, this.2⟩
      · exact absurd h (by simp)
    · exact absurd h (by simp)
  · exact absurd h (by simp)

structure BlockData where
  source_id : Nat
  file_path : Str
  line_number : Nat
  block_name : Str
  block_title : Option Str
  block_category : Option Str
  block_attributes : Option Str
  supports : Option Str
  code_context : Option Str
  content_hash : Str
deriving Repr, DecidableEq

structure ApiData where
  source_id : Nat
  file_path : Str
  line_number : Nat
  api_call : Str
  api_namespace : Str
  method : Str
  code_context : Option Str
  content_hash : Str
deriving Repr, DecidableEq

structure JsParseResult where
  hooks : List HookData
  blocks : List BlockData
  apis : List ApiData
deriving Repr, DecidableEq

/-- Whether the character at `i` is one of the three quote characters. -/
def charIsQuoteAt (s : Str) (i : Nat) : Bool :=
  match charAt s i with
  | some c => jsIsQuote c
  | none => false

/-- The tail of `extractProperty`'s regex after the property name:
`['"]?\s*:\s*['"`]([^'"`]+)['"`]` anchored at `p` (with the optional-quote
backtracking of the regex engine). -/
def extractPropertyTail (objStr : Str) (p : Nat) : Option Str :=
  let rest : Nat → Option Str := fun p1 =>
    let p2 := p1 + wsRun objStr p1
    if charIs objStr p2 ':' then
      let p3 := p2 + 1 + wsRun objStr (p2 + 1)
      match charAt objStr p3 with
      | some qch =>
        if jsIsQuote qch then
          let body := (objStr.drop (p3 + 1)).takeWhile (fun c => !jsIsQuote c)
          if decide (body ≠ []) && charIsQuoteAt objStr (p3 + 1 + body.length) then
            some body
          else none
        else none
      | none => none
    else none
  match charAt objStr p with
  | some c =>
    if phpIsQuote c then
      match rest (p + 1) with
      | some r => some r
      | none => rest p
    else rest p
  | none => rest p

/-- `(?:['"]?prop['"]?)\s*:\s*['"`]([^'"`]+)['"`]` anchored at `q`. -/
def extractPropertyAt (objStr : Str) (prop : Str) (q : Nat) : Option Str :=
  let plain : Option Str :=
    if litAt objStr q prop then extractPropertyTail objStr (q + prop.length) else none
  match charAt objStr q with
  | some c =>
    if phpIsQuote c ∧ litAt objStr (q + 1) prop then
      match extractPropertyTail objStr (q + 1 + prop.length) with
      | some r => some r
      | none => plain
    else plain
  | none => plain

/-- `extractProperty(objStr, prop)`. -/
def extractProperty (objStr : Str) (prop : Str) : Option Str :=
  findFirstPos objStr.length (extractPropertyAt objStr prop) 0

/-- Body of the JS-hooks `while` loop for one regex hit. -/
def processJsHookMatch (content : Str) (lines : List Str) (filePath : Str) (sourceId : Nat)
    (hit : RegexHit) : Option HookData :=
  let ty := jsTypeMap hit.funcName
  match extractJsArguments content hit.endIdx with
  | none => none
  | some argsStr =>
    match splitJsArguments argsStr with
    | [] => none
    | arg0 :: restArgs =>
      let rawName := jsTrim arg0
      match cleanJsHookName rawName with
      | none => none
      | some hookName =>
        let isDynamic := jsIsDynamic rawName
        let lineNumber := getLineNumber content hit.index
        let lineIndex := lineNumber - 1
        let params := (restArgs.map jsTrim).filter (fun p => p ≠ [])
        let paramsField := if params = [] then none else some (intercalateStr (str ", ") params)
        let docblock := optOfStr (extractDocblock lines lineIndex)
        let cw := extractCodeWindow lines lineIndex
        let jsFunction := findEnclosingFunction lines lineIndex
        let isDynArg := if isDynamic then 1 else 0
        some
          { source_id := sourceId
            file_path := filePath
            line_number := lineNumber
            name := hookName
            type := ty
            php_function := jsFunction
            params := paramsField
            param_count := params.length
            docblock := docblock
            inferred_description :=
              some (inferDescription ty isDynArg hookName jsFunction none params.length)
            function_context := jsFunction
            class_name := none
            code_before := optOfStr cw.codeBefore
            code_after := optOfStr cw.codeAfter
            hook_line := optOfStr cw.hookLine
            is_dynamic := isDynArg
            content_hash := hookRecordHash hookName ty paramsField docblock }

/-- Body of the block-registrations `while` loop for one regex hit. -/
def processJsBlockMatch (content : Str) (lines : List Str) (filePath : Str) (sourceId : Nat)
    (hit : RegexHit) : Option BlockData :=
  match extractJsArguments content hit.endIdx with
  | none => none
  | some argsStr =>
    match splitJsArguments argsStr with
    | [] => none
    | arg0 :: restArgs =>
      match cleanJsHookName (jsTrim arg0) with
      | none => none
      | some blockName =>
        let lineNumber := getLineNumber content hit.index
        let lineIndex := lineNumber - 1
        let cw := extractCodeWindow lines lineIndex 4 20
        let settingsStr :=
          if restArgs.length > 0 then intercalateStr (str ", ") restArgs else []
        let blockTitle := extractProperty settingsStr (str "title")
        let blockCategory := extractProperty settingsStr (str "category")
        let codeContext :=
          intercalateStr ['\n'] ([cw.codeBefore, cw.hookLine, cw.codeAfter].filter (fun s => s ≠ []))
        some
          { source_id := sourceId
            file_path := filePath
            line_number := lineNumber
            block_name := blockName
            block_title := blockTitle
            block_category := blockCategory
            block_attributes := none
            supports := none
            code_context := optOfStr (codeContext.take 2000)
            content_hash :=
              generateContentHash (JsVal.strv blockName) (JsVal.strv hit.funcName)
                (JsVal.strv settingsStr) (JsVal.strv []) (JsVal.strv cw.hookLine) }

/-- Body of the API-usages `while` loop (never discards a hit). -/
def processJsApiMatch (content : Str) (lines : List Str) (filePath : Str) (sourceId : Nat)
    (hit : ApiHit) : ApiData :=
  let apiCall := str "wp." ++ hit.api_namespace ++ '.' :: hit.methodName
  let lineNumber := getLineNumber content hit.index
  let lineIndex := lineNumber - 1
  let cw := extractCodeWindow lines lineIndex 3 3
  let codeContext :=
    intercalateStr ['\n'] ([cw.codeBefore, cw.hookLine, cw.codeAfter].filter (fun s => s ≠ []))
  { source_id := sourceId
    file_path := filePath
    line_number := lineNumber
    api_call := apiCall
    api_namespace := hit.api_namespace
    method := hit.methodName
    code_context := optOfStr (codeContext.take 2000)
    content_hash :=
      generateContentHash (JsVal.strv apiCall) (JsVal.strv (str "api_usage"))
        (JsVal.strv []) (JsVal.strv []) (JsVal.strv cw.hookLine) }

/-- The `JS_HOOK_REGEX` scan loop of `parseJsFile` (iteration counter as in
`phpLoopF`). -/
def jsHooksLoopF (content : Str) (lines : List Str) (filePath : Str) (sourceId : Nat) :
    Nat → Nat → List HookData
  | 0, _ => []
  | fuel + 1, lastIndex =>
    match findFirstPos content.length (keywordMatchAt jsHookAlts content) lastIndex with
    | none => []
    | some hit =>
      match processJsHookMatch content lines filePath sourceId hit with
      | none => jsHooksLoopF content lines filePath sourceId fuel hit.endIdx
      | some hk => hk :: jsHooksLoopF content lines filePath sourceId fuel hit.endIdx

def jsHooksLoop (content : Str) (lines : List Str) (filePath : Str) (sourceId : Nat)
    (lastIndex : Nat) : List HookData :=
  jsHooksLoopF content lines filePath sourceId (content.length + 1 - lastIndex) lastIndex

/-- The hit sequence of the `JS_HOOK_REGEX` scan. -/
def jsHookMatchesF (content : Str) : Nat → Nat → List RegexHit
  | 0, _ => []
  | fuel + 1, lastIndex =>
    match findFirstPos content.length (keywordMatchAt jsHookAlts content) lastIndex with
    | none => []
    | some hit => hit :: jsHookMatchesF content fuel hit.endIdx

def jsHookMatches (content : Str) (lastIndex : Nat) : List RegexHit :=
  jsHookMatchesF content (content.length + 1 - lastIndex) lastIndex

/-- The `BLOCK_REG_REGEX` scan loop of `parseJsFile`. -/
def jsBlocksLoopF (content : Str) (lines : List Str) (filePath : Str) (sourceId : Nat) :
    Nat → Nat → List BlockData
  | 0, _ => []
  | fuel + 1, lastIndex =>
    match findFirstPos content.length (keywordMatchAt jsBlockAlts content) lastIndex with
    | none => []
    | some hit =>
      match processJsBlockMatch content lines filePath sourceId hit with
      | none => jsBlocksLoopF content lines filePath sourceId fuel hit.endIdx
      | some bd => bd :: jsBlocksLoopF content lines filePath sourceId fuel hit.endIdx

def jsBlocksLoop (content : Str) (lines : List Str) (filePath : Str) (sourceId : Nat)
    (lastIndex : Nat) : List BlockData :=
  jsBlocksLoopF content lines filePath sourceId (content.length + 1 - lastIndex) lastIndex

/-- The `API_USAGE_REGEX` scan loop of `parseJsFile`. -/
def jsApisLoopF (content : Str) (lines : List Str) (filePath : Str) (sourceId : Nat) :
    Nat → Nat → List ApiData
  | 0, _ => []
  | fuel + 1, lastIndex =>
    match findFirstPos content.length (apiMatchAt content) lastIndex with
    | none => []
    | some hit =>
      processJsApiMatch content lines filePath sourceId hit ::
        jsApisLoopF content lines filePath sourceId fuel hit.endIdx

def jsApisLoop (content : Str) (lines : List Str) (filePath : Str) (sourceId : Nat)
    (lastIndex : Nat) : List ApiData :=
  jsApisLoopF content lines filePath sourceId (content.length + 1 - lastIndex) lastIndex

theorem jsHooksLoopF_eq_filterMap (content : Str) (lines : List Str) (filePath : Str)
    (sourceId : Nat) :
    ∀ fuel lastIndex, jsHooksLoopF content lines filePath sourceId fuel lastIndex =
      (jsHookMatchesF content fuel lastIndex).filterMap
        (processJsHookMatch content lines filePath sourceId) := by
  intro fuel
  induction fuel with
  | zero => intro li; simp [jsHooksLoopF, jsHookMatchesF]
  | succ fuel ih =>
    intro li
    rw [jsHooksLoopF, jsHookMatchesF]
    split
    · simp
    · next hit hfind =>
      have hrec := ih hit.endIdx
      rw [List.filterMap_cons]
      split
      · next hp => rw [hrec, hp]
      · next hk hp => rw [hrec, hp]

/-- `parseJsFile(content, filePath, sourceId)`.  Each of the three regexes has
its `lastIndex` reset before its loop, so every scan starts at offset 0. -/
def parseJsFile (content : Str) (filePath : Str) (sourceId : Nat) : JsParseResult :=
  let lines := splitOnChar '\n' content
  { hooks := jsHooksLoop content lines filePath sourceId 0
    blocks := jsBlocksLoop content lines filePath sourceId 0
    apis := jsApisLoop content lines filePath sourceId 0 }

/-- `parseJsFile` with the module-level `lastIndex` states of the three
regexes threaded (each is reset on entry and ends at 0 after the failed
final `exec`). -/
def parseJsFileSt (content : Str) (filePath : Str) (sourceId : Nat) (st : Nat × Nat × Nat) :
    JsParseResult × (Nat × Nat × Nat) :=
  let _ := st
  (parseJsFile content filePath sourceId, (0, 0, 0))

/-! ### `src/db/sqlite.js` — tables as lists of rows -/

structure SourceRow where
  id : Nat
  name : Str
deriving Repr, DecidableEq

structure HookRow where
  id : Nat
  source_id : Nat
  file_path : Str
  line_number : Nat
  name : Str
  type : Str
  php_function : Option Str
  params : Option Str
  param_count : Nat
  docblock : Option Str
  inferred_description : Option Str
  function_context : Option Str
  class_name : Option Str
  code_before : Option Str
  code_after : Option Str
  hook_line : Option Str
  is_dynamic : Nat
  content_hash : Option Str
  status : Str
  removed_at : Option Str
  first_seen_at : Str
  last_seen_at : Str
deriving Repr, DecidableEq

structure HookFtsRow where
  rowid : Nat
  name : Str
  type : Str
  docblock : Option Str
  inferred_description : Option Str
  function_context : Option Str
  class_name : Option Str
  params : Option Str
deriving Repr, DecidableEq

/-- `block_registrations` row: the schema has no `status`/`removed_at`
columns, only the two seen-timestamps. -/
structure BlockRow where
  id : Nat
  source_id : Nat
  file_path : Str
  line_number : Nat
  block_name : Str
  block_title : Option Str
  block_category : Option Str
  block_attributes : Option Str
  supports : Option Str
  code_context : Option Str
  content_hash : Option Str
  first_seen_at : Str
  last_seen_at : Str
deriving Repr, DecidableEq

structure BlockFtsRow where
  rowid : Nat
  block_name : Str
  block_title : Option Str
  block_category : Option Str
  block_attributes : Option Str
  supports : Option Str
  code_context : Option Str
deriving Repr, DecidableEq

/-- `api_usages` row (`api_namespace` renders the `namespace` column); the
schema likewise has no `status`/`removed_at` columns. -/
structure ApiRow where
  id : Nat
  source_id : Nat
  file_path : Str
  line_number : Nat
  api_call : Str
  api_namespace : Str
  method : Str
  code_context : Option Str
  content_hash : Option Str
  first_seen_at : Str
  last_seen_at : Str
deriving Repr, DecidableEq

structure ApiFtsRow where
  rowid : Nat
  api_call : Str
  api_namespace : Str
  method : Str
  code_context : Option Str
deriving Repr, DecidableEq

structure IndexedFileRow where
  source_id : Nat
  file_path : Str
  mtime_ms : Int
  content_hash : Option Str
deriving Repr, DecidableEq

structure Db where
  sources : List SourceRow
  hooks : List HookRow
  hooks_fts : List HookFtsRow
  next_hook_id : Nat
  blocks : List BlockRow
  blocks_fts : List BlockFtsRow
  next_block_id : Nat
  apis : List ApiRow
  apis_fts : List ApiFtsRow
  next_api_id : Nat
  indexed_files : List IndexedFileRow
deriving Repr, DecidableEq

def hookKey (h : HookRow) : Nat × Str × Nat × Str :=
  (h.source_id, h.file_path, h.line_number, h.name)

def hookDataKey (d : HookData) : Nat × Str × Nat × Str :=
  (d.source_id, d.file_path, d.line_number, d.name)

/-- The natural-key `SELECT ... WHERE source_id/file_path/line_number/name`
of `upsertHook` (`.get` returns the first matching row; the `UNIQUE`
constraint makes it unique). -/
def findHook (hooks : List HookRow) (d : HookData) : Option HookRow :=
  hooks.find? (fun h => decide (hookKey h = hookDataKey d))

structure UpsertResult where
  id : Nat
  action : Str
deriving Repr, DecidableEq

def hookFtsOfData (rid : Nat) (d : HookData) : HookFtsRow :=
  { rowid := rid, name := d.name, type := d.type, docblock := d.docblock,
    inferred_description := d.inferred_description, function_context := d.function_context,
    class_name := d.class_name, params := d.params }

/-- The `UPDATE hooks SET last_seen_at = datetime('now'), status = 'active'`
of the unchanged-hash path (note: it does not clear `removed_at`). -/
def skipBump (now : Str) (h : HookRow) : HookRow :=
  { h with last_seen_at := now, status := str "active" }

/-- The content-field `UPDATE` of the changed-hash path. -/
def applyHookUpdate (now : Str) (d : HookData) (h : HookRow) : HookRow :=
  { h with
      type := d.type, php_function := d.php_function, params := d.params,
      param_count := d.param_count, docblock := d.docblock,
      inferred_description := d.inferred_description, function_context := d.function_context,
      class_name := d.class_name, code_before := d.code_before, code_after := d.code_after,
      hook_line := d.hook_line, is_dynamic := d.is_dynamic,
      content_hash := some d.content_hash,
      status := str "active", removed_at := none, last_seen_at := now }

def newHookRow (now : Str) (rid : Nat) (d : HookData) : HookRow :=
  { id := rid, source_id := d.source_id, file_path := d.file_path,
    line_number := d.line_number, name := d.name, type := d.type,
    php_function := d.php_function, params := d.params, param_count := d.param_count,
    docblock := d.docblock, inferred_description := d.inferred_description,
    function_context := d.function_context, class_name := d.class_name,
    code_before := d.code_before, code_after := d.code_after, hook_line := d.hook_line,
    is_dynamic := d.is_dynamic, content_hash := some d.content_hash,
    status := str "active", removed_at := none, first_seen_at := now, last_seen_at := now }

/-- `upsertHook(data)`, at time `now` (the `datetime('now')` value). -/
def upsertHook (now : Str) (db : Db) (d : HookData) : UpsertResult × Db :=
  match findHook db.hooks d with
  | some existing =>
    if existing.content_hash = some d.content_hash then
      ({ id := existing.id, action := str "skipped" },
       { db with
           hooks := db.hooks.map (fun h => if h.id = existing.id then skipBump now h else h) })
    else
      ({ id := existing.id, action := str "updated" },
       { db with
           hooks := db.hooks.map (fun h =>
             if h.id = existing.id then applyHookUpdate now d h else h)
           hooks_fts := db.hooks_fts.filter (fun fr => fr.rowid ≠ existing.id) ++
             [hookFtsOfData existing.id d] })
  | none =>
    ({ id := db.next_hook_id, action := str "inserted" },
     { db with
         hooks := db.hooks ++ [newHookRow now db.next_hook_id d]
         hooks_fts := db.hooks_fts ++ [hookFtsOfData db.next_hook_id d]
         next_hook_id := db.next_hook_id + 1 })

/-- The removal predicate of `markHooksRemoved`: previously `active` for this
(source, file) pair and not among the touched ids. -/
def hookRemovePred (sourceId : Nat) (filePath : Str) (activeIds : List Nat) (h : HookRow) : Bool :=
  decide (h.source_id = sourceId) && decide (h.file_path = filePath) &&
    decide (h.status = str "active") && !(activeIds.contains h.id)

/-- `markHooksRemoved(sourceId, filePath, activeIds)`: the source snapshots
the matching rows and issues one `UPDATE ... WHERE id = ?` per row; with
unique row ids that equals this single map over the table. -/
def markHooksRemoved (now : Str) (db : Db) (sourceId : Nat) (filePath : Str)
    (activeIds : List Nat) : Nat × Db :=
  let toRemove := db.hooks.filter (hookRemovePred sourceId filePath activeIds)
  let removedIds := toRemove.map (fun h => h.id)
  (toRemove.length,
   { db with
       hooks := db.hooks.map (fun h =>
         if removedIds.contains h.id then
           { h with status := str "removed", removed_at := some now }
         else h) })

/-- `JOIN sources s ON s.id = h.source_id` for one hook row (`s.id` is the
primary key, so the first match is the only one). -/
structure JoinedHook where
  hook : HookRow
  source_name : Str
deriving Repr, DecidableEq

def joinSource (sources : List SourceRow) (h : HookRow) : Option JoinedHook :=
  (sources.find? (fun s => decide (s.id = h.source_id))).map
    (fun s => { hook := h, source_name := s.name })

structure SimilarRow where
  name : Str
  type : Str
  source_name : Str
  rank : Int
deriving Repr, DecidableEq

structure ValidateResult where
  status : Str
  hooks : List JoinedHook
  similar : List SimilarRow
deriving Repr, DecidableEq

/-- The character class stripped by the FTS sanitizer
`/['"(){}[\]*:^~!]/g`. -/
def ftsSpecials : List Char :=
  [sqc, dqc, '(', ')', lbc, rbc, '[', ']', '*', ':', '^', '~', '!']

def sanitizeFts (s : Str) : Str :=
  s.map (fun c => if ftsSpecials.contains c then ' ' else c)

/-- The token list of `validateHook`'s fuzzy query: specials and underscores
to spaces, trim, split on whitespace, drop empties. -/
def validateTokens (hookName : Str) : List Str :=
  splitWsTokens (jsTrim ((sanitizeFts hookName).map (fun c => if c = '_' then ' ' else c)))

def insertByRank (x : SimilarRow) : List SimilarRow → List SimilarRow
  | [] => [x]
  | y :: ys => if x.rank ≤ y.rank then x :: y :: ys else y :: insertByRank x ys

/-- `ORDER BY rank` (ascending bm25 score). -/
def sortByRank (l : List SimilarRow) : List SimilarRow := l.foldr insertByRank []

/-- `validateHook(hookName)`.  The FTS internals that are not this
repository's code are parameters: `ftsMatch` is the fts5 `MATCH` predicate on
a shadow row for the prefix-quoted token list, `rank` is `bm25(...)`, and
`ftsThrows` tells whether the prepared fuzzy query throws (the `try/catch`
around it).  Everything else follows the source. -/
def validateHook (db : Db) (hookName : Str) (ftsMatch : List Str → HookFtsRow → Bool)
    (rank : HookFtsRow → Int) (ftsThrows : Bool) : ValidateResult :=
  let exact := db.hooks.filterMap (fun h =>
    if h.name = hookName ∧ h.status = str "active" then joinSource db.sources h else none)
  if exact ≠ [] then { status := str "VALID", hooks := exact, similar := [] }
  else
    let removed := db.hooks.filterMap (fun h =>
      if h.name = hookName ∧ h.status = str "removed" then joinSource db.sources h else none)
    if removed ≠ [] then { status := str "REMOVED", hooks := removed, similar := [] }
    else
      let terms := validateTokens hookName
      let similar :=
        if terms = [] then []
        else if ftsThrows then []
        else
          let rows := db.hooks_fts.filterMap (fun fr =>
            if ftsMatch terms fr then
              match db.hooks.find? (fun h => decide (h.id = fr.rowid)) with
              | some h =>
                if h.status = str "active" then
                  (db.sources.find? (fun s => decide (s.id = h.source_id))).map (fun s =>
                    ({ name := h.name, type := h.type, source_name := s.name,
                       rank := rank fr } : SimilarRow))
                else none
              | none => none
            else none)
          (sortByRank rows).take 5
      { status := str "NOT_FOUND", hooks := [], similar := similar }

def blockKey (b : BlockRow) : Nat × Str × Nat × Str :=
  (b.source_id, b.file_path, b.line_number, b.block_name)

def blockDataKey (d : BlockData) : Nat × Str × Nat × Str :=
  (d.source_id, d.file_path, d.line_number, d.block_name)

def blockFtsOfData (rid : Nat) (d : BlockData) : BlockFtsRow :=
  { rowid := rid, block_name := d.block_name, block_title := d.block_title,
    block_category := d.block_category, block_attributes := d.block_attributes,
    supports := d.supports, code_context := d.code_context }

/-- `upsertBlockRegistration(data)` — no status field exists to set. -/
def upsertBlockRegistration (now : Str) (db : Db) (d : BlockData) : UpsertResult × Db :=
  match db.blocks.find? (fun b => decide (blockKey b = blockDataKey d)) with
  | some existing =>
    if existing.content_hash = some d.content_hash then
      ({ id := existing.id, action := str "skipped" },
       { db with
           blocks := db.blocks.map (fun b =>
             if b.id = existing.id then { b with last_seen_at := now } else b) })
    else
      ({ id := existing.id, action := str "updated" },
       { db with
           blocks := db.blocks.map (fun b =>
             if b.id = existing.id then
               { b with
                   block_title := d.block_title, block_category := d.block_category,
                   block_attributes := d.block_attributes, supports := d.supports,
                   code_context := d.code_context, content_hash := some d.content_hash,
                   last_seen_at := now }
             else b)
           blocks_fts := db.blocks_fts.filter (fun fr => fr.rowid ≠ existing.id) ++
             [blockFtsOfData existing.id d] })
  | none =>
    ({ id := db.next_block_id, action := str "inserted" },
     { db with
         blocks := db.blocks ++
           [{ id := db.next_block_id, source_id := d.source_id, file_path := d.file_path,
              line_number := d.line_number, block_name := d.block_name,
              block_title := d.block_title, block_category := d.block_category,
              block_attributes := d.block_attributes, supports := d.supports,
              code_context := d.code_context, content_hash := some d.content_hash,
              first_seen_at := now, last_seen_at := now }]
         blocks_fts := db.blocks_fts ++ [blockFtsOfData db.next_block_id d]
         next_block_id := db.next_block_id + 1 })

def apiFtsOfData (rid : Nat) (d : ApiData) : ApiFtsRow :=
  { rowid := rid, api_call := d.api_call, api_namespace := d.api_namespace,
    method := d.method, code_context := d.code_context }

/-- `upsertApiUsage(data)` — likewise no status field. -/
def upsertApiUsage (now : Str) (db : Db) (d : ApiData) : UpsertResult × Db :=
  match db.apis.find? (fun a => decide ((a.source_id, a.file_path, a.line_number, a.api_call) =
      (d.source_id, d.file_path, d.line_number, d.api_call))) with
  | some existing =>
    if existing.content_hash = some d.content_hash then
      ({ id := existing.id, action := str "skipped" },
       { db with
           apis := db.apis.map (fun a =>
             if a.id = existing.id then { a with last_seen_at := now } else a) })
    else
      ({ id := existing.id, action := str "updated" },
       { db with
           apis := db.apis.map (fun a =>
             if a.id = existing.id then
               { a with
                   api_namespace := d.api_namespace, method := d.method,
                   code_context := d.code_context, content_hash := some d.content_hash,
                   last_seen_at := now }
             else a)
           apis_fts := db.apis_fts.filter (fun fr => fr.rowid ≠ existing.id) ++
             [apiFtsOfData existing.id d] })
  | none =>
    ({ id := db.next_api_id, action := str "inserted" },
     { db with
         apis := db.apis ++
           [{ id := db.next_api_id, source_id := d.source_id, file_path := d.file_path,
              line_number := d.line_number, api_call := d.api_call,
              api_namespace := d.api_namespace, method := d.method,
              code_context := d.code_context, content_hash := some d.content_hash,
              first_seen_at := now, last_seen_at := now }]
         apis_fts := db.apis_fts ++ [apiFtsOfData db.next_api_id d]
         next_api_id := db.next_api_id + 1 })

/-- `getIndexedFile(sourceId, filePath)`. -/
def getIndexedFile (db : Db) (sourceId : Nat) (filePath : Str) : Option IndexedFileRow :=
  db.indexed_files.find? (fun r =>
    decide (r.source_id = sourceId) && decide (r.file_path = filePath))

/-- `upsertIndexedFile(sourceId, filePath, mtimeMs, contentHash)`
(`INSERT ... ON CONFLICT ... DO UPDATE`). -/
def upsertIndexedFile (db : Db) (sourceId : Nat) (filePath : Str) (mtimeMs : Int)
    (contentHash : Str) : Db :=
  if db.indexed_files.any (fun r =>
      decide (r.source_id = sourceId) && decide (r.file_path = filePath)) then
    { db with
        indexed_files := db.indexed_files.map (fun r =>
          if r.source_id = sourceId ∧ r.file_path = filePath then
            { r with mtime_ms := mtimeMs, content_hash := some contentHash }
          else r) }
  else
    { db with
        indexed_files := db.indexed_files ++
          [{ source_id := sourceId, file_path := filePath, mtime_ms := mtimeMs,
             content_hash := some contentHash }] }

def hookFtsOfRow (h : HookRow) : HookFtsRow :=
  { rowid := h.id, name := h.name, type := h.type, docblock := h.docblock,
    inferred_description := h.inferred_description, function_context := h.function_context,
    class_name := h.class_name, params := h.params }

def blockFtsOfRow (b : BlockRow) : BlockFtsRow :=
  { rowid := b.id, block_name := b.block_name, block_title := b.block_title,
    block_category := b.block_category, block_attributes := b.block_attributes,
    supports := b.supports, code_context := b.code_context }

def apiFtsOfRow (a : ApiRow) : ApiFtsRow :=
  { rowid := a.id, api_call := a.api_call, api_namespace := a.api_namespace,
    method := a.method, code_context := a.code_context }

/-- `rebuildFtsIndex()`: `DELETE FROM *_fts` then `INSERT ... SELECT` from
each primary table, inside one transaction. -/
def rebuildFtsIndex (db : Db) : Db :=
  { db with
      hooks_fts := db.hooks.map hookFtsOfRow
      blocks_fts := db.blocks.map blockFtsOfRow
      apis_fts := db.apis.map apiFtsOfRow }

/-- Shadow tables exactly mirror the primary tables. -/
def ftsConsistent (db : Db) : Prop :=
  db.hooks_fts = db.hooks.map hookFtsOfRow ∧
    db.blocks_fts = db.blocks.map blockFtsOfRow ∧
    db.apis_fts = db.apis.map apiFtsOfRow

/-! ### `src/indexer/index-manager.js` — one file of `indexSource` -/

structure RunStats where
  files_processed : Nat
  files_skipped : Nat
  hooks_inserted : Nat
  hooks_updated : Nat
  hooks_skipped : Nat
  hooks_removed : Nat
  blocks_indexed : Nat
  apis_indexed : Nat
deriving Repr, DecidableEq

def zeroStats : RunStats :=
  { files_processed := 0, files_skipped := 0, hooks_inserted := 0, hooks_updated := 0,
    hooks_skipped := 0, hooks_removed := 0, blocks_indexed := 0, apis_indexed := 0 }

structure UpsertLoopResult where
  db : Db
  touched : List Nat
  inserted : Nat
  updated : Nat
  skippedCount : Nat
deriving Repr, DecidableEq

/-- The `for (const hook of hooks)` loop: upsert each record, collect its id
into `activeHookIds`, and count by action
(`inserted` / else-if `updated` / else `skipped`). -/
def upsertHooksList (now : Str) (db : Db) : List HookData → UpsertLoopResult
  | [] => { db := db, touched := [], inserted := 0, updated := 0, skippedCount := 0 }
  | d :: rest =>
    let r := upsertHook now db d
    let acc := upsertHooksList now r.2 rest
    { db := acc.db
      touched := r.1.id :: acc.touched
      inserted := (if r.1.action = str "inserted" then 1 else 0) + acc.inserted
      updated :=
        (if r.1.action ≠ str "inserted" ∧ r.1.action = str "updated" then 1 else 0) + acc.updated
      skippedCount :=
        (if r.1.action ≠ str "inserted" ∧ r.1.action ≠ str "updated" then 1 else 0) +
          acc.skippedCount }

def upsertBlocksList (now : Str) (db : Db) : List BlockData → Db × Nat
  | [] => (db, 0)
  | d :: rest =>
    let r := upsertBlockRegistration now db d
    let (db2, n) := upsertBlocksList now r.2 rest
    (db2, n + 1)

def upsertApisList (now : Str) (db : Db) : List ApiData → Db × Nat
  | [] => (db, 0)
  | d :: rest =>
    let r := upsertApiUsage now db d
    let (db2, n) := upsertApisList now r.2 rest
    (db2, n + 1)

/-- One indexing pass over one file's extracted hooks: upsert every record,
then run the reconciliation sweep with the touched id set.  Returns the new
state, the touched ids and the number of records marked removed. -/
def indexFilePass (now : Str) (db : Db) (sourceId : Nat) (filePath : Str)
    (ds : List HookData) : Db × List Nat × Nat :=
  let r := upsertHooksList now db ds
  let (nRemoved, db2) := markHooksRemoved now r.db sourceId filePath r.touched
  (db2, r.touched, nRemoved)

/-- The per-file content hash of `indexSource`:
`createHash('sha256').update(content).digest('hex').slice(0, 16)`. -/
def fileContentHash (content : Str) : Str := (sha256Hex (utf8Str content)).take 16

/-- The scan-and-reconcile body of `indexSource` for one PHP file (after the
cache checks decided to process it). -/
def processPhpFile (now : Str) (db : Db) (sourceId : Nat) (filePath : Str) (content : Str)
    (mtimeMs : Int) (chash : Str) : RunStats × Db :=
  let hooks := parsePhpFile content filePath sourceId
  let r := upsertHooksList now db hooks
  let (nRemoved, db2) := markHooksRemoved now r.db sourceId filePath r.touched
  let db3 := upsertIndexedFile db2 sourceId filePath mtimeMs chash
  ({ zeroStats with
       files_processed := 1, hooks_inserted := r.inserted, hooks_updated := r.updated,
       hooks_skipped := r.skippedCount, hooks_removed := nRemoved }, db3)

/-- The scan-and-reconcile body of `indexSource` for one JS file. -/
def processJsFile (now : Str) (db : Db) (sourceId : Nat) (filePath : Str) (content : Str)
    (mtimeMs : Int) (chash : Str) : RunStats × Db :=
  let parsed := parseJsFile content filePath sourceId
  let r := upsertHooksList now db parsed.hooks
  let (db2, nBlocks) := upsertBlocksList now r.db parsed.blocks
  let (db3, nApis) := upsertApisList now db2 parsed.apis
  let (nRemoved, db4) := markHooksRemoved now db3 sourceId filePath r.touched
  let db5 := upsertIndexedFile db4 sourceId filePath mtimeMs chash
  ({ zeroStats with
       files_processed := 1, hooks_inserted := r.inserted, hooks_updated := r.updated,
       hooks_skipped := r.skippedCount, hooks_removed := nRemoved,
       blocks_indexed := nBlocks, apis_indexed := nApis }, db5)

/-- One iteration of the `for (const file of files)` loop of `indexSource`
for a PHP file: mtime cache check, content-hash cache check, then scan and
reconcile. -/
def indexPhpFileRun (now : Str) (db : Db) (sourceId : Nat) (filePath : Str) (content : Str)
    (mtimeMs : Int) (force : Bool) : RunStats × Db :=
  let indexed := if force then none else getIndexedFile db sourceId filePath
  match indexed with
  | some ix =>
    if ix.mtime_ms = mtimeMs then ({ zeroStats with files_skipped := 1 }, db)
    else
      let chash := fileContentHash content
      if ix.content_hash = some chash then
        ({ zeroStats with files_skipped := 1 },
         upsertIndexedFile db sourceId filePath mtimeMs chash)
      else processPhpFile now db sourceId filePath content mtimeMs chash
  | none => processPhpFile now db sourceId filePath content mtimeMs (fileContentHash content)

/-- One iteration of the file loop of `indexSource` for a JS file. -/
def indexJsFileRun (now : Str) (db : Db) (sourceId : Nat) (filePath : Str) (content : Str)
    (mtimeMs : Int) (force : Bool) : RunStats × Db :=
  let indexed := if force then none else getIndexedFile db sourceId filePath
  match indexed with
  | some ix =>
    if ix.mtime_ms = mtimeMs then ({ zeroStats with files_skipped := 1 }, db)
    else
      let chash := fileContentHash content
      if ix.content_hash = some chash then
        ({ zeroStats with files_skipped := 1 },
         upsertIndexedFile db sourceId filePath mtimeMs chash)
      else processJsFile now db sourceId filePath content mtimeMs chash
  | none => processJsFile now db sourceId filePath content mtimeMs (fileContentHash content)

/-! ### Claim theorems -/

/-- C8: from every database state — including states where primary and shadow
rows disagree or shadow rows are missing — `rebuildFtsIndex` leaves every
primary table untouched (no data loss) and makes each shadow table exactly
one row per primary row carrying that row's indexed column values, restoring
primary/shadow consistency. -/
theorem c8_rebuild_restores_consistency (db : Db) :
    (rebuildFtsIndex db).hooks = db.hooks ∧
    (rebuildFtsIndex db).blocks = db.blocks ∧
    (rebuildFtsIndex db).apis = db.apis ∧
    (rebuildFtsIndex db).sources = db.sources ∧
    (rebuildFtsIndex db).indexed_files = db.indexed_files ∧
    (rebuildFtsIndex db).hooks_fts = db.hooks.map hookFtsOfRow ∧
    (rebuildFtsIndex db).blocks_fts = db.blocks.map blockFtsOfRow ∧
    (rebuildFtsIndex db).apis_fts = db.apis.map apiFtsOfRow ∧
    ((rebuildFtsIndex db).hooks_fts.length = db.hooks.length ∧
      ∀ i, (rebuildFtsIndex db).hooks_fts.get? i = (db.hooks.get? i).map hookFtsOfRow) ∧
    ((rebuildFtsIndex db).blocks_fts.length = db.blocks.length ∧
      ∀ i, (rebuildFtsIndex db).blocks_fts.get? i = (db.blocks.get? i).map blockFtsOfRow) ∧
    ((rebuildFtsIndex db).apis_fts.length = db.apis.length ∧
      ∀ i, (rebuildFtsIndex db).apis_fts.get? i = (db.apis.get? i).map apiFtsOfRow) ∧
    ftsConsistent (rebuildFtsIndex db) := by
  refine ⟨rfl, rfl, rfl, rfl, rfl, rfl, rfl, rfl, ⟨?_, ?_⟩, ⟨?_, ?_⟩, ⟨?_, ?_⟩, rfl, rfl, rfl⟩
  · simp [rebuildFtsIndex]
  · intro i
    simp [rebuildFtsIndex, List.get?_map]
  · simp [rebuildFtsIndex]
  · intro i
    simp [rebuildFtsIndex, List.get?_map]
  · simp [rebuildFtsIndex]
  · intro i
    simp [rebuildFtsIndex, List.get?_map]

/-- C4: extraction is a deterministic function of its inputs.  Both engines,
modelled with the module-level regex `lastIndex` state threaded through,
produce the same full record list (every field, the content hashes included,
since the lists carry whole records) regardless of the incoming state, and a
second run on the state left by a first run reproduces the first run's
output. -/
theorem c4_extraction_deterministic (content filePath : Str) (sourceId : Nat)
    (st1 st2 : Nat) (jst1 jst2 : Nat × Nat × Nat) :
    ((parsePhpFileSt content filePath sourceId st1).1 =
        (parsePhpFileSt content filePath sourceId st2).1 ∧
      (parsePhpFileSt content filePath sourceId
          ((parsePhpFileSt content filePath sourceId st1).2)).1 =
        (parsePhpFileSt content filePath sourceId st1).1 ∧
      (parsePhpFileSt content filePath sourceId st1).1 = parsePhpFile content filePath sourceId) ∧
    ((parseJsFileSt content filePath sourceId jst1).1 =
        (parseJsFileSt content filePath sourceId jst2).1 ∧
      (parseJsFileSt content filePath sourceId
          ((parseJsFileSt content filePath sourceId jst1).2)).1 =
        (parseJsFileSt content filePath sourceId jst1).1 ∧
      (parseJsFileSt content filePath sourceId jst1).1 =
        parseJsFile content filePath sourceId) := by
  exact ⟨⟨rfl, rfl, rfl⟩, ⟨rfl, rfl, rfl⟩⟩

/-- C10: every path of `upsertHook` (skip, content update, insert) leaves, for
every pre-existing row, a row with the same `id` whose `source_id`,
`file_path`, `line_number`, `name` and `first_seen_at` are unchanged: the
update touches only content fields, the status/removed_at lifecycle fields
and `last_seen_at`. -/
theorem c10_upsert_frame (now : Str) (db : Db) (d : HookData) (r : HookRow)
    (hr : r ∈ db.hooks) :
    ∃ r' ∈ (upsertHook now db d).2.hooks,
      r'.id = r.id ∧ r'.source_id = r.source_id ∧ r'.file_path = r.file_path ∧
      r'.line_number = r.line_number ∧ r'.name = r.name ∧
      r'.first_seen_at = r.first_seen_at := by
  unfold upsertHook
  split
  · next existing hfind =>
    split
    · refine ⟨if r.id = existing.id then skipBump now r else r,
        List.mem_map_of_mem _ hr, ?_⟩
      by_cases h : r.id = existing.id <;> simp [h, skipBump]
    · refine ⟨if r.id = existing.id then applyHookUpdate now d r else r,
        List.mem_map_of_mem _ hr, ?_⟩
      by_cases h : r.id = existing.id <;> simp [h, applyHookUpdate]
  · exact ⟨r, List.mem_append_left _ hr, rfl, rfl, rfl, rfl, rfl, rfl⟩

def dbEmpty : Db :=
  { sources := [], hooks := [], hooks_fts := [], next_hook_id := 1, blocks := [],
    blocks_fts := [], next_block_id := 1, apis := [], apis_fts := [], next_api_id := 1,
    indexed_files := [] }

def hd0 : HookData :=
  { source_id := 0, file_path := [], line_number := 0, name := [], type := [],
    php_function := none, params := none, param_count := 0, docblock := none,
    inferred_description := none, function_context := none, class_name := none,
    code_before := none, code_after := none, hook_line := none, is_dynamic := 0,
    content_hash := [] }

/-- The concrete file of the spec's scenario: a reference-array call at
line 10, first argument the literal `'my_event'`, second an array expression,
preceded by a 3-line doc comment, inside `function my_handler` of
`class Foo`. -/
def c9content : Str :=
  str "<?php\nclass Foo \x7b\n  public function my_handler() \x7b\n\n\n\n    /**\n     * Fires my event.\n     */\n    do_action_ref_array( " ++
    [sqc] ++ str "my_event" ++ [sqc] ++ str ", array( $a ) );"

/-- C9: parsing that file yields exactly one declaration with
type `action_ref_array`, name `my_event`, `param_count` 1, line number 10, a
non-empty doc comment, and the enclosing function and class captured. -/
theorem c9_concrete_scenario :
    (parsePhpFile c9content (str "inc/f.php") 1).length = 1 ∧
    ((parsePhpFile c9content (str "inc/f.php") 1).headD hd0).type = str "action_ref_array" ∧
    ((parsePhpFile c9content (str "inc/f.php") 1).headD hd0).name = str "my_event" ∧
    ((parsePhpFile c9content (str "inc/f.php") 1).headD hd0).param_count = 1 ∧
    ((parsePhpFile c9content (str "inc/f.php") 1).headD hd0).line_number = 10 ∧
    ((parsePhpFile c9content (str "inc/f.php") 1).headD hd0).docblock ≠ none ∧
    ((parsePhpFile c9content (str "inc/f.php") 1).headD hd0).function_context =
      some (str "my_handler") ∧
    ((parsePhpFile c9content (str "inc/f.php") 1).headD hd0).class_name = some (str "Foo") := by
  set_option maxRecDepth 100000 in decide

/-! ### String lemmas for the name-classification claims -/

theorem dropWhile_ws_append (pre rest : Str) (h : ∀ c ∈ pre, isJsSpace c = true) :
    (pre ++ rest).dropWhile isJsSpace = rest.dropWhile isJsSpace := by
  induction pre with
  | nil => simp
  | cons c cs ih =>
    have hc : isJsSpace c = true := h c (by simp)
    simp only [List.cons_append, List.dropWhile_cons, hc, if_true]
    exact ih (fun x hx => h x (by simp [hx]))

theorem dropWhile_eq_self_of_head (s : Str) (h : isJsSpace (s.headD 'x') = false) :
    s.dropWhile isJsSpace = s := by
  cases s with
  | nil => simp
  | cons c cs =>
    simp only [List.headD_cons] at h
    simp [List.dropWhile_cons, h]

theorem headD_reverse (l : Str) (d : Char) : l.reverse.headD d = l.getLastD d := by
  rw [List.headD_eq_head?, List.head?_reverse, List.getLastD_eq_getLast?]

theorem headD_append_left (a b : Str) (d : Char) (h : a ≠ []) :
    (a ++ b).headD d = a.headD d := by
  cases a with
  | nil => exact absurd rfl h
  | cons c cs => simp

theorem getLastD_append_right (a b : Str) (d : Char) (h : b ≠ []) :
    (a ++ b).getLastD d = b.getLastD d := by
  rw [← headD_reverse, ← headD_reverse b d, List.reverse_append]
  exact headD_append_left _ _ _ (by simpa using h)

/-- `trim` characterized: all-whitespace margins are removed around a core
that neither starts nor ends with whitespace. -/
theorem jsTrim_spec (pre mid post : Str) (hpre : ∀ c ∈ pre, isJsSpace c = true)
    (hpost : ∀ c ∈ post, isJsSpace c = true) (hne : mid ≠ [])
    (hhead : isJsSpace (mid.headD 'x') = false)
    (hlast : isJsSpace (mid.getLastD 'x') = false) :
    jsTrim (pre ++ mid ++ post) = mid := by
  unfold jsTrim
  rw [List.append_assoc, dropWhile_ws_append pre (mid ++ post) hpre,
    dropWhile_eq_self_of_head (mid ++ post) (by rwa [headD_append_left _ _ _ hne]),
    List.reverse_append,
    dropWhile_ws_append post.reverse mid.reverse (fun c hc => hpost c (by simpa using hc)),
    dropWhile_eq_self_of_head mid.reverse (by rwa [headD_reverse]),
    List.reverse_reverse]

theorem jsTrim_eq_self (s : Str) (hne : s ≠ []) (hhead : isJsSpace (s.headD 'x') = false)
    (hlast : isJsSpace (s.getLastD 'x') = false) : jsTrim s = s := by
  have := jsTrim_spec [] s [] (by simp) (by simp) hne hhead hlast
  simpa using this

theorem quotedBody_pair (isQ : Char → Bool) (plus : Bool) (q1 q2 : Char) (mid : Str) :
    quotedBody isQ plus (q1 :: mid ++ [q2]) =
      if isQ q1 && isQ q2 && (!plus || decide (mid ≠ [])) && mid.all (fun c => !isQ c) then
        some mid
      else none := by
  unfold quotedBody
  have hlen : (q1 :: mid ++ [q2]).length = mid.length + 2 := by simp
  rw [if_pos (by omega)]
  have h0 : (q1 :: mid ++ [q2]).getD 0 ' ' = q1 := rfl
  have h1 : (q1 :: mid ++ [q2]).getD ((q1 :: mid ++ [q2]).length - 1) ' ' = q2 := by
    rw [hlen]
    show (q1 :: (mid ++ [q2])).getD (mid.length + 1) ' ' = q2
    rw [List.getD_cons_succ]
    unfold List.getD
    rw [List.get?_append_right (le_refl _)]
    simp
  have h2 : ((q1 :: mid ++ [q2]).drop 1).take ((q1 :: mid ++ [q2]).length - 2) = mid := by
    rw [hlen]
    show (mid ++ [q2]).take mid.length = mid
    rw [List.take_left]
  rw [h0, h1, h2]

theorem quotedBody_none_last (isQ : Char → Bool) (plus : Bool) (s : Str)
    (h : isQ (s.getD (s.length - 1) ' ') = false) : quotedBody isQ plus s = none := by
  have h2 : isQ ((s[s.length - 1]?).getD ' ') = false := by
    rwa [List.getD_eq_getElem?_getD] at h
  unfold quotedBody
  split
  · simp [h2]
  · rfl

theorem quotedBody_none_head (isQ : Char → Bool) (plus : Bool) (s : Str)
    (h : isQ (s.getD 0 ' ') = false) : quotedBody isQ plus s = none := by
  have h2 : isQ ((s[0]?).getD ' ') = false := by
    rwa [List.getD_eq_getElem?_getD] at h
  unfold quotedBody
  split
  · simp [h2]
  · rfl

theorem splitOnChar_no_sep (c : Char) (s : Str) (h : ∀ x ∈ s, x ≠ c) :
    splitOnChar c s = [s] := by
  induction s with
  | nil => rfl
  | cons x xs ih =>
    have hx : x ≠ c := h x (by simp)
    rw [splitOnChar, if_neg hx, ih (fun y hy => h y (by simp [hy]))]

theorem splitOnChar_append_sep (c : Char) (a b : Str) (h : ∀ x ∈ a, x ≠ c) :
    splitOnChar c (a ++ c :: b) = a :: splitOnChar c b := by
  induction a with
  | nil => simp [splitOnChar]
  | cons x xs ih =>
    have hx : x ≠ c := h x (by simp)
    rw [List.cons_append, splitOnChar, if_neg hx, ih (fun y hy => h y (by simp [hy]))]

theorem containsChar_append (a b : Str) (c : Char) :
    containsChar (a ++ b) c = (containsChar a c || containsChar b c) := by
  unfold containsChar
  exact List.any_append

theorem containsChar_eq_false (s : Str) (c : Char) (h : ∀ x ∈ s, x ≠ c) :
    containsChar s c = false := by
  unfold containsChar
  simp only [List.any_eq_false, decide_eq_true_eq]
  exact h

theorem containsChar_cons_self (c : Char) (s : Str) : containsChar (c :: s) c = true := by
  simp [containsChar]

theorem startsWithS_nil_pat (s : Str) : startsWithS s [] = true := by
  cases s <;> rfl

theorem startsWithS_append_self (s t : Str) : startsWithS (s ++ t) s = true := by
  induction s with
  | nil => exact startsWithS_nil_pat t
  | cons c cs ih => simp [startsWithS, ih]

theorem containsSub_starts (s sub : Str) (h : startsWithS s sub = true) :
    containsSub s sub = true := by
  cases s with
  | nil =>
    rw [containsSub]
    exact h
  | cons c cs =>
    rw [containsSub, if_pos h]

theorem containsSub_append_found (s : Str) :
    ∀ a b, containsSub (a ++ (s ++ b)) s = true := by
  intro a
  induction a with
  | nil =>
    intro b
    simp only [List.nil_append]
    exact containsSub_starts _ _ (startsWithS_append_self s b)
  | cons x xs ih =>
    intro b
    rw [List.cons_append, containsSub]
    split
    · rfl
    · exact ih b

theorem takeWhile_append_of_all (p : Char → Bool) (a : Str) (b0 : Char) (rest : Str)
    (ha : ∀ c ∈ a, p c = true) (hb : p b0 = false) :
    (a ++ b0 :: rest).takeWhile p = a := by
  induction a with
  | nil => simp [List.takeWhile_cons, hb]
  | cons c cs ih =>
    have hc : p c = true := ha c (by simp)
    simp only [List.cons_append, List.takeWhile_cons, hc, if_true]
    rw [ih (fun x hx => ha x (by simp [hx]))]

theorem charIs_append_len (a : Str) (c : Char) (b : Str) :
    charIs (a ++ c :: b) a.length c = true := by
  unfold charIs charAt
  rw [List.get?_append_right (le_refl _)]
  simp

theorem replaceTplExprsF_nil (fuel : Nat) : replaceTplExprsF fuel [] = [] := by
  cases fuel <;> rfl

theorem replaceTplExprsF_no_dollar :
    ∀ fuel (s : Str), (∀ c ∈ s, c ≠ '$') → s.length ≤ fuel → replaceTplExprsF fuel s = s := by
  intro fuel
  induction fuel with
  | zero =>
    intro s h hl
    have : s = [] := by
      cases s with
      | nil => rfl
      | cons c cs => simp at hl
    rw [this, replaceTplExprsF_nil]
  | succ fuel ih =>
    intro s h hl
    cases s with
    | nil => rfl
    | cons c cs =>
      simp only [replaceTplExprsF]
      rw [if_neg (h c (by simp))]
      rw [ih cs (fun x hx => h x (by simp [hx])) (by simp at hl; omega)]

/-- The `$`-plus-open-brace step of the replacement scan, as one equation. -/
theorem replaceTplExprsF_dollar_lbrace (fuel : Nat) (cs2 : Str) :
    replaceTplExprsF (fuel + 1) ('$' :: lbc :: cs2) =
      (let body := cs2.takeWhile (fun x => x ≠ rbc)
       if body ≠ [] ∧ charIs cs2 body.length rbc then
         dynamicTok ++ replaceTplExprsF fuel (cs2.drop (body.length + 1))
       else '$' :: replaceTplExprsF fuel (lbc :: cs2)) := by
  rfl

theorem replaceTplExprsF_expr :
    ∀ (lit : Str) fuel (body : Str), (∀ c ∈ lit, c ≠ '$') → body ≠ [] →
      (∀ c ∈ body, c ≠ rbc) →
      (lit ++ '$' :: lbc :: body ++ [rbc]).length ≤ fuel →
      replaceTplExprsF fuel (lit ++ '$' :: lbc :: body ++ [rbc]) = lit ++ dynamicTok := by
  intro lit
  induction lit with
  | nil =>
    intro fuel body hlit hne hbody hl
    simp only [List.nil_append] at hl ⊢
    cases fuel with
    | zero => simp at hl
    | succ fuel =>
      have hstep := replaceTplExprsF_dollar_lbrace fuel (body ++ [rbc])
      refine hstep.trans ?_
      have htake : (body ++ [rbc]).takeWhile (fun x => decide (x ≠ rbc)) = body :=
        takeWhile_append_of_all _ body rbc []
          (fun c hc => by simpa using hbody c hc) (by simp)
      dsimp only
      rw [htake]
      rw [if_pos ⟨hne, charIs_append_len body rbc []⟩]
      have hdrop : (body ++ [rbc]).drop (body.length + 1) = [] := by
        apply List.drop_eq_nil_of_le
        simp
      rw [hdrop, replaceTplExprsF_nil, List.append_nil]
  | cons c cs ih =>
    intro fuel body hlit hne hbody hl
    cases fuel with
    | zero => simp at hl
    | succ fuel =>
      simp only [List.cons_append]
      simp only [replaceTplExprsF]
      rw [if_neg (hlit c (by simp))]
      rw [ih fuel body (fun x hx => hlit x (by simp [hx])) hne hbody (by simp at hl ⊢; omega)]

theorem replaceTplExprs_expr (lit body : Str) (hlit : ∀ c ∈ lit, c ≠ '$') (hne : body ≠ [])
    (hbody : ∀ c ∈ body, c ≠ rbc) :
    replaceTplExprs (lit ++ '$' :: lbc :: body ++ [rbc]) = lit ++ dynamicTok :=
  replaceTplExprsF_expr lit _ body hlit hne hbody (le_refl _)

/-! ### Word-like name segments, for the name-classification claim -/

/-- Lower-case letters and underscore: the character shape of the spec's
example segments (`foo_`, `bar`). -/
def isWordLike (c : Char) : Bool := c = '_' || (97 ≤ c.toNat && c.toNat ≤ 122)

def WordLike (s : Str) : Prop := s ≠ [] ∧ ∀ c ∈ s, isWordLike c = true

instance (s : Str) : Decidable (WordLike s) := by
  unfold WordLike
  infer_instance

theorem wordLike_toNat (c : Char) (h : isWordLike c = true) :
    c.toNat = 95 ∨ (97 ≤ c.toNat ∧ c.toNat ≤ 122) := by
  unfold isWordLike at h
  simp only [Bool.or_eq_true, decide_eq_true_eq, Bool.and_eq_true] at h
  rcases h with h | h
  · left
    rw [h]
    rfl
  · right
    exact ⟨by simpa using h.1, by simpa using h.2⟩

theorem char_ne (c x : Char) (h1 : c.toNat = 95 ∨ (97 ≤ c.toNat ∧ c.toNat ≤ 122))
    (hx : ¬(x.toNat = 95 ∨ (97 ≤ x.toNat ∧ x.toNat ≤ 122))) : c ≠ x := by
  intro he
  subst he
  exact hx h1

theorem wordLike_char_facts (c : Char) (h : isWordLike c = true) :
    isJsSpace c = false ∧ phpIsQuote c = false ∧ jsIsQuote c = false ∧
    c ≠ '$' ∧ c ≠ '.' ∧ c ≠ '+' ∧ c ≠ rbc ∧ c ≠ lbc ∧ c ≠ btc ∧ c ≠ '\n' := by
  have h1 := wordLike_toNat c h
  have ne : ∀ x : Char, ¬(x.toNat = 95 ∨ (97 ≤ x.toNat ∧ x.toNat ≤ 122)) → c ≠ x :=
    fun x hx => char_ne c x h1 hx
  have e1 : c ≠ ' ' := ne ' ' (by decide)
  have e2 : c ≠ '\t' := ne '\t' (by decide)
  have e3 : c ≠ '\n' := ne '\n' (by decide)
  have e4 : c ≠ '\r' := ne '\r' (by decide)
  have e5 : c ≠ Char.ofNat 11 := ne _ (by decide)
  have e6 : c ≠ Char.ofNat 12 := ne _ (by decide)
  have e7 : c ≠ sqc := ne sqc (by decide)
  have e8 : c ≠ dqc := ne dqc (by decide)
  have e9 : c ≠ btc := ne btc (by decide)
  refine ⟨?_, ?_, ?_, ne '$' (by decide), ne '.' (by decide), ne '+' (by decide),
    ne rbc (by decide), ne lbc (by decide), e9, e3⟩
  · simp [isJsSpace, e1, e2, e3, e4, e5, e6]
  · simp [phpIsQuote, e7, e8]
  · simp [jsIsQuote, e7, e8, e9]

theorem headD_mem (s : Str) (d : Char) (h : s ≠ []) : s.headD d ∈ s := by
  cases s with
  | nil => exact absurd rfl h
  | cons c cs => simp

theorem getLastD_mem (s : Str) (d : Char) (h : s ≠ []) : s.getLastD d ∈ s := by
  have : s.reverse ≠ [] := by simpa using h
  rw [← headD_reverse]
  have := headD_mem s.reverse d this
  simpa using this

/-- Trim is the identity on a string of word-like characters flanked by
non-whitespace delimiters; specialized instances below. -/
theorem jsTrim_wordlike (s : Str) (hne : s ≠ []) (hall : ∀ c ∈ s, isWordLike c = true) :
    jsTrim s = s := by
  apply jsTrim_eq_self s hne
  · exact (wordLike_char_facts _ (hall _ (headD_mem s 'x' hne))).1
  · exact (wordLike_char_facts _ (hall _ (getLastD_mem s 'x' hne))).1

theorem php_literal_clean (lit : Str) (hlit : WordLike lit) :
    cleanHookName (sqc :: lit ++ [sqc]) = some lit ∧
    phpIsDynamic (sqc :: lit ++ [sqc]) = false := by
  obtain ⟨hne, hall⟩ := hlit
  have hfacts := fun c hc => wordLike_char_facts c (hall c hc)
  have htrim : jsTrim (sqc :: lit ++ [sqc]) = sqc :: lit ++ [sqc] := by
    apply jsTrim_eq_self _ (by simp)
    · show isJsSpace sqc = false
      decide
    · have hsh : sqc :: lit ++ [sqc] = (sqc :: lit) ++ [sqc] := by simp
      rw [hsh, getLastD_append_right _ _ _ (by simp)]
      decide
  have hq : quotedBody phpIsQuote true (sqc :: lit ++ [sqc]) = some lit := by
    rw [quotedBody_pair, if_pos]
    simp only [Bool.and_eq_true, List.all_eq_true]
    refine ⟨⟨⟨?_, ?_⟩, ?_⟩, ?_⟩
    · decide
    · decide
    · simp [hne]
    · intro c hc
      simp [(hfacts c hc).2.1]
  constructor
  · simp only [cleanHookName]
    rw [htrim, hq]
  · unfold phpIsDynamic
    have h1 : containsChar (sqc :: lit ++ [sqc]) '$' = false := by
      apply containsChar_eq_false
      intro x hx
      have hx2 : x = sqc ∨ x ∈ lit := by
        simp only [List.mem_cons, List.mem_append, List.mem_singleton] at hx
        tauto
      rcases hx2 with h | h
      · subst h
        decide
      · exact (hfacts x h).2.2.2.1
    have h2 : containsChar (sqc :: lit ++ [sqc]) '.' = false := by
      apply containsChar_eq_false
      intro x hx
      have hx2 : x = sqc ∨ x ∈ lit := by
        simp only [List.mem_cons, List.mem_append, List.mem_singleton] at hx
        tauto
      rcases hx2 with h | h
      · subst h
        decide
      · exact (hfacts x h).2.2.2.2.1
    rw [h1, h2]
    rfl

theorem php_bare_var_clean (v : Str) (hv : WordLike v) :
    cleanHookName ('$' :: v) = some dynamicTok ∧ phpIsDynamic ('$' :: v) = true := by
  obtain ⟨hne, hall⟩ := hv
  have hfacts := fun c hc => wordLike_char_facts c (hall c hc)
  have htrim : jsTrim ('$' :: v) = '$' :: v := by
    apply jsTrim_eq_self _ (by simp)
    · show isJsSpace '$' = false
      decide
    · have hsh : ('$' :: v).getLastD 'x' = v.getLastD 'x' := by
        have h0 : '$' :: v = ['$'] ++ v := rfl
        rw [h0, getLastD_append_right _ _ _ hne]
      rw [hsh]
      exact (hfacts _ (getLastD_mem v 'x' hne)).1
  have hsplit : splitOnChar '.' ('$' :: v) = [('$' :: v)] := by
    apply splitOnChar_no_sep
    intro x hx
    have hx2 : x = '$' ∨ x ∈ v := by simpa using hx
    rcases hx2 with h | h
    · subst h
      decide
    · exact (hfacts x h).2.2.2.2.1
  constructor
  · simp only [cleanHookName]
    rw [htrim]
    simp only [quotedBody_none_head phpIsQuote true ('$' :: v)
      (show phpIsQuote '$' = false by decide)]
    simp only [containsChar_cons_self, Bool.or_true, if_true]
    rw [hsplit]
    simp only [List.map_cons, List.map_nil]
    rw [htrim]
    simp only [quotedBody_none_head phpIsQuote false ('$' :: v)
      (show phpIsQuote '$' = false by decide)]
    simp [dynamicTok]
  · unfold phpIsDynamic
    rw [containsChar_cons_self]
    rfl

theorem containsChar_of_mem (s : Str) (c : Char) (h : c ∈ s) : containsChar s c = true := by
  simp only [containsChar, List.any_eq_true, decide_eq_true_eq]
  exact ⟨c, h, rfl⟩

theorem getD_last (s : Str) (d : Char) (h : s ≠ []) :
    s.getD (s.length - 1) d = s.getLastD d := by
  induction s with
  | nil => exact absurd rfl h
  | cons c cs ih =>
    cases cs with
    | nil => rfl
    | cons c2 t =>
      have h2 : (c2 :: t) ≠ [] := by simp
      have e1 : (c :: c2 :: t).length - 1 = (c2 :: t).length - 1 + 1 := by simp
      rw [e1, List.getD_cons_succ, ih h2]
      have e2 : c :: c2 :: t = [c] ++ (c2 :: t) := rfl
      rw [e2, getLastD_append_right _ _ _ h2]

theorem php_concat_var_clean (lit v : Str) (hlit : WordLike lit) (hv : WordLike v) :
    cleanHookName (sqc :: lit ++ sqc :: ' ' :: '.' :: ' ' :: '$' :: v) =
      some (lit ++ dynamicTok) ∧
    phpIsDynamic (sqc :: lit ++ sqc :: ' ' :: '.' :: ' ' :: '$' :: v) = true := by
  obtain ⟨hlne, hlall⟩ := hlit
  obtain ⟨hvne, hvall⟩ := hv
  have hlfacts := fun c hc => wordLike_char_facts c (hlall c hc)
  have hvfacts := fun c hc => wordLike_char_facts c (hvall c hc)
  have hraw2 : sqc :: lit ++ sqc :: ' ' :: '.' :: ' ' :: '$' :: v =
      (sqc :: lit ++ [sqc, ' ', '.', ' ', '$']) ++ v := by simp
  have hlastv : isJsSpace (v.getLastD 'x') = false :=
    (hvfacts _ (getLastD_mem v 'x' hvne)).1
  have htrim : jsTrim (sqc :: lit ++ sqc :: ' ' :: '.' :: ' ' :: '$' :: v) =
      sqc :: lit ++ sqc :: ' ' :: '.' :: ' ' :: '$' :: v := by
    apply jsTrim_eq_self _ (by simp)
    · show isJsSpace sqc = false
      decide
    · rw [hraw2, getLastD_append_right _ _ _ hvne]
      exact hlastv
  have hsm : quotedBody phpIsQuote true (sqc :: lit ++ sqc :: ' ' :: '.' :: ' ' :: '$' :: v) =
      none := by
    apply quotedBody_none_last
    rw [getD_last _ _ (by simp), hraw2, getLastD_append_right _ _ _ hvne]
    exact (hvfacts _ (getLastD_mem v ' ' hvne)).2.1
  have hdot : containsChar (sqc :: lit ++ sqc :: ' ' :: '.' :: ' ' :: '$' :: v) '.' = true := by
    apply containsChar_of_mem
    simp
  have hsplit : splitOnChar '.' (sqc :: lit ++ sqc :: ' ' :: '.' :: ' ' :: '$' :: v) =
      (sqc :: lit ++ [sqc, ' ']) :: [' ' :: '$' :: v] := by
    have hsh : sqc :: lit ++ sqc :: ' ' :: '.' :: ' ' :: '$' :: v =
        (sqc :: lit ++ [sqc, ' ']) ++ '.' :: (' ' :: '$' :: v) := by simp
    rw [hsh, splitOnChar_append_sep]
    · rw [splitOnChar_no_sep]
      intro x hx
      have hx2 : x = ' ' ∨ x = '$' ∨ x ∈ v := by simpa using hx
      rcases hx2 with h | h | h
      · subst h; decide
      · subst h; decide
      · exact (hvfacts x h).2.2.2.2.1
    · intro x hx
      have hx2 : x = sqc ∨ x ∈ lit ∨ x = sqc ∨ x = ' ' := by simpa using hx
      rcases hx2 with h | h | h | h
      · subst h; decide
      · exact (hlfacts x h).2.2.2.2.1
      · subst h; decide
      · subst h; decide
  have hpart1 : jsTrim (sqc :: lit ++ [sqc, ' ']) = sqc :: lit ++ [sqc] := by
    have hsh : sqc :: lit ++ [sqc, ' '] = [] ++ (sqc :: lit ++ [sqc]) ++ [' '] := by simp
    rw [hsh]
    apply jsTrim_spec
    · simp
    · intro c hc
      simp only [List.mem_singleton] at hc
      subst hc
      decide
    · simp
    · show isJsSpace sqc = false
      decide
    · have hsh2 : sqc :: lit ++ [sqc] = (sqc :: lit) ++ [sqc] := by simp
      rw [hsh2, getLastD_append_right _ _ _ (by simp)]
      decide
  have hq1 : quotedBody phpIsQuote false (sqc :: lit ++ [sqc]) = some lit := by
    rw [quotedBody_pair, if_pos]
    simp only [Bool.and_eq_true, List.all_eq_true]
    refine ⟨⟨⟨?_, ?_⟩, ?_⟩, ?_⟩
    · decide
    · decide
    · simp [hlne]
    · intro c hc
      simp [(hlfacts c hc).2.1]
  have hpart2 : jsTrim (' ' :: '$' :: v) = '$' :: v := by
    have hsh : ' ' :: '$' :: v = [' '] ++ ('$' :: v) ++ [] := by simp
    rw [hsh]
    apply jsTrim_spec
    · intro c hc
      simp only [List.mem_singleton] at hc
      subst hc
      decide
    · simp
    · simp
    · show isJsSpace '$' = false
      decide
    · have hsh2 : ('$' :: v).getLastD 'x' = v.getLastD 'x' := by
        have h0 : '$' :: v = ['$'] ++ v := rfl
        rw [h0, getLastD_append_right _ _ _ hvne]
      rw [hsh2]
      exact hlastv
  have hq2 : quotedBody phpIsQuote false ('$' :: v) = none :=
    quotedBody_none_head phpIsQuote false ('$' :: v) (show phpIsQuote '$' = false by decide)
  constructor
  · simp only [cleanHookName]
    rw [htrim]
    simp only [hsm, hdot, Bool.true_or, if_true]
    rw [hsplit]
    simp only [List.map_cons, List.map_nil]
    rw [hpart1, hq1, hpart2, hq2]
    simp [hlne]
  · unfold phpIsDynamic
    have hdol : containsChar (sqc :: lit ++ sqc :: ' ' :: '.' :: ' ' :: '$' :: v) '$' = true := by
      apply containsChar_of_mem
      simp
    rw [hdol]
    rfl

theorem php_concat_call_clean (lit : Str) (hlit : WordLike lit) :
    cleanHookName (sqc :: lit ++ sqc :: ' ' :: '.' :: ' ' :: 'f' :: '(' :: 'x' :: [')']) =
      some (lit ++ dynamicTok) ∧
    phpIsDynamic (sqc :: lit ++ sqc :: ' ' :: '.' :: ' ' :: 'f' :: '(' :: 'x' :: [')']) =
      false := by
  obtain ⟨hlne, hlall⟩ := hlit
  have hlfacts := fun c hc => wordLike_char_facts c (hlall c hc)
  have hraw2 : sqc :: lit ++ sqc :: ' ' :: '.' :: ' ' :: 'f' :: '(' :: 'x' :: [')'] =
      (sqc :: lit) ++ [sqc, ' ', '.', ' ', 'f', '(', 'x', ')'] := by simp
  have htrim : jsTrim (sqc :: lit ++ sqc :: ' ' :: '.' :: ' ' :: 'f' :: '(' :: 'x' :: [')']) =
      sqc :: lit ++ sqc :: ' ' :: '.' :: ' ' :: 'f' :: '(' :: 'x' :: [')'] := by
    apply jsTrim_eq_self _ (by simp)
    · show isJsSpace sqc = false
      decide
    · rw [hraw2, getLastD_append_right _ _ _ (by simp)]
      decide
  have hsm : quotedBody phpIsQuote true
      (sqc :: lit ++ sqc :: ' ' :: '.' :: ' ' :: 'f' :: '(' :: 'x' :: [')']) = none := by
    apply quotedBody_none_last
    rw [getD_last _ _ (by simp), hraw2, getLastD_append_right _ _ _ (by simp)]
    decide
  have hdot : containsChar
      (sqc :: lit ++ sqc :: ' ' :: '.' :: ' ' :: 'f' :: '(' :: 'x' :: [')']) '.' = true := by
    apply containsChar_of_mem
    simp
  have hsplit : splitOnChar '.'
      (sqc :: lit ++ sqc :: ' ' :: '.' :: ' ' :: 'f' :: '(' :: 'x' :: [')']) =
      (sqc :: lit ++ [sqc, ' ']) :: [' ' :: 'f' :: '(' :: 'x' :: [')']] := by
    have hsh : sqc :: lit ++ sqc :: ' ' :: '.' :: ' ' :: 'f' :: '(' :: 'x' :: [')'] =
        (sqc :: lit ++ [sqc, ' ']) ++ '.' :: (' ' :: 'f' :: '(' :: 'x' :: [')']) := by simp
    rw [hsh, splitOnChar_append_sep]
    · rw [splitOnChar_no_sep]
      intro x hx
      have hx2 : x = ' ' ∨ x = 'f' ∨ x = '(' ∨ x = 'x' ∨ x = ')' := by simpa using hx
      rcases hx2 with h | h | h | h | h <;> (subst h; decide)
    · intro x hx
      have hx2 : x = sqc ∨ x ∈ lit ∨ x = sqc ∨ x = ' ' := by simpa using hx
      rcases hx2 with h | h | h | h
      · subst h; decide
      · exact (hlfacts x h).2.2.2.2.1
      · subst h; decide
      · subst h; decide
  have hpart1 : jsTrim (sqc :: lit ++ [sqc, ' ']) = sqc :: lit ++ [sqc] := by
    have hsh : sqc :: lit ++ [sqc, ' '] = [] ++ (sqc :: lit ++ [sqc]) ++ [' '] := by simp
    rw [hsh]
    apply jsTrim_spec
    · simp
    · intro c hc
      simp only [List.mem_singleton] at hc
      subst hc
      decide
    · simp
    · show isJsSpace sqc = false
      decide
    · have hsh2 : sqc :: lit ++ [sqc] = (sqc :: lit) ++ [sqc] := by simp
      rw [hsh2, getLastD_append_right _ _ _ (by simp)]
      decide
  have hq1 : quotedBody phpIsQuote false (sqc :: lit ++ [sqc]) = some lit := by
    rw [quotedBody_pair, if_pos]
    simp only [Bool.and_eq_true, List.all_eq_true]
    refine ⟨⟨⟨?_, ?_⟩, ?_⟩, ?_⟩
    · decide
    · decide
    · simp [hlne]
    · intro c hc
      simp [(hlfacts c hc).2.1]
  have hpart2 : jsTrim (' ' :: 'f' :: '(' :: 'x' :: [')']) = 'f' :: '(' :: 'x' :: [')'] := by
    decide
  have hq2 : quotedBody phpIsQuote false ('f' :: '(' :: 'x' :: [')']) = none := by
    decide
  constructor
  · simp only [cleanHookName]
    rw [htrim]
    simp only [hsm, hdot, Bool.true_or, if_true]
    rw [hsplit]
    simp only [List.map_cons, List.map_nil]
    rw [hpart1, hq1, hpart2, hq2]
    simp [hlne]
  · unfold phpIsDynamic
    have hdol : containsChar
        (sqc :: lit ++ sqc :: ' ' :: '.' :: ' ' :: 'f' :: '(' :: 'x' :: [')']) '$' = false := by
      apply containsChar_eq_false
      intro x hx
      have hx2 : x = sqc ∨ x ∈ lit ∨ x = sqc ∨ x = ' ' ∨ x = '.' ∨ x = ' ' ∨ x = 'f' ∨
          x = '(' ∨ x = 'x' ∨ x = ')' := by simpa using hx
      rcases hx2 with h | h | h | h | h | h | h | h | h | h
      · subst h; decide
      · exact (hlfacts x h).2.2.2.1
      all_goals (subst h; decide)
    rw [hdol]
    have hsw : startsWithS (sqc :: lit ++ sqc :: ' ' :: '.' :: ' ' :: 'f' :: '(' :: 'x' :: [')'])
        [sqc] = true := by
      simp [startsWithS, startsWithS_nil_pat]
    rw [hsw]
    simp

theorem getD_zero (s : Str) (d : Char) : s.getD 0 d = s.headD d := by
  cases s <;> rfl

theorem containsSub_head_false (s : Str) (d : Char) (t : Str)
    (h : ∀ x ∈ s, x ≠ d) : containsSub s (d :: t) = false := by
  induction s with
  | nil => rfl
  | cons c cs ih =>
    have hc : c ≠ d := h c (by simp)
    have hsw : startsWithS (c :: cs) (d :: t) = false := by
      show (decide (c = d) && startsWithS cs t) = false
      simp [hc]
    have ih2 := ih (fun x hx => h x (List.mem_cons_of_mem c hx))
    show (if startsWithS (c :: cs) (d :: t) then true else containsSub cs (d :: t)) = false
    rw [hsw, ih2]
    rfl

theorem jsTemplateMatch_pair (q1 q2 : Char) (mid : Str) :
    jsTemplateMatch (q1 :: mid ++ [q2]) =
      if q1 = btc && q2 = btc && decide (mid ≠ []) && mid.all (fun c => !(c = '$' || c = btc))
      then some mid
      else none := by
  unfold jsTemplateMatch
  have hlen : (q1 :: mid ++ [q2]).length = mid.length + 2 := by simp
  rw [if_pos (by omega)]
  have h0 : (q1 :: mid ++ [q2]).getD 0 ' ' = q1 := rfl
  have h1 : (q1 :: mid ++ [q2]).getD ((q1 :: mid ++ [q2]).length - 1) ' ' = q2 := by
    rw [hlen]
    show (q1 :: (mid ++ [q2])).getD (mid.length + 1) ' ' = q2
    rw [List.getD_cons_succ]
    unfold List.getD
    rw [List.get?_append_right (le_refl _)]
    simp
  have h2 : ((q1 :: mid ++ [q2]).drop 1).take ((q1 :: mid ++ [q2]).length - 2) = mid := by
    rw [hlen]
    show (mid ++ [q2]).take mid.length = mid
    rw [List.take_left]
  rw [h0, h1, h2]

theorem jsTemplateMatch_none_head (s : Str) (h : s.getD 0 ' ' ≠ btc) :
    jsTemplateMatch s = none := by
  have h2 : (s[0]?).getD ' ' ≠ btc := by
    rwa [List.getD_eq_getElem?_getD] at h
  unfold jsTemplateMatch
  split
  · simp [h2]
  · rfl

theorem js_literal_clean (lit : Str) (hlit : WordLike lit) :
    cleanJsHookName (sqc :: lit ++ [sqc]) = some lit ∧
    jsIsDynamic (sqc :: lit ++ [sqc]) = false := by
  obtain ⟨hne, hall⟩ := hlit
  have hfacts := fun c hc => wordLike_char_facts c (hall c hc)
  have htrim : jsTrim (sqc :: lit ++ [sqc]) = sqc :: lit ++ [sqc] := by
    apply jsTrim_eq_self _ (by simp)
    · show isJsSpace sqc = false
      decide
    · have hsh : sqc :: lit ++ [sqc] = (sqc :: lit) ++ [sqc] := by simp
      rw [hsh, getLastD_append_right _ _ _ (by simp)]
      decide
  have hq : quotedBody jsIsQuote true (sqc :: lit ++ [sqc]) = some lit := by
    rw [quotedBody_pair, if_pos]
    simp only [Bool.and_eq_true, List.all_eq_true]
    refine ⟨⟨⟨?_, ?_⟩, ?_⟩, ?_⟩
    · decide
    · decide
    · simp [hne]
    · intro c hc
      simp [(hfacts c hc).2.2.1]
  have hmem : ∀ x ∈ sqc :: lit ++ [sqc], x = sqc ∨ x ∈ lit := by
    intro x hx
    simp only [List.mem_cons, List.mem_append, List.mem_singleton] at hx
    tauto
  constructor
  · simp only [cleanJsHookName]
    rw [htrim, hq]
  · unfold jsIsDynamic
    have hbt : containsChar (sqc :: lit ++ [sqc]) btc = false := by
      apply containsChar_eq_false
      intro x hx
      rcases hmem x hx with h | h
      · subst h; decide
      · exact (hfacts x h).2.2.2.2.2.2.2.2.1
    have hdl : containsSub (sqc :: lit ++ [sqc]) ['$', lbc] = false := by
      apply containsSub_head_false
      intro x hx
      rcases hmem x hx with h | h
      · subst h; decide
      · exact (hfacts x h).2.2.2.1
    have hpl : containsChar (sqc :: lit ++ [sqc]) '+' = false := by
      apply containsChar_eq_false
      intro x hx
      rcases hmem x hx with h | h
      · subst h; decide
      · exact (hfacts x h).2.2.2.2.2.1
    rw [hbt, hdl, hpl]
    rfl

theorem js_template_var_clean (lit v : Str) (hlit : WordLike lit) (hv : WordLike v) :
    cleanJsHookName (btc :: (lit ++ '$' :: lbc :: v ++ [rbc]) ++ [btc]) =
      some (lit ++ '$' :: lbc :: v ++ [rbc]) ∧
    jsIsDynamic (btc :: (lit ++ '$' :: lbc :: v ++ [rbc]) ++ [btc]) = true := by
  obtain ⟨hlne, hlall⟩ := hlit
  obtain ⟨hvne, hvall⟩ := hv
  have hlfacts := fun c hc => wordLike_char_facts c (hlall c hc)
  have hvfacts := fun c hc => wordLike_char_facts c (hvall c hc)
  have hmid : ∀ x ∈ lit ++ '$' :: lbc :: v ++ [rbc],
      x ∈ lit ∨ x = '$' ∨ x = lbc ∨ x ∈ v ∨ x = rbc := by
    intro x hx
    simp only [List.mem_append, List.mem_cons, List.mem_singleton] at hx
    tauto
  have htrim : jsTrim (btc :: (lit ++ '$' :: lbc :: v ++ [rbc]) ++ [btc]) =
      btc :: (lit ++ '$' :: lbc :: v ++ [rbc]) ++ [btc] := by
    apply jsTrim_eq_self _ (by simp)
    · show isJsSpace btc = false
      decide
    · have hsh : btc :: (lit ++ '$' :: lbc :: v ++ [rbc]) ++ [btc] =
          (btc :: (lit ++ '$' :: lbc :: v ++ [rbc])) ++ [btc] := rfl
      rw [hsh, getLastD_append_right _ _ _ (by simp)]
      decide
  have hq : quotedBody jsIsQuote true (btc :: (lit ++ '$' :: lbc :: v ++ [rbc]) ++ [btc]) =
      some (lit ++ '$' :: lbc :: v ++ [rbc]) := by
    rw [quotedBody_pair, if_pos]
    simp only [Bool.and_eq_true, List.all_eq_true]
    refine ⟨⟨⟨?_, ?_⟩, ?_⟩, ?_⟩
    · decide
    · decide
    · simp
    · intro c hc
      rcases hmid c hc with h | h | h | h | h
      · simp [(hlfacts c h).2.2.1]
      · subst h; decide
      · subst h; decide
      · simp [(hvfacts c h).2.2.1]
      · subst h; decide
  constructor
  · simp only [cleanJsHookName]
    rw [htrim, hq]
  · unfold jsIsDynamic
    have hbt : containsChar (btc :: (lit ++ '$' :: lbc :: v ++ [rbc]) ++ [btc]) btc = true :=
      containsChar_cons_self btc _
    rw [hbt]
    rfl

theorem js_template_call_clean (lit : Str) (hlit : WordLike lit) :
    cleanJsHookName
        (btc :: (lit ++ '$' :: lbc :: ('f' :: '(' :: sqc :: 'v' :: sqc :: [')']) ++ [rbc]) ++
          [btc]) =
      some (lit ++ dynamicTok) ∧
    jsIsDynamic
        (btc :: (lit ++ '$' :: lbc :: ('f' :: '(' :: sqc :: 'v' :: sqc :: [')']) ++ [rbc]) ++
          [btc]) = true := by
  obtain ⟨hlne, hlall⟩ := hlit
  have hlfacts := fun c hc => wordLike_char_facts c (hlall c hc)
  have htrim : jsTrim
      (btc :: (lit ++ '$' :: lbc :: ('f' :: '(' :: sqc :: 'v' :: sqc :: [')']) ++ [rbc]) ++
        [btc]) =
      btc :: (lit ++ '$' :: lbc :: ('f' :: '(' :: sqc :: 'v' :: sqc :: [')']) ++ [rbc]) ++
        [btc] := by
    apply jsTrim_eq_self _ (by simp)
    · show isJsSpace btc = false
      decide
    · have hsh : btc :: (lit ++ '$' :: lbc :: ('f' :: '(' :: sqc :: 'v' :: sqc :: [')']) ++
          [rbc]) ++ [btc] =
          (btc :: (lit ++ '$' :: lbc :: ('f' :: '(' :: sqc :: 'v' :: sqc :: [')']) ++ [rbc])) ++
            [btc] := rfl
      rw [hsh, getLastD_append_right _ _ _ (by simp)]
      decide
  have hq1 : quotedBody jsIsQuote true
      (btc :: (lit ++ '$' :: lbc :: ('f' :: '(' :: sqc :: 'v' :: sqc :: [')']) ++ [rbc]) ++
        [btc]) = none := by
    rw [quotedBody_pair, if_neg]
    intro hcond
    simp only [Bool.and_eq_true, List.all_eq_true] at hcond
    have h := hcond.2 sqc (by simp)
    simp [jsIsQuote] at h
  have htm : jsTemplateMatch
      (btc :: (lit ++ '$' :: lbc :: ('f' :: '(' :: sqc :: 'v' :: sqc :: [')']) ++ [rbc]) ++
        [btc]) = none := by
    rw [jsTemplateMatch_pair, if_neg]
    intro hcond
    simp only [Bool.and_eq_true, List.all_eq_true] at hcond
    have h := hcond.2 '$' (by simp)
    simp at h
  have hsw : startsWithS
      (btc :: (lit ++ '$' :: lbc :: ('f' :: '(' :: sqc :: 'v' :: sqc :: [')']) ++ [rbc]) ++
        [btc]) [btc] = true := by
    show (decide (btc = btc) && startsWithS
      ((lit ++ '$' :: lbc :: ('f' :: '(' :: sqc :: 'v' :: sqc :: [')']) ++ [rbc]) ++ [btc])
      []) = true
    rw [startsWithS_nil_pat]
    simp
  have hfilter : List.filter (fun c => decide (c ≠ btc))
      (btc :: (lit ++ '$' :: lbc :: ('f' :: '(' :: sqc :: 'v' :: sqc :: [')']) ++ [rbc]) ++
        [btc]) =
      lit ++ '$' :: lbc :: ('f' :: '(' :: sqc :: 'v' :: sqc :: [')']) ++ [rbc] := by
    have hsh : btc :: (lit ++ '$' :: lbc :: ('f' :: '(' :: sqc :: 'v' :: sqc :: [')']) ++
        [rbc]) ++ [btc] =
        ([btc] ++ (lit ++ '$' :: lbc :: ('f' :: '(' :: sqc :: 'v' :: sqc :: [')']) ++ [rbc])) ++
          [btc] := rfl
    rw [hsh, List.filter_append, List.filter_append]
    have ha : List.filter (fun c => decide (c ≠ btc)) [btc] = [] := by decide
    have hb : List.filter (fun c => decide (c ≠ btc))
        (lit ++ '$' :: lbc :: ('f' :: '(' :: sqc :: 'v' :: sqc :: [')']) ++ [rbc]) =
        lit ++ '$' :: lbc :: ('f' :: '(' :: sqc :: 'v' :: sqc :: [')']) ++ [rbc] := by
      apply List.filter_eq_self.mpr
      intro a ha2
      have ha3 : a ∈ lit ∨ a = '$' ∨ a = lbc ∨ a = 'f' ∨ a = '(' ∨ a = sqc ∨ a = 'v' ∨
          a = ')' ∨ a = rbc := by
        simp only [List.mem_append, List.mem_cons, List.mem_singleton] at ha2
        tauto
      rcases ha3 with h | h | h | h | h | h | h | h | h
      · simp [(hlfacts a h).2.2.2.2.2.2.2.2.1]
      all_goals (subst h; decide)
    rw [ha, hb]
    simp
  have hrep : replaceTplExprs
      (lit ++ '$' :: lbc :: ('f' :: '(' :: sqc :: 'v' :: sqc :: [')']) ++ [rbc]) =
      lit ++ dynamicTok := by
    apply replaceTplExprs_expr
    · intro c hc
      exact (hlfacts c hc).2.2.2.1
    · simp
    · decide
  constructor
  · simp only [cleanJsHookName]
    rw [htrim, hq1, htm, hsw, hfilter, hrep]
    simp [dynamicTok]
  · unfold jsIsDynamic
    have hbt : containsChar
        (btc :: (lit ++ '$' :: lbc :: ('f' :: '(' :: sqc :: 'v' :: sqc :: [')']) ++ [rbc]) ++
          [btc]) btc = true := containsChar_cons_self btc _
    rw [hbt]
    rfl

theorem js_concat_clean (lit v : Str) (hlit : WordLike lit) (hv : WordLike v) :
    cleanJsHookName (sqc :: lit ++ sqc :: ' ' :: '+' :: ' ' :: v) = some (lit ++ dynamicTok) ∧
    jsIsDynamic (sqc :: lit ++ sqc :: ' ' :: '+' :: ' ' :: v) = true := by
  obtain ⟨hlne, hlall⟩ := hlit
  obtain ⟨hvne, hvall⟩ := hv
  have hlfacts := fun c hc => wordLike_char_facts c (hlall c hc)
  have hvfacts := fun c hc => wordLike_char_facts c (hvall c hc)
  have hraw2 : sqc :: lit ++ sqc :: ' ' :: '+' :: ' ' :: v =
      (sqc :: lit ++ [sqc, ' ', '+', ' ']) ++ v := by simp
  have hlastv : isJsSpace (v.getLastD 'x') = false :=
    (hvfacts _ (getLastD_mem v 'x' hvne)).1
  have htrim : jsTrim (sqc :: lit ++ sqc :: ' ' :: '+' :: ' ' :: v) =
      sqc :: lit ++ sqc :: ' ' :: '+' :: ' ' :: v := by
    apply jsTrim_eq_self _ (by simp)
    · show isJsSpace sqc = false
      decide
    · rw [hraw2, getLastD_append_right _ _ _ hvne]
      exact hlastv
  have hsm : quotedBody jsIsQuote true (sqc :: lit ++ sqc :: ' ' :: '+' :: ' ' :: v) =
      none := by
    apply quotedBody_none_last
    rw [getD_last _ _ (by simp), hraw2, getLastD_append_right _ _ _ hvne]
    exact (hvfacts _ (getLastD_mem v ' ' hvne)).2.2.1
  have htm : jsTemplateMatch (sqc :: lit ++ sqc :: ' ' :: '+' :: ' ' :: v) = none := by
    apply jsTemplateMatch_none_head
    rw [getD_zero]
    show sqc ≠ btc
    decide
  have hsw : startsWithS (sqc :: lit ++ sqc :: ' ' :: '+' :: ' ' :: v) [btc] = false := by
    show (decide (sqc = btc) && startsWithS (lit ++ sqc :: ' ' :: '+' :: ' ' :: v) []) = false
    have h : decide (sqc = btc) = false := by decide
    rw [h]
    rfl
  have hplus : containsChar (sqc :: lit ++ sqc :: ' ' :: '+' :: ' ' :: v) '+' = true := by
    apply containsChar_of_mem
    simp
  have hsplit : splitOnChar '+' (sqc :: lit ++ sqc :: ' ' :: '+' :: ' ' :: v) =
      (sqc :: lit ++ [sqc, ' ']) :: [' ' :: v] := by
    have hsh : sqc :: lit ++ sqc :: ' ' :: '+' :: ' ' :: v =
        (sqc :: lit ++ [sqc, ' ']) ++ '+' :: (' ' :: v) := by simp
    rw [hsh, splitOnChar_append_sep]
    · rw [splitOnChar_no_sep]
      intro x hx
      have hx2 : x = ' ' ∨ x ∈ v := by simpa using hx
      rcases hx2 with h | h
      · subst h; decide
      · exact (hvfacts x h).2.2.2.2.2.1
    · intro x hx
      have hx2 : x = sqc ∨ x ∈ lit ∨ x = sqc ∨ x = ' ' := by simpa using hx
      rcases hx2 with h | h | h | h
      · subst h; decide
      · exact (hlfacts x h).2.2.2.2.2.1
      · subst h; decide
      · subst h; decide
  have hpart1 : jsTrim (sqc :: lit ++ [sqc, ' ']) = sqc :: lit ++ [sqc] := by
    have hsh : sqc :: lit ++ [sqc, ' '] = [] ++ (sqc :: lit ++ [sqc]) ++ [' '] := by simp
    rw [hsh]
    apply jsTrim_spec
    · intro c hc
      simp at hc
    · intro c hc
      simp only [List.mem_singleton] at hc
      subst hc
      decide
    · simp
    · show isJsSpace sqc = false
      decide
    · have hsh2 : sqc :: lit ++ [sqc] = (sqc :: lit) ++ [sqc] := by simp
      rw [hsh2, getLastD_append_right _ _ _ (by simp)]
      decide
  have hq1 : quotedBody jsIsQuote false (sqc :: lit ++ [sqc]) = some lit := by
    rw [quotedBody_pair, if_pos]
    simp only [Bool.and_eq_true, List.all_eq_true]
    refine ⟨⟨⟨?_, ?_⟩, ?_⟩, ?_⟩
    · decide
    · decide
    · simp [hlne]
    · intro c hc
      simp [(hlfacts c hc).2.2.1]
  have hpart2 : jsTrim (' ' :: v) = v := by
    have hsh : ' ' :: v = [' '] ++ v ++ [] := by simp
    rw [hsh]
    apply jsTrim_spec
    · intro c hc
      simp only [List.mem_singleton] at hc
      subst hc
      decide
    · intro c hc
      simp at hc
    · exact hvne
    · exact (hvfacts _ (headD_mem v 'x' hvne)).1
    · exact hlastv
  have hq2 : quotedBody jsIsQuote false v = none := by
    apply quotedBody_none_head
    rw [getD_zero]
    exact (hvfacts _ (headD_mem v ' ' hvne)).2.2.1
  constructor
  · simp only [cleanJsHookName]
    rw [htrim, hsm, htm, hsw, hplus, hsplit]
    simp only [List.map_cons, List.map_nil]
    rw [hpart1, hq1, hpart2, hq2]
    simp [hlne]
  · unfold jsIsDynamic
    rw [hplus]
    simp

theorem js_bare_var_clean (v : Str) (hv : WordLike v) :
    cleanJsHookName v = none ∧ jsIsDynamic v = false := by
  obtain ⟨hvne, hvall⟩ := hv
  have hvfacts := fun c hc => wordLike_char_facts c (hvall c hc)
  have htrim : jsTrim v = v :=
    jsTrim_eq_self v hvne (hvfacts _ (headD_mem v 'x' hvne)).1
      (hvfacts _ (getLastD_mem v 'x' hvne)).1
  have hsm : quotedBody jsIsQuote true v = none := by
    apply quotedBody_none_head
    rw [getD_zero]
    exact (hvfacts _ (headD_mem v ' ' hvne)).2.2.1
  have htm : jsTemplateMatch v = none := by
    apply jsTemplateMatch_none_head
    rw [getD_zero]
    exact (hvfacts _ (headD_mem v ' ' hvne)).2.2.2.2.2.2.2.2.1
  have hplus : containsChar v '+' = false := by
    apply containsChar_eq_false
    intro x hx
    exact (hvfacts x hx).2.2.2.2.2.1
  have hsw : startsWithS v [btc] = false := by
    obtain ⟨c, cs, hv2⟩ := List.exists_cons_of_ne_nil hvne
    subst hv2
    have hc : c ≠ btc := (hvfacts c (by simp)).2.2.2.2.2.2.2.2.1
    show (decide (c = btc) && startsWithS cs []) = false
    simp [hc]
  constructor
  · simp only [cleanJsHookName]
    rw [htrim, hsm, htm, hsw, hplus]
    rfl
  · unfold jsIsDynamic
    have hbt : containsChar v btc = false := by
      apply containsChar_eq_false
      intro x hx
      exact (hvfacts x hx).2.2.2.2.2.2.2.2.1
    have hdl : containsSub v ['$', lbc] = false := by
      apply containsSub_head_false
      intro x hx
      exact (hvfacts x hx).2.2.2.1
    rw [hbt, hdl, hplus]
    rfl

/-- One JS line registering a hook whose first argument is the template
literal with the interpolated variable bar inside foo_. -/
def c3cexContent : Str :=
  str "addAction(" ++ [btc] ++ str "foo_" ++ ['$', lbc] ++ str "bar" ++ [rbc, btc] ++
    str ", cb);"

/-- Counterexample to C3 as frozen: for the JS declaration whose first
argument is the interpolated template over the variable bar, extraction
records the raw interpolated text (foo_ followed by the dollar-brace
expression) as the name, not the literal with the placeholder token, even
though it does flag the record dynamic. -/
theorem c3_counterexample :
    ((parseJsFile c3cexContent [] 1).hooks.map (fun h => (h.name, h.is_dynamic)) =
      [(str "foo_" ++ ['$', lbc] ++ str "bar" ++ [rbc], 1)]) ∧
    str "foo_" ++ ['$', lbc] ++ str "bar" ++ [rbc] ≠ str "foo_" ++ dynamicTok := by
  set_option maxRecDepth 100000 in decide

/-- C3 (amended): name classification of a first argument over word-like
literal and variable parts.  In PHP, a single-quoted literal is kept exactly
with is_dynamic false; a concatenation with a variable yields the literal
followed by the placeholder token with is_dynamic true; a concatenation with
a function call also yields the placeholder form, but is_dynamic is false
because the inline test only looks for a dollar sign or a leading unquoted
dot-expression; a bare variable yields the placeholder token alone with
is_dynamic true.  In JS, a quoted literal is kept exactly with is_dynamic
false; a template literal whose interpolated expression contains no quote or
backtick characters is kept as its raw text (the dollar-brace expression
included) rather than receiving the placeholder token, though it is flagged
dynamic — this is where the original claim fails; a template literal whose
expression contains a quote character does receive the placeholder; plus-
concatenation with a variable yields the placeholder with is_dynamic true;
and a bare variable produces no name at all, so the declaration is dropped. -/
theorem c3_dynamic_name_classification (lit v : Str) (hlit : WordLike lit)
    (hv : WordLike v) :
    (cleanHookName (sqc :: lit ++ [sqc]) = some lit ∧
      phpIsDynamic (sqc :: lit ++ [sqc]) = false) ∧
    (cleanHookName (sqc :: lit ++ sqc :: ' ' :: '.' :: ' ' :: '$' :: v) =
        some (lit ++ dynamicTok) ∧
      phpIsDynamic (sqc :: lit ++ sqc :: ' ' :: '.' :: ' ' :: '$' :: v) = true) ∧
    (cleanHookName (sqc :: lit ++ sqc :: ' ' :: '.' :: ' ' :: 'f' :: '(' :: 'x' :: [')']) =
        some (lit ++ dynamicTok) ∧
      phpIsDynamic (sqc :: lit ++ sqc :: ' ' :: '.' :: ' ' :: 'f' :: '(' :: 'x' :: [')']) =
        false) ∧
    (cleanHookName ('$' :: v) = some dynamicTok ∧ phpIsDynamic ('$' :: v) = true) ∧
    (cleanJsHookName (sqc :: lit ++ [sqc]) = some lit ∧
      jsIsDynamic (sqc :: lit ++ [sqc]) = false) ∧
    (cleanJsHookName (btc :: (lit ++ '$' :: lbc :: v ++ [rbc]) ++ [btc]) =
        some (lit ++ '$' :: lbc :: v ++ [rbc]) ∧
      jsIsDynamic (btc :: (lit ++ '$' :: lbc :: v ++ [rbc]) ++ [btc]) = true) ∧
    (cleanJsHookName
          (btc :: (lit ++ '$' :: lbc :: ('f' :: '(' :: sqc :: 'v' :: sqc :: [')']) ++ [rbc]) ++
            [btc]) =
        some (lit ++ dynamicTok) ∧
      jsIsDynamic
          (btc :: (lit ++ '$' :: lbc :: ('f' :: '(' :: sqc :: 'v' :: sqc :: [')']) ++ [rbc]) ++
            [btc]) = true) ∧
    (cleanJsHookName (sqc :: lit ++ sqc :: ' ' :: '+' :: ' ' :: v) =
        some (lit ++ dynamicTok) ∧
      jsIsDynamic (sqc :: lit ++ sqc :: ' ' :: '+' :: ' ' :: v) = true) ∧
    (cleanJsHookName v = none ∧ jsIsDynamic v = false) :=
  ⟨php_literal_clean lit hlit, php_concat_var_clean lit v hlit hv,
   php_concat_call_clean lit hlit, php_bare_var_clean v hv, js_literal_clean lit hlit,
   js_template_var_clean lit v hlit hv, js_template_call_clean lit hlit,
   js_concat_clean lit v hlit hv, js_bare_var_clean v hv⟩

/-- The amended C3 theorem instantiated at the literal foo_ and the variable
bar, with both word-likeness hypotheses discharged by evaluation. -/
theorem c3_dynamic_name_classification_witness :
    WordLike (str "foo_") ∧ WordLike (str "bar") ∧
      (cleanHookName (sqc :: str "foo_" ++ sqc :: ' ' :: '.' :: ' ' :: '$' :: str "bar") =
        some (str "foo_" ++ dynamicTok) ∧
      phpIsDynamic (sqc :: str "foo_" ++ sqc :: ' ' :: '.' :: ' ' :: '$' :: str "bar") =
        true) :=
  ⟨by decide, by decide,
    (c3_dynamic_name_classification (str "foo_") (str "bar") (by decide) (by decide)).2.1⟩

/-- A one-row database for concrete instantiations: the empty database after
inserting the default hook record at time `t0`. -/
def dbOne : Db :=
  { dbEmpty with hooks := [newHookRow (str "t0") 1 hd0], next_hook_id := 2 }

/-- The C10 frame theorem applied at the one-row database, the default hook
data and a later timestamp, the membership hypothesis discharged by
evaluation. -/
theorem c10_upsert_frame_witness :
    newHookRow (str "t0") 1 hd0 ∈ dbOne.hooks ∧
      ∃ r' ∈ (upsertHook (str "t1") dbOne hd0).2.hooks,
        r'.id = (newHookRow (str "t0") 1 hd0).id ∧
        r'.source_id = (newHookRow (str "t0") 1 hd0).source_id ∧
        r'.file_path = (newHookRow (str "t0") 1 hd0).file_path ∧
        r'.line_number = (newHookRow (str "t0") 1 hd0).line_number ∧
        r'.name = (newHookRow (str "t0") 1 hd0).name ∧
        r'.first_seen_at = (newHookRow (str "t0") 1 hd0).first_seen_at :=
  ⟨by decide, c10_upsert_frame (str "t1") dbOne hd0 (newHookRow (str "t0") 1 hd0) (by decide)⟩

/-! ### C1: the reconciliation invariant -/

/-- The table's standing invariant: row ids are below the id counter and
pairwise distinct (`AUTOINCREMENT` primary key), and natural keys are
pairwise distinct (the `UNIQUE(source_id, file_path, line_number, name)`
constraint). -/
def hookInv (db : Db) : Prop :=
  (∀ r ∈ db.hooks, r.id < db.next_hook_id) ∧
  db.hooks.Pairwise (fun a b => a.id ≠ b.id) ∧
  db.hooks.Pairwise (fun a b => hookKey a ≠ hookKey b)

theorem mem_unique_by_id {l : List HookRow}
    (hp : l.Pairwise (fun a b => a.id ≠ b.id)) {a b : HookRow}
    (ha : a ∈ l) (hb : b ∈ l) (hid : a.id = b.id) : a = b := by
  by_contra hne
  have hsymm : Symmetric (fun a b : HookRow => a.id ≠ b.id) := by
    intro x y h e
    exact h e.symm
  exact hp.forall hsymm ha hb hne hid

theorem mem_unique_by_key {l : List HookRow}
    (hp : l.Pairwise (fun a b => hookKey a ≠ hookKey b)) {a b : HookRow}
    (ha : a ∈ l) (hb : b ∈ l) (hk : hookKey a = hookKey b) : a = b := by
  by_contra hne
  have hsymm : Symmetric (fun a b : HookRow => hookKey a ≠ hookKey b) := by
    intro x y h e
    exact h e.symm
  exact hp.forall hsymm ha hb hne hk

theorem findHook_key (hooks : List HookRow) (d : HookData) (e : HookRow)
    (h : findHook hooks d = some e) : e ∈ hooks ∧ hookKey e = hookDataKey d := by
  unfold findHook at h
  refine ⟨List.mem_of_find?_eq_some h, ?_⟩
  have := List.find?_some h
  simpa using this

theorem findHook_none (hooks : List HookRow) (d : HookData)
    (h : findHook hooks d = none) : ∀ r ∈ hooks, hookKey r ≠ hookDataKey d := by
  unfold findHook at h
  intro r hr
  have := List.find?_eq_none.mp h r hr
  simpa using this

theorem skipBump_id (now : Str) (h : HookRow) : (skipBump now h).id = h.id := rfl

theorem skipBump_key (now : Str) (h : HookRow) : hookKey (skipBump now h) = hookKey h := rfl

theorem applyHookUpdate_id (now : Str) (d : HookData) (h : HookRow) :
    (applyHookUpdate now d h).id = h.id := rfl

theorem applyHookUpdate_key (now : Str) (d : HookData) (h : HookRow) :
    hookKey (applyHookUpdate now d h) = hookKey h := rfl

/-- The three paths of `upsertHook`, fully characterised: a found row is
bumped or content-updated in place, a missing key appends a fresh row and
advances the id counter. -/
theorem upsertHook_hooks (now : Str) (db : Db) (d : HookData) :
    (∃ e, findHook db.hooks d = some e ∧ hookKey e = hookDataKey d ∧ e ∈ db.hooks ∧
      (upsertHook now db d).1.id = e.id ∧
      (upsertHook now db d).2.next_hook_id = db.next_hook_id ∧
      ((upsertHook now db d).2.hooks =
        db.hooks.map (fun h => if h.id = e.id then skipBump now h else h) ∨
       (upsertHook now db d).2.hooks =
        db.hooks.map (fun h => if h.id = e.id then applyHookUpdate now d h else h))) ∨
    (findHook db.hooks d = none ∧ (upsertHook now db d).1.id = db.next_hook_id ∧
      (upsertHook now db d).2.hooks = db.hooks ++ [newHookRow now db.next_hook_id d] ∧
      (upsertHook now db d).2.next_hook_id = db.next_hook_id + 1) := by
  cases hfind : findHook db.hooks d with
  | none =>
    right
    refine ⟨rfl, ?_, ?_, ?_⟩ <;> simp [upsertHook, hfind]
  | some e =>
    left
    obtain ⟨hmem, hkey⟩ := findHook_key db.hooks d e hfind
    by_cases hc : e.content_hash = some d.content_hash
    · exact ⟨e, rfl, hkey, hmem, by simp [upsertHook, hfind, hc],
        by simp [upsertHook, hfind, hc], Or.inl (by simp [upsertHook, hfind, hc])⟩
    · exact ⟨e, rfl, hkey, hmem, by simp [upsertHook, hfind, hc],
        by simp [upsertHook, hfind, hc], Or.inr (by simp [upsertHook, hfind, hc])⟩

theorem skipBump_status (now : Str) (h : HookRow) :
    (skipBump now h).status = str "active" := rfl

theorem applyHookUpdate_status (now : Str) (d : HookData) (h : HookRow) :
    (applyHookUpdate now d h).status = str "active" := rfl

theorem newHookRow_id (now : Str) (rid : Nat) (d : HookData) :
    (newHookRow now rid d).id = rid := rfl

theorem newHookRow_key (now : Str) (rid : Nat) (d : HookData) :
    hookKey (newHookRow now rid d) = hookDataKey d := rfl

theorem newHookRow_status (now : Str) (rid : Nat) (d : HookData) :
    (newHookRow now rid d).status = str "active" := rfl

theorem pairwise_map_of_preserve {α : Type} (m : HookRow → α) (f : HookRow → HookRow)
    (hf : ∀ h, m (f h) = m h) {l : List HookRow}
    (hp : l.Pairwise (fun a b => m a ≠ m b)) :
    (l.map f).Pairwise (fun a b => m a ≠ m b) := by
  rw [List.pairwise_map]
  refine hp.imp ?_
  intro a b h
  rw [hf a, hf b]
  exact h

theorem upsertHook_inv (now : Str) (db : Db) (d : HookData) (hinv : hookInv db) :
    hookInv (upsertHook now db d).2 := by
  obtain ⟨hbound, hids, hkeys⟩ := hinv
  rcases upsertHook_hooks now db d with
    ⟨e, hfind, hkey, hmem, hid, hnext, hcase⟩ | ⟨hfind, hid, hhooks, hnext⟩
  · have hfid : ∀ (f : HookRow → HookRow), (∀ h, (f h).id = h.id) →
        (∀ h, hookKey (f h) = hookKey h) →
        (upsertHook now db d).2.hooks = db.hooks.map f → hookInv (upsertHook now db d).2 := by
      intro f hf1 hf2 hmap
      refine ⟨?_, ?_, ?_⟩
      · intro r hr
        rw [hmap] at hr
        obtain ⟨u, hu, rfl⟩ := List.mem_map.mp hr
        rw [hnext, hf1 u]
        exact hbound u hu
      · rw [hmap]
        exact pairwise_map_of_preserve (fun h => h.id) f hf1 hids
      · rw [hmap]
        exact pairwise_map_of_preserve hookKey f hf2 hkeys
    rcases hcase with hmap | hmap
    · refine hfid _ ?_ ?_ hmap
      · intro h
        by_cases hc : h.id = e.id <;> simp [hc, skipBump_id]
      · intro h
        by_cases hc : h.id = e.id <;> simp [hc, skipBump_key]
    · refine hfid _ ?_ ?_ hmap
      · intro h
        by_cases hc : h.id = e.id <;> simp [hc, applyHookUpdate_id]
      · intro h
        by_cases hc : h.id = e.id <;> simp [hc, applyHookUpdate_key]
  · refine ⟨?_, ?_, ?_⟩
    · intro r hr
      rw [hhooks] at hr
      rw [hnext]
      rcases List.mem_append.mp hr with h | h
      · have := hbound r h
        omega
      · have : r = newHookRow now db.next_hook_id d := by simpa using h
        rw [this, newHookRow_id]
        omega
    · rw [hhooks, List.pairwise_append]
      refine ⟨hids, by simp, ?_⟩
      intro a ha b hb
      have hbv : b = newHookRow now db.next_hook_id d := by simpa using hb
      rw [hbv, newHookRow_id]
      have := hbound a ha
      omega
    · rw [hhooks, List.pairwise_append]
      refine ⟨hkeys, by simp, ?_⟩
      intro a ha b hb
      have hbv : b = newHookRow now db.next_hook_id d := by simpa using hb
      rw [hbv, newHookRow_key]
      exact findHook_none db.hooks d hfind a ha

theorem upsertHook_untouched (now : Str) (db : Db) (d : HookData) (hinv : hookInv db)
    (r : HookRow) (hr : r ∈ db.hooks) (hne : hookKey r ≠ hookDataKey d) :
    r ∈ (upsertHook now db d).2.hooks := by
  obtain ⟨hbound, hids, hkeys⟩ := hinv
  rcases upsertHook_hooks now db d with
    ⟨e, hfind, hkey, hmem, hid, hnext, hcase⟩ | ⟨hfind, hid, hhooks, hnext⟩
  · have hre : r.id ≠ e.id := by
      intro hideq
      have hrev : r = e := mem_unique_by_id hids hr hmem hideq
      rw [hrev] at hne
      exact hne hkey
    rcases hcase with hmap | hmap <;> rw [hmap]
    · have := List.mem_map_of_mem (fun h => if h.id = e.id then skipBump now h else h) hr
      simpa [hre] using this
    · have := List.mem_map_of_mem (fun h => if h.id = e.id then applyHookUpdate now d h else h) hr
      simpa [hre] using this
  · rw [hhooks]
    exact List.mem_append_left _ hr

theorem upsertHook_touched (now : Str) (db : Db) (d : HookData) :
    ∃ r ∈ (upsertHook now db d).2.hooks,
      r.id = (upsertHook now db d).1.id ∧ hookKey r = hookDataKey d ∧
      r.status = str "active" := by
  rcases upsertHook_hooks now db d with
    ⟨e, hfind, hkey, hmem, hid, hnext, hcase⟩ | ⟨hfind, hid, hhooks, hnext⟩
  · rcases hcase with hmap | hmap <;> rw [hmap]
    · refine ⟨skipBump now e, ?_, ?_, ?_, rfl⟩
      · have := List.mem_map_of_mem (fun h => if h.id = e.id then skipBump now h else h) hmem
        simpa using this
      · rw [skipBump_id, hid]
      · rw [skipBump_key, hkey]
    · refine ⟨applyHookUpdate now d e, ?_, ?_, ?_, rfl⟩
      · have := List.mem_map_of_mem
          (fun h => if h.id = e.id then applyHookUpdate now d h else h) hmem
        simpa using this
      · rw [applyHookUpdate_id, hid]
      · rw [applyHookUpdate_key, hkey]
  · rw [hhooks]
    refine ⟨newHookRow now db.next_hook_id d, List.mem_append_right _ (by simp), ?_, rfl, rfl⟩
    rw [newHookRow_id, hid]

theorem upsertHook_stable (now : Str) (db : Db) (d : HookData) (i : Nat)
    (k : Nat × Str × Nat × Str)
    (h : ∃ r ∈ db.hooks, r.id = i ∧ hookKey r = k ∧ r.status = str "active") :
    ∃ r ∈ (upsertHook now db d).2.hooks,
      r.id = i ∧ hookKey r = k ∧ r.status = str "active" := by
  obtain ⟨r, hr, hri, hrk, hrs⟩ := h
  rcases upsertHook_hooks now db d with
    ⟨e, hfind, hkey, hmem, hid, hnext, hcase⟩ | ⟨hfind, hid, hhooks, hnext⟩
  · rcases hcase with hmap | hmap <;> rw [hmap]
    · refine ⟨if r.id = e.id then skipBump now r else r, List.mem_map_of_mem _ hr, ?_⟩
      by_cases hc : r.id = e.id
      · rw [if_pos hc]
        exact ⟨(skipBump_id now r).trans hri, (skipBump_key now r).trans hrk, rfl⟩
      · rw [if_neg hc]
        exact ⟨hri, hrk, hrs⟩
    · refine ⟨if r.id = e.id then applyHookUpdate now d r else r, List.mem_map_of_mem _ hr, ?_⟩
      by_cases hc : r.id = e.id
      · rw [if_pos hc]
        exact ⟨(applyHookUpdate_id now d r).trans hri, (applyHookUpdate_key now d r).trans hrk,
          rfl⟩
      · rw [if_neg hc]
        exact ⟨hri, hrk, hrs⟩
  · rw [hhooks]
    exact ⟨r, List.mem_append_left _ hr, hri, hrk, hrs⟩

theorem upsertHooksList_cons_db (now : Str) (db : Db) (d : HookData) (rest : List HookData) :
    (upsertHooksList now db (d :: rest)).db =
      (upsertHooksList now (upsertHook now db d).2 rest).db := rfl

theorem upsertHooksList_cons_touched (now : Str) (db : Db) (d : HookData)
    (rest : List HookData) :
    (upsertHooksList now db (d :: rest)).touched =
      (upsertHook now db d).1.id :: (upsertHooksList now (upsertHook now db d).2 rest).touched :=
  rfl

theorem fold_inv (now : Str) (db : Db) (ds : List HookData) (hinv : hookInv db) :
    hookInv (upsertHooksList now db ds).db := by
  induction ds generalizing db with
  | nil => exact hinv
  | cons d rest ih =>
    rw [upsertHooksList_cons_db]
    exact ih _ (upsertHook_inv now db d hinv)

theorem fold_stable (now : Str) (db : Db) (ds : List HookData) (i : Nat)
    (k : Nat × Str × Nat × Str)
    (h : ∃ r ∈ db.hooks, r.id = i ∧ hookKey r = k ∧ r.status = str "active") :
    ∃ r ∈ (upsertHooksList now db ds).db.hooks,
      r.id = i ∧ hookKey r = k ∧ r.status = str "active" := by
  induction ds generalizing db with
  | nil => exact h
  | cons d rest ih =>
    rw [upsertHooksList_cons_db]
    exact ih _ (upsertHook_stable now db d i k h)

theorem fold_touched_key (now : Str) (db : Db) (ds : List HookData) (i : Nat)
    (hi : i ∈ (upsertHooksList now db ds).touched) :
    ∃ d ∈ ds, ∃ r ∈ (upsertHooksList now db ds).db.hooks,
      r.id = i ∧ hookKey r = hookDataKey d ∧ r.status = str "active" := by
  induction ds generalizing db with
  | nil => simp [upsertHooksList] at hi
  | cons d rest ih =>
    rw [upsertHooksList_cons_touched] at hi
    rw [upsertHooksList_cons_db]
    rcases List.mem_cons.mp hi with h | h
    · obtain ⟨r, hr, hri, hrk, hrs⟩ := upsertHook_touched now db d
      refine ⟨d, by simp, ?_⟩
      apply fold_stable
      exact ⟨r, hr, hri.trans h.symm, hrk, hrs⟩
    · obtain ⟨d2, hd2, hrest⟩ := ih _ h
      exact ⟨d2, List.mem_cons_of_mem _ hd2, hrest⟩

theorem fold_data_touched (now : Str) (db : Db) (ds : List HookData) (d : HookData)
    (hd : d ∈ ds) :
    ∃ i ∈ (upsertHooksList now db ds).touched,
      ∃ r ∈ (upsertHooksList now db ds).db.hooks,
        r.id = i ∧ hookKey r = hookDataKey d ∧ r.status = str "active" := by
  induction ds generalizing db with
  | nil => simp at hd
  | cons d1 rest ih =>
    rw [upsertHooksList_cons_touched, upsertHooksList_cons_db]
    rcases List.mem_cons.mp hd with h | h
    · subst h
      obtain ⟨r, hr, hri, hrk, hrs⟩ := upsertHook_touched now db d
      refine ⟨(upsertHook now db d).1.id, by simp, ?_⟩
      apply fold_stable
      exact ⟨r, hr, hri, hrk, hrs⟩
    · obtain ⟨i, hi, hrest⟩ := ih _ h
      exact ⟨i, List.mem_cons_of_mem _ hi, hrest⟩

theorem fold_untouched (now : Str) (db : Db) (ds : List HookData) (hinv : hookInv db)
    (r : HookRow) (hr : r ∈ db.hooks) :
    r.id ∈ (upsertHooksList now db ds).touched ∨
      r ∈ (upsertHooksList now db ds).db.hooks := by
  induction ds generalizing db with
  | nil => exact Or.inr hr
  | cons d rest ih =>
    rw [upsertHooksList_cons_touched, upsertHooksList_cons_db]
    by_cases hkeq : hookKey r = hookDataKey d
    · left
      rcases upsertHook_hooks now db d with
        ⟨e, hfind, hkey, hmem, hid, hnext, hcase⟩ | ⟨hfind, hid, hhooks, hnext⟩
      · have hre : r = e := mem_unique_by_key hinv.2.2 hr hmem (hkeq.trans hkey.symm)
        rw [hre, ← hid]
        simp
      · exact absurd hkeq (findHook_none db.hooks d hfind r hr)
    · have hr2 := upsertHook_untouched now db d hinv r hr hkeq
      rcases ih _ (upsertHook_inv now db d hinv) hr2 with h | h
      · exact Or.inl (List.mem_cons_of_mem _ h)
      · exact Or.inr h

theorem contains_eq_true_iff (l : List Nat) (a : Nat) : l.contains a = true ↔ a ∈ l := by
  simp

theorem markHooksRemoved_hooks (now : Str) (db : Db) (s : Nat) (f : Str) (ids : List Nat) :
    (markHooksRemoved now db s f ids).2.hooks =
      db.hooks.map (fun h =>
        if ((db.hooks.filter (hookRemovePred s f ids)).map (fun x => x.id)).contains h.id then
          { h with status := str "removed", removed_at := some now }
        else h) := rfl

/-- A row of the swept table that is still `active` for this (source, file)
pair was not flipped — it is an unchanged row of the pre-sweep table whose id
is among the touched ids. -/
theorem sweep_active_touched (now : Str) (db : Db) (s : Nat) (f : Str) (ids : List Nat)
    (hids : db.hooks.Pairwise (fun a b => a.id ≠ b.id))
    (r : HookRow) (hr : r ∈ (markHooksRemoved now db s f ids).2.hooks)
    (hsrc : r.source_id = s) (hfp : r.file_path = f) (hact : r.status = str "active") :
    r ∈ db.hooks ∧ r.id ∈ ids := by
  rw [markHooksRemoved_hooks] at hr
  obtain ⟨u, hu, heq⟩ := List.mem_map.mp hr
  by_cases hc :
      ((db.hooks.filter (hookRemovePred s f ids)).map (fun x => x.id)).contains u.id = true
  · rw [if_pos hc] at heq
    exfalso
    have hrem : r.status = str "removed" := by rw [← heq]
    rw [hact] at hrem
    exact absurd hrem (by decide)
  · rw [if_neg hc] at heq
    subst heq
    refine ⟨hu, ?_⟩
    by_contra hni
    apply hc
    apply (contains_eq_true_iff _ _).mpr
    apply List.mem_map_of_mem
    apply List.mem_filter.mpr
    refine ⟨hu, ?_⟩
    unfold hookRemovePred
    have hcni : ids.contains u.id = false := by
      by_contra hcc
      exact hni ((contains_eq_true_iff _ _).mp (by simpa using hcc))
    simp [hsrc, hfp, hact, hcni, hni]

/-- A pre-sweep row whose id is among the touched ids passes through the
sweep unchanged. -/
theorem sweep_touched_intact (now : Str) (db : Db) (s : Nat) (f : Str) (ids : List Nat)
    (hids : db.hooks.Pairwise (fun a b => a.id ≠ b.id))
    (r : HookRow) (hr : r ∈ db.hooks) (hin : r.id ∈ ids) :
    r ∈ (markHooksRemoved now db s f ids).2.hooks := by
  rw [markHooksRemoved_hooks]
  have hcf : ((db.hooks.filter (hookRemovePred s f ids)).map (fun x => x.id)).contains r.id =
      false := by
    by_contra hc
    have hc3 : ((db.hooks.filter (hookRemovePred s f ids)).map (fun x => x.id)).contains r.id =
        true := by
      cases hcv : ((db.hooks.filter (hookRemovePred s f ids)).map (fun x => x.id)).contains r.id
      · exact absurd hcv hc
      · rfl
    have hc2 : r.id ∈ (db.hooks.filter (hookRemovePred s f ids)).map (fun x => x.id) :=
      (contains_eq_true_iff _ _).mp hc3
    obtain ⟨u, hu, huid⟩ := List.mem_map.mp hc2
    have hu2 := List.mem_filter.mp hu
    have hur : u = r := mem_unique_by_id hids hu2.1 hr huid
    have hpred := hu2.2
    rw [hur] at hpred
    unfold hookRemovePred at hpred
    simp only [Bool.and_eq_true] at hpred
    have hf2 : ids.contains r.id = false := by simpa using hpred.2
    rw [(contains_eq_true_iff _ _).mpr hin] at hf2
    cases hf2
  have hfr : (fun h =>
      if ((db.hooks.filter (hookRemovePred s f ids)).map (fun x => x.id)).contains h.id then
        { h with status := str "removed", removed_at := some now }
      else h) r = r := by
    simp only
    refine if_neg ?_
    intro h
    rw [h] at hcf
    cases hcf
  exact hfr ▸ List.mem_map_of_mem _ hr

/-- A pre-sweep row satisfying the removal predicate is flipped to `removed`
with the sweep's timestamp. -/
theorem sweep_removes (now : Str) (db : Db) (s : Nat) (f : Str) (ids : List Nat)
    (r : HookRow) (hr : r ∈ db.hooks) (hpred : hookRemovePred s f ids r = true) :
    { r with status := str "removed", removed_at := some now } ∈
      (markHooksRemoved now db s f ids).2.hooks := by
  rw [markHooksRemoved_hooks]
  have hc : ((db.hooks.filter (hookRemovePred s f ids)).map (fun x => x.id)).contains r.id =
      true :=
    (contains_eq_true_iff _ _).mpr (List.mem_map_of_mem _ (List.mem_filter.mpr ⟨hr, hpred⟩))
  have hfr : (fun h =>
      if ((db.hooks.filter (hookRemovePred s f ids)).map (fun x => x.id)).contains h.id then
        { h with status := str "removed", removed_at := some now }
      else h) r = { r with status := str "removed", removed_at := some now } := by
    simp only
    exact if_pos hc
  exact hfr ▸ List.mem_map_of_mem _ hr

theorem sweep_pairwise_key (now : Str) (db : Db) (s : Nat) (f : Str) (ids : List Nat)
    (hkeys : db.hooks.Pairwise (fun a b => hookKey a ≠ hookKey b)) :
    (markHooksRemoved now db s f ids).2.hooks.Pairwise
      (fun a b => hookKey a ≠ hookKey b) := by
  rw [markHooksRemoved_hooks]
  apply pairwise_map_of_preserve hookKey _ _ hkeys
  intro h
  by_cases hc :
      ((db.hooks.filter (hookRemovePred s f ids)).map (fun x => x.id)).contains h.id = true
  · rw [if_pos hc]
    rfl
  · rw [if_neg hc]

/-- C1: after one indexing pass over a file (upsert every extracted hook,
then run the reconciliation sweep with the touched id set), a stored hook for
that (source, file) pair is `active` exactly when its natural key is one the
extraction produced; every extracted hook ends the pass with an `active` row;
and every previously-active hook whose id is not in the touched set is
transitioned to `removed` with the sweep's timestamp. -/
theorem c1_reconciliation_invariant (now : Str) (db : Db) (sourceId : Nat) (filePath : Str)
    (ds : List HookData) (hinv : hookInv db)
    (hds : ∀ d ∈ ds, d.source_id = sourceId ∧ d.file_path = filePath) :
    (∀ r ∈ (indexFilePass now db sourceId filePath ds).1.hooks,
        r.source_id = sourceId → r.file_path = filePath →
        (r.status = str "active" ↔ ∃ d ∈ ds, hookDataKey d = hookKey r)) ∧
    (∀ d ∈ ds, ∃ r ∈ (indexFilePass now db sourceId filePath ds).1.hooks,
        hookKey r = hookDataKey d ∧ r.status = str "active") ∧
    (∀ r ∈ db.hooks, r.source_id = sourceId → r.file_path = filePath →
        r.status = str "active" →
        r.id ∉ (indexFilePass now db sourceId filePath ds).2.1 →
        ∃ r2 ∈ (indexFilePass now db sourceId filePath ds).1.hooks,
          r2.id = r.id ∧ r2.status = str "removed" ∧ r2.removed_at = some now) := by
  have hieq : (indexFilePass now db sourceId filePath ds).1 =
      (markHooksRemoved now (upsertHooksList now db ds).db sourceId filePath
        (upsertHooksList now db ds).touched).2 := rfl
  have hteq : (indexFilePass now db sourceId filePath ds).2.1 =
      (upsertHooksList now db ds).touched := rfl
  have hfinv := fold_inv now db ds hinv
  refine ⟨?_, ?_, ?_⟩
  · intro r hr hsrc hfp
    rw [hieq] at hr
    constructor
    · intro hact
      obtain ⟨hrF, hrt⟩ :=
        sweep_active_touched now _ sourceId filePath _ hfinv.2.1 r hr hsrc hfp hact
      obtain ⟨d, hd, w, hw, hwid, hwk, hws⟩ := fold_touched_key now db ds r.id hrt
      have hwr : w = r := mem_unique_by_id hfinv.2.1 hw hrF hwid
      refine ⟨d, hd, ?_⟩
      rw [← hwr, hwk]
    · rintro ⟨d, hd, hkd⟩
      obtain ⟨i, hi, w, hw, hwid, hwk, hws⟩ := fold_data_touched now db ds d hd
      have hwin : w ∈ (markHooksRemoved now (upsertHooksList now db ds).db sourceId filePath
          (upsertHooksList now db ds).touched).2.hooks :=
        sweep_touched_intact now _ sourceId filePath _ hfinv.2.1 w hw (by rw [hwid]; exact hi)
      have hkeys2 := sweep_pairwise_key now (upsertHooksList now db ds).db sourceId filePath
        (upsertHooksList now db ds).touched hfinv.2.2
      have hrw : r = w := mem_unique_by_key hkeys2 hr hwin (hkd.symm.trans hwk.symm)
      rw [hrw]
      exact hws
  · intro d hd
    rw [hieq]
    obtain ⟨i, hi, w, hw, hwid, hwk, hws⟩ := fold_data_touched now db ds d hd
    exact ⟨w, sweep_touched_intact now _ sourceId filePath _ hfinv.2.1 w hw
      (by rw [hwid]; exact hi), hwk, hws⟩
  · intro r hr hsrc hfp hact hnt
    rw [hteq] at hnt
    rw [hieq]
    rcases fold_untouched now db ds hinv r hr with h | h
    · exact absurd h hnt
    · have hpred : hookRemovePred sourceId filePath (upsertHooksList now db ds).touched r =
          true := by
        unfold hookRemovePred
        have hcf : (upsertHooksList now db ds).touched.contains r.id = false := by
          cases hcv : (upsertHooksList now db ds).touched.contains r.id
          · rfl
          · exact absurd ((contains_eq_true_iff _ _).mp hcv) hnt
        simp [hsrc, hfp, hact, hcf, hnt]
      exact ⟨{ r with status := str "removed", removed_at := some now },
        sweep_removes now _ sourceId filePath _ r h hpred, rfl, rfl, rfl⟩

/-- The C1 theorem applied at the empty database and the singleton list of
the default hook record, both hypotheses discharged concretely. -/
theorem c1_reconciliation_invariant_witness :
    hookInv dbEmpty ∧
      (∀ d ∈ [hd0], ∃ r ∈ (indexFilePass (str "t0") dbEmpty 0 [] [hd0]).1.hooks,
        hookKey r = hookDataKey d ∧ r.status = str "active") :=
  ⟨⟨fun r hr => absurd hr (List.not_mem_nil r), List.Pairwise.nil, List.Pairwise.nil⟩,
   (c1_reconciliation_invariant (str "t0") dbEmpty 0 [] [hd0]
      ⟨fun r hr => absurd hr (List.not_mem_nil r), List.Pairwise.nil, List.Pairwise.nil⟩
      (fun d hd => by rw [List.mem_singleton.mp hd]; exact ⟨rfl, rfl⟩)).2.1⟩

theorem find?_append_none {α : Type} (l1 l2 : List α) (p : α → Bool)
    (h : l1.find? p = none) : (l1 ++ l2).find? p = l2.find? p := by
  induction l1 with
  | nil => rfl
  | cons a t ih =>
    cases hpa : p a
    · rw [List.cons_append, List.find?_cons_of_neg _ (by simp [hpa])]
      rw [List.find?_cons_of_neg _ (by simp [hpa])] at h
      exact ih h
    · rw [List.find?_cons_of_pos _ hpa] at h
      cases h

/-- After `upsertIndexedFile`, the per-file cache row for that (source, file)
pair exists and carries the written mtime and content hash. -/
theorem getIndexedFile_after_upsert (db : Db) (s : Nat) (f : Str) (m : Int) (ch : Str) :
    ∃ ix, getIndexedFile (upsertIndexedFile db s f m ch) s f = some ix ∧
      ix.mtime_ms = m ∧ ix.content_hash = some ch := by
  unfold upsertIndexedFile getIndexedFile
  by_cases hany : db.indexed_files.any (fun r =>
      decide (r.source_id = s) && decide (r.file_path = f)) = true
  · rw [if_pos hany]
    simp only
    rw [List.find?_map]
    have hpg : ((fun r : IndexedFileRow =>
        decide (r.source_id = s) && decide (r.file_path = f)) ∘ (fun r =>
          if r.source_id = s ∧ r.file_path = f then
            { r with mtime_ms := m, content_hash := some ch }
          else r)) = (fun r : IndexedFileRow =>
        decide (r.source_id = s) && decide (r.file_path = f)) := by
      funext r
      by_cases hr : r.source_id = s ∧ r.file_path = f
      · simp [hr]
      · simp [hr]
    rw [hpg]
    obtain ⟨r0, hr0m, hp0⟩ := List.any_eq_true.mp hany
    have hsome : (db.indexed_files.find? (fun r =>
        decide (r.source_id = s) && decide (r.file_path = f))).isSome :=
      List.find?_isSome.mpr ⟨r0, hr0m, hp0⟩
    obtain ⟨r1, hr1⟩ := Option.isSome_iff_exists.mp hsome
    have hp1 := List.find?_some hr1
    have hcond : r1.source_id = s ∧ r1.file_path = f := by
      simpa using hp1
    rw [hr1]
    refine ⟨{ r1 with mtime_ms := m, content_hash := some ch }, ?_, rfl, rfl⟩
    simp [hcond]
  · rw [if_neg hany]
    simp only
    have hnone : db.indexed_files.find? (fun r =>
        decide (r.source_id = s) && decide (r.file_path = f)) = none := by
      rw [List.find?_eq_none]
      intro x hx
      intro hpx
      exact hany (List.any_eq_true.mpr ⟨x, hx, hpx⟩)
    rw [find?_append_none _ _ _ hnone]
    refine ⟨{ source_id := s, file_path := f, mtime_ms := m, content_hash := some ch }, ?_,
      rfl, rfl⟩
    rw [List.find?_cons_of_pos _ (by simp)]

theorem processPhpFile_db (now : Str) (db : Db) (s : Nat) (f content : Str) (m : Int)
    (ch : Str) :
    (processPhpFile now db s f content m ch).2 =
      upsertIndexedFile
        (markHooksRemoved now (upsertHooksList now db (parsePhpFile content f s)).db s f
          (upsertHooksList now db (parsePhpFile content f s)).touched).2 s f m ch := rfl

theorem processJsFile_db (now : Str) (db : Db) (s : Nat) (f content : Str) (m : Int)
    (ch : Str) :
    (processJsFile now db s f content m ch).2 =
      upsertIndexedFile
        (markHooksRemoved now
          (upsertApisList now
            (upsertBlocksList now
              (upsertHooksList now db (parseJsFile content f s).hooks).db
              (parseJsFile content f s).blocks).1
            (parseJsFile content f s).apis).1 s f
          (upsertHooksList now db (parseJsFile content f s).hooks).touched).2 s f m ch := rfl

theorem indexPhpFileRun_eq_none (now : Str) (db : Db) (s : Nat) (f content : Str) (m : Int)
    (hix : getIndexedFile db s f = none) :
    indexPhpFileRun now db s f content m false =
      processPhpFile now db s f content m (fileContentHash content) := by
  unfold indexPhpFileRun
  rw [hix]
  rfl

theorem indexPhpFileRun_eq_skip (now : Str) (db : Db) (s : Nat) (f content : Str) (m : Int)
    (ix : IndexedFileRow) (hix : getIndexedFile db s f = some ix) (hm : ix.mtime_ms = m) :
    indexPhpFileRun now db s f content m false =
      ({ zeroStats with files_skipped := 1 }, db) := by
  unfold indexPhpFileRun
  rw [hix]
  exact if_pos hm

theorem indexPhpFileRun_eq_hashskip (now : Str) (db : Db) (s : Nat) (f content : Str)
    (m : Int) (ix : IndexedFileRow) (hix : getIndexedFile db s f = some ix)
    (hm : ¬ ix.mtime_ms = m) (hch : ix.content_hash = some (fileContentHash content)) :
    indexPhpFileRun now db s f content m false =
      ({ zeroStats with files_skipped := 1 },
       upsertIndexedFile db s f m (fileContentHash content)) := by
  unfold indexPhpFileRun
  rw [hix]
  exact (if_neg hm).trans (if_pos hch)

theorem indexPhpFileRun_eq_process (now : Str) (db : Db) (s : Nat) (f content : Str)
    (m : Int) (ix : IndexedFileRow) (hix : getIndexedFile db s f = some ix)
    (hm : ¬ ix.mtime_ms = m) (hch : ¬ ix.content_hash = some (fileContentHash content)) :
    indexPhpFileRun now db s f content m false =
      processPhpFile now db s f content m (fileContentHash content) := by
  unfold indexPhpFileRun
  rw [hix]
  exact (if_neg hm).trans (if_neg hch)

theorem indexJsFileRun_eq_none (now : Str) (db : Db) (s : Nat) (f content : Str) (m : Int)
    (hix : getIndexedFile db s f = none) :
    indexJsFileRun now db s f content m false =
      processJsFile now db s f content m (fileContentHash content) := by
  unfold indexJsFileRun
  rw [hix]
  rfl

theorem indexJsFileRun_eq_skip (now : Str) (db : Db) (s : Nat) (f content : Str) (m : Int)
    (ix : IndexedFileRow) (hix : getIndexedFile db s f = some ix) (hm : ix.mtime_ms = m) :
    indexJsFileRun now db s f content m false =
      ({ zeroStats with files_skipped := 1 }, db) := by
  unfold indexJsFileRun
  rw [hix]
  exact if_pos hm

theorem indexJsFileRun_eq_hashskip (now : Str) (db : Db) (s : Nat) (f content : Str)
    (m : Int) (ix : IndexedFileRow) (hix : getIndexedFile db s f = some ix)
    (hm : ¬ ix.mtime_ms = m) (hch : ix.content_hash = some (fileContentHash content)) :
    indexJsFileRun now db s f content m false =
      ({ zeroStats with files_skipped := 1 },
       upsertIndexedFile db s f m (fileContentHash content)) := by
  unfold indexJsFileRun
  rw [hix]
  exact (if_neg hm).trans (if_pos hch)

theorem indexJsFileRun_eq_process (now : Str) (db : Db) (s : Nat) (f content : Str)
    (m : Int) (ix : IndexedFileRow) (hix : getIndexedFile db s f = some ix)
    (hm : ¬ ix.mtime_ms = m) (hch : ¬ ix.content_hash = some (fileContentHash content)) :
    indexJsFileRun now db s f content m false =
      processJsFile now db s f content m (fileContentHash content) := by
  unfold indexJsFileRun
  rw [hix]
  exact (if_neg hm).trans (if_neg hch)

/-- After one run of the PHP file loop, the cache row for the file records
the run's mtime. -/
theorem indexPhpFileRun_indexed (now : Str) (db : Db) (s : Nat) (f content : Str) (m : Int) :
    ∃ ix, getIndexedFile (indexPhpFileRun now db s f content m false).2 s f = some ix ∧
      ix.mtime_ms = m := by
  cases hix : getIndexedFile db s f with
  | none =>
    rw [indexPhpFileRun_eq_none now db s f content m hix, processPhpFile_db]
    obtain ⟨ix, h1, h2, h3⟩ := getIndexedFile_after_upsert _ s f m (fileContentHash content)
    exact ⟨ix, h1, h2⟩
  | some ix =>
    by_cases hm : ix.mtime_ms = m
    · rw [indexPhpFileRun_eq_skip now db s f content m ix hix hm]
      exact ⟨ix, hix, hm⟩
    · by_cases hch : ix.content_hash = some (fileContentHash content)
      · rw [indexPhpFileRun_eq_hashskip now db s f content m ix hix hm hch]
        obtain ⟨ix2, h1, h2, h3⟩ := getIndexedFile_after_upsert db s f m (fileContentHash content)
        exact ⟨ix2, h1, h2⟩
      · rw [indexPhpFileRun_eq_process now db s f content m ix hix hm hch, processPhpFile_db]
        obtain ⟨ix2, h1, h2, h3⟩ := getIndexedFile_after_upsert _ s f m (fileContentHash content)
        exact ⟨ix2, h1, h2⟩

/-- After one run of the JS file loop, the cache row for the file records the
run's mtime. -/
theorem indexJsFileRun_indexed (now : Str) (db : Db) (s : Nat) (f content : Str) (m : Int) :
    ∃ ix, getIndexedFile (indexJsFileRun now db s f content m false).2 s f = some ix ∧
      ix.mtime_ms = m := by
  cases hix : getIndexedFile db s f with
  | none =>
    rw [indexJsFileRun_eq_none now db s f content m hix, processJsFile_db]
    obtain ⟨ix, h1, h2, h3⟩ := getIndexedFile_after_upsert _ s f m (fileContentHash content)
    exact ⟨ix, h1, h2⟩
  | some ix =>
    by_cases hm : ix.mtime_ms = m
    · rw [indexJsFileRun_eq_skip now db s f content m ix hix hm]
      exact ⟨ix, hix, hm⟩
    · by_cases hch : ix.content_hash = some (fileContentHash content)
      · rw [indexJsFileRun_eq_hashskip now db s f content m ix hix hm hch]
        obtain ⟨ix2, h1, h2, h3⟩ := getIndexedFile_after_upsert db s f m (fileContentHash content)
        exact ⟨ix2, h1, h2⟩
      · rw [indexJsFileRun_eq_process now db s f content m ix hix hm hch, processJsFile_db]
        obtain ⟨ix2, h1, h2, h3⟩ := getIndexedFile_after_upsert _ s f m (fileContentHash content)
        exact ⟨ix2, h1, h2⟩

/-- C5: the content hash is computed from name, type, params, docblock (and
the hookLine slot, which hook records never populate) only — never from
timestamps; an upsert that finds the same natural key with the same stored
hash is a `skipped` action whose only row change is the `last_seen_at` bump
and the forced `active` status, with no insert (the id counter stands); and a
second run of the file loop over unchanged content is a pure skip: one
skipped file, zero inserted, zero updated, database identical — so every
previously active record remains active. -/
theorem c5_content_hash_idempotence :
    (∀ d1 d2 : HookData, d1.name = d2.name → d1.type = d2.type → d1.params = d2.params →
      d1.docblock = d2.docblock →
      hookRecordHash d1.name d1.type d1.params d1.docblock =
        hookRecordHash d2.name d2.type d2.params d2.docblock) ∧
    (∀ (now : Str) (db : Db) (d : HookData) (e : HookRow),
      findHook db.hooks d = some e → e.content_hash = some d.content_hash →
      (upsertHook now db d).1.action = str "skipped" ∧
      (upsertHook now db d).2.hooks =
        db.hooks.map (fun h => if h.id = e.id then skipBump now h else h) ∧
      (upsertHook now db d).2.next_hook_id = db.next_hook_id ∧
      (∀ h : HookRow,
        skipBump now h = { h with last_seen_at := now, status := str "active" })) ∧
    (∀ (now1 now2 : Str) (db : Db) (s : Nat) (f content : Str) (m : Int),
      indexPhpFileRun now2 (indexPhpFileRun now1 db s f content m false).2 s f content m
          false =
        ({ zeroStats with files_skipped := 1 },
         (indexPhpFileRun now1 db s f content m false).2)) ∧
    (∀ (now1 now2 : Str) (db : Db) (s : Nat) (f content : Str) (m : Int),
      indexJsFileRun now2 (indexJsFileRun now1 db s f content m false).2 s f content m
          false =
        ({ zeroStats with files_skipped := 1 },
         (indexJsFileRun now1 db s f content m false).2)) := by
  refine ⟨?_, ?_, ?_, ?_⟩
  · intro d1 d2 hn ht hp hd
    rw [hn, ht, hp, hd]
  · intro now db d e hfind hhash
    refine ⟨?_, ?_, ?_, fun h => rfl⟩ <;> simp [upsertHook, hfind, hhash]
  · intro now1 now2 db s f content m
    obtain ⟨ix, hix, hm⟩ := indexPhpFileRun_indexed now1 db s f content m
    exact indexPhpFileRun_eq_skip now2 _ s f content m ix hix hm
  · intro now1 now2 db s f content m
    obtain ⟨ix, hix, hm⟩ := indexJsFileRun_indexed now1 db s f content m
    exact indexJsFileRun_eq_skip now2 _ s f content m ix hix hm

/-- The skip clause of the C5 theorem instantiated at the one-row database
and its own record, the find and hash-match hypotheses checked by
evaluation. -/
theorem c5_content_hash_idempotence_witness :
    findHook dbOne.hooks hd0 = some (newHookRow (str "t0") 1 hd0) ∧
      (upsertHook (str "t1") dbOne hd0).1.action = str "skipped" :=
  ⟨by decide,
   (c5_content_hash_idempotence.2.1 (str "t1") dbOne hd0 (newHookRow (str "t0") 1 hd0)
      (by decide) (by decide)).1⟩

/-! ### C6: lifecycle status exists for hooks only -/

theorem upsertIndexedFile_blocks (db : Db) (s : Nat) (f : Str) (m : Int) (ch : Str) :
    (upsertIndexedFile db s f m ch).blocks = db.blocks := by
  unfold upsertIndexedFile
  split <;> rfl

theorem upsertIndexedFile_apis (db : Db) (s : Nat) (f : Str) (m : Int) (ch : Str) :
    (upsertIndexedFile db s f m ch).apis = db.apis := by
  unfold upsertIndexedFile
  split <;> rfl

theorem upsertIndexedFile_hooks (db : Db) (s : Nat) (f : Str) (m : Int) (ch : Str) :
    (upsertIndexedFile db s f m ch).hooks = db.hooks := by
  unfold upsertIndexedFile
  split <;> rfl

def hd1 : HookData :=
  { hd0 with source_id := 1, file_path := str "f.js", name := str "h" }

def c6block : BlockRow :=
  { id := 1, source_id := 1, file_path := str "f.js", line_number := 1,
    block_name := str "b", block_title := none, block_category := none,
    block_attributes := none, supports := none, code_context := none,
    content_hash := some [], first_seen_at := str "t0", last_seen_at := str "t0" }

/-- A database holding, for source 1 and file `f.js`, one active hook row and
one block-registration row. -/
def c6db : Db :=
  { dbEmpty with
      hooks := [newHookRow (str "t0") 1 hd1]
      next_hook_id := 2
      blocks := [c6block]
      next_block_id := 2 }

/-- Counterexample to C6 as frozen: indexing the now-empty file `f.js` (no
declarations of any kind) removes the hook — its row flips to `removed` with
a timestamp — but the block-registration row survives entirely unchanged:
the blocks table has no status or removed_at column and no removal sweep, so
removal detection does not apply to registration records. -/
theorem c6_counterexample :
    (indexJsFileRun (str "t1") c6db 1 (str "f.js") [] 0 false).2.blocks = [c6block] ∧
    (indexJsFileRun (str "t1") c6db 1 (str "f.js") [] 0 false).2.apis = [] ∧
    (indexJsFileRun (str "t1") c6db 1 (str "f.js") [] 0 false).2.hooks.map
        (fun h => (h.id, h.status, h.removed_at)) =
      [(1, str "removed", some (str "t1"))] := by
  set_option maxRecDepth 100000 in decide

/-- C6 (amended): only hook rows carry the `active`/`removed` lifecycle; the
reconciliation sweep reads and writes the hooks table alone, flipping an
untouched previously-active hook to `removed` with a timestamp, while block
registrations and API usages — whose rows carry only first/last-seen
timestamps — pass through a full file pass untouched even when the file no
longer contains them. -/
theorem c6_lifecycle_status (now : Str) (db : Db) (s : Nat) (f : Str) (ids : List Nat)
    (m : Int) (ch : Str) :
    ((markHooksRemoved now db s f ids).2.blocks = db.blocks ∧
     (markHooksRemoved now db s f ids).2.apis = db.apis) ∧
    (∀ r ∈ db.hooks, hookRemovePred s f ids r = true →
      { r with status := str "removed", removed_at := some now } ∈
        (markHooksRemoved now db s f ids).2.hooks) ∧
    ((processJsFile now db s f [] m ch).2.blocks = db.blocks ∧
     (processJsFile now db s f [] m ch).2.apis = db.apis ∧
     (∀ r ∈ db.hooks, r.source_id = s → r.file_path = f → r.status = str "active" →
        { r with status := str "removed", removed_at := some now } ∈
          (processJsFile now db s f [] m ch).2.hooks)) := by
  have hdb : (processJsFile now db s f [] m ch).2 =
      upsertIndexedFile (markHooksRemoved now db s f []).2 s f m ch := rfl
  refine ⟨⟨rfl, rfl⟩, ?_, ?_, ?_, ?_⟩
  · intro r hr hpred
    exact sweep_removes now db s f ids r hr hpred
  · rw [hdb, upsertIndexedFile_blocks]
    rfl
  · rw [hdb, upsertIndexedFile_apis]
    rfl
  · intro r hr hsrc hfp hact
    rw [hdb, upsertIndexedFile_hooks]
    apply sweep_removes now db s f [] r hr
    unfold hookRemovePred
    simp [hsrc, hfp, hact]

/-- The amended C6 theorem instantiated at the two-row database: the sweep of
the emptied file flips its active hook, the membership and field hypotheses
checked by evaluation. -/
theorem c6_lifecycle_status_witness :
    newHookRow (str "t0") 1 hd1 ∈ c6db.hooks ∧
      { newHookRow (str "t0") 1 hd1 with
          status := str "removed"
          removed_at := some (str "t1") } ∈
        (processJsFile (str "t1") c6db 1 (str "f.js") [] 0 []).2.hooks :=
  ⟨by decide,
   (c6_lifecycle_status (str "t1") c6db 1 (str "f.js") [] 0 []).2.2.2.2
      (newHookRow (str "t0") 1 hd1) (by decide) (by decide) (by decide) (by decide)⟩

/-! ### C2: the validateHook trichotomy -/

theorem mem_insertByRank (x y : SimilarRow) (l : List SimilarRow) :
    y ∈ insertByRank x l ↔ y = x ∨ y ∈ l := by
  induction l with
  | nil => simp [insertByRank]
  | cons a t ih =>
    unfold insertByRank
    by_cases hc : x.rank ≤ a.rank
    · rw [if_pos hc]
      simp [List.mem_cons]
    · rw [if_neg hc]
      simp only [List.mem_cons, ih]
      tauto

theorem mem_sortByRank (l : List SimilarRow) (y : SimilarRow) :
    y ∈ sortByRank l ↔ y ∈ l := by
  unfold sortByRank
  induction l with
  | nil => simp
  | cons a t ih =>
    simp only [List.foldr_cons, mem_insertByRank, ih, List.mem_cons]

theorem joinSource_of_fk (db : Db) (h : HookRow) (s0 : SourceRow) (hs0 : s0 ∈ db.sources)
    (hsid : s0.id = h.source_id) :
    ∃ j, joinSource db.sources h = some j ∧ j.hook = h := by
  unfold joinSource
  have hsome : (db.sources.find? (fun s => decide (s.id = h.source_id))).isSome :=
    List.find?_isSome.mpr ⟨s0, hs0, by simpa using hsid⟩
  obtain ⟨s1, hs1⟩ := Option.isSome_iff_exists.mp hsome
  rw [hs1]
  exact ⟨_, rfl, rfl⟩

theorem joinSource_hook (sources : List SourceRow) (h : HookRow) (j : JoinedHook)
    (hj : joinSource sources h = some j) : j.hook = h := by
  unfold joinSource at hj
  obtain ⟨s1, hs1, hEq⟩ := Option.map_eq_some'.mp hj
  rw [← hEq]

/-- The exact-match list of `validateHook` for a status `st` is non-empty
exactly when some hook row has the candidate name and that status, provided
every hook's source id resolves (the schema's foreign key). -/
theorem exact_ne_nil_iff (db : Db) (hookName st : Str)
    (hfk : ∀ h ∈ db.hooks, ∃ s ∈ db.sources, s.id = h.source_id) :
    db.hooks.filterMap (fun h =>
        if h.name = hookName ∧ h.status = st then joinSource db.sources h else none) ≠ [] ↔
      ∃ h ∈ db.hooks, h.name = hookName ∧ h.status = st := by
  constructor
  · intro hne
    obtain ⟨j, hj⟩ := List.exists_mem_of_ne_nil _ hne
    obtain ⟨h, hh, hfh⟩ := List.mem_filterMap.mp hj
    by_cases hc : h.name = hookName ∧ h.status = st
    · exact ⟨h, hh, hc⟩
    · rw [if_neg hc] at hfh
      cases hfh
  · rintro ⟨h, hh, hc⟩
    obtain ⟨s0, hs0, hsid⟩ := hfk h hh
    obtain ⟨j, hj, hjh⟩ := joinSource_of_fk db h s0 hs0 hsid
    intro hnil
    have hmem : j ∈ db.hooks.filterMap (fun h =>
        if h.name = hookName ∧ h.status = st then joinSource db.sources h else none) :=
      List.mem_filterMap.mpr ⟨h, hh, by rw [if_pos hc, hj]⟩
    rw [hnil] at hmem
    cases hmem

/-- C2: `validateHook` always lands in exactly one of the three statuses and
never throws (the model is a total function: the fts probe's possible throw
is the `ftsThrows` flag, caught into an empty suggestion list).  With the
schema's foreign key, VALID holds exactly when an active row bears the name,
and then every matching location is in the result; REMOVED holds exactly
when no active row but some removed row bears it, and then the result's
records are exactly the removed rows with that name, each carried whole so
the removal timestamp is returned with them; suggestions are at most 5,
only ever drawn from active rows, and empty when the fuzzy query throws. -/
theorem c2_validate_trichotomy (db : Db) (hookName : Str)
    (ftsMatch : List Str → HookFtsRow → Bool) (rank : HookFtsRow → Int) (ftsThrows : Bool)
    (hfk : ∀ h ∈ db.hooks, ∃ s ∈ db.sources, s.id = h.source_id) :
    ((validateHook db hookName ftsMatch rank ftsThrows).status = str "VALID" ∨
     (validateHook db hookName ftsMatch rank ftsThrows).status = str "REMOVED" ∨
     (validateHook db hookName ftsMatch rank ftsThrows).status = str "NOT_FOUND") ∧
    ((validateHook db hookName ftsMatch rank ftsThrows).status = str "VALID" ↔
      ∃ h ∈ db.hooks, h.name = hookName ∧ h.status = str "active") ∧
    ((validateHook db hookName ftsMatch rank ftsThrows).status = str "VALID" →
      ∀ h ∈ db.hooks, h.name = hookName → h.status = str "active" →
        ∃ j ∈ (validateHook db hookName ftsMatch rank ftsThrows).hooks, j.hook = h) ∧
    ((validateHook db hookName ftsMatch rank ftsThrows).status = str "REMOVED" ↔
      (¬∃ h ∈ db.hooks, h.name = hookName ∧ h.status = str "active") ∧
      ∃ h ∈ db.hooks, h.name = hookName ∧ h.status = str "removed") ∧
    ((validateHook db hookName ftsMatch rank ftsThrows).status = str "REMOVED" →
      (∀ h ∈ db.hooks, h.name = hookName → h.status = str "removed" →
        ∃ j ∈ (validateHook db hookName ftsMatch rank ftsThrows).hooks, j.hook = h) ∧
      (∀ j ∈ (validateHook db hookName ftsMatch rank ftsThrows).hooks,
        j.hook ∈ db.hooks ∧ j.hook.name = hookName ∧ j.hook.status = str "removed")) ∧
    ((validateHook db hookName ftsMatch rank ftsThrows).similar.length ≤ 5) ∧
    (ftsThrows = true → (validateHook db hookName ftsMatch rank ftsThrows).similar = []) ∧
    (∀ sr ∈ (validateHook db hookName ftsMatch rank ftsThrows).similar,
      ∃ h ∈ db.hooks, h.status = str "active" ∧ sr.name = h.name) := by
  have hVA := exact_ne_nil_iff db hookName (str "active") hfk
  have hVR := exact_ne_nil_iff db hookName (str "removed") hfk
  by_cases hex : db.hooks.filterMap (fun h =>
      if h.name = hookName ∧ h.status = str "active" then joinSource db.sources h
      else none) ≠ []
  · have hval : validateHook db hookName ftsMatch rank ftsThrows =
        { status := str "VALID",
          hooks := db.hooks.filterMap (fun h =>
            if h.name = hookName ∧ h.status = str "active" then joinSource db.sources h
            else none),
          similar := [] } := by
      simp only [validateHook]
      rw [if_pos hex]
    rw [hval]
    refine ⟨Or.inl rfl, ⟨fun _ => hVA.mp hex, fun _ => rfl⟩, ?_, ?_, ?_, by simp,
      fun _ => rfl, fun sr hsr => absurd hsr (List.not_mem_nil sr)⟩
    · intro _ h hh hn hs
      obtain ⟨s0, hs0, hsid⟩ := hfk h hh
      obtain ⟨j, hj, hjh⟩ := joinSource_of_fk db h s0 hs0 hsid
      exact ⟨j, List.mem_filterMap.mpr ⟨h, hh, by rw [if_pos ⟨hn, hs⟩, hj]⟩, hjh⟩
    · constructor
      · intro hst
        exact absurd hst (show ¬(str "VALID" = str "REMOVED") from by decide)
      · rintro ⟨hna, _⟩
        exact absurd (hVA.mp hex) hna
    · intro hst
      exact absurd hst (show ¬(str "VALID" = str "REMOVED") from by decide)
  · by_cases hrem : db.hooks.filterMap (fun h =>
        if h.name = hookName ∧ h.status = str "removed" then joinSource db.sources h
        else none) ≠ []
    · have hval : validateHook db hookName ftsMatch rank ftsThrows =
          { status := str "REMOVED",
            hooks := db.hooks.filterMap (fun h =>
              if h.name = hookName ∧ h.status = str "removed" then joinSource db.sources h
              else none),
            similar := [] } := by
        simp only [validateHook]
        rw [if_neg hex, if_pos hrem]
      rw [hval]
      refine ⟨Or.inr (Or.inl rfl), ?_, ?_, ?_, ?_, by simp, fun _ => rfl,
        fun sr hsr => absurd hsr (List.not_mem_nil sr)⟩
      · constructor
        · intro hst
          exact absurd hst (show ¬(str "REMOVED" = str "VALID") from by decide)
        · intro he
          exact absurd (hVA.mpr he) hex
      · intro hst
        exact absurd hst (show ¬(str "REMOVED" = str "VALID") from by decide)
      · exact ⟨fun _ => ⟨fun he => hex (hVA.mpr he), hVR.mp hrem⟩, fun _ => rfl⟩
      · intro _
        constructor
        · intro h hh hn hs
          obtain ⟨s0, hs0, hsid⟩ := hfk h hh
          obtain ⟨j, hj, hjh⟩ := joinSource_of_fk db h s0 hs0 hsid
          exact ⟨j, List.mem_filterMap.mpr ⟨h, hh, by rw [if_pos ⟨hn, hs⟩, hj]⟩, hjh⟩
        · intro j hj
          obtain ⟨h, hh, heq⟩ := List.mem_filterMap.mp hj
          by_cases hcond : h.name = hookName ∧ h.status = str "removed"
          · rw [if_pos hcond] at heq
            have hjh := joinSource_hook db.sources h j heq
            rw [hjh]
            exact ⟨hh, hcond.1, hcond.2⟩
          · rw [if_neg hcond] at heq
            cases heq
    · have hval : validateHook db hookName ftsMatch rank ftsThrows =
          { status := str "NOT_FOUND", hooks := [],
            similar :=
              if validateTokens hookName = [] then []
              else if ftsThrows then []
              else
                (sortByRank (db.hooks_fts.filterMap (fun fr =>
                  if ftsMatch (validateTokens hookName) fr then
                    match db.hooks.find? (fun h => decide (h.id = fr.rowid)) with
                    | some h =>
                      if h.status = str "active" then
                        (db.sources.find? (fun s => decide (s.id = h.source_id))).map
                          (fun s =>
                            ({ name := h.name, type := h.type, source_name := s.name,
                               rank := rank fr } : SimilarRow))
                      else none
                    | none => none
                  else none))).take 5 } := by
        simp only [validateHook]
        rw [if_neg hex, if_neg hrem]
      rw [hval]
      refine ⟨Or.inr (Or.inr rfl), ?_, ?_, ?_, ?_, ?_, ?_, ?_⟩
      · constructor
        · intro hst
          exact absurd hst (show ¬(str "NOT_FOUND" = str "VALID") from by decide)
        · intro he
          exact absurd (hVA.mpr he) hex
      · intro hst
        exact absurd hst (show ¬(str "NOT_FOUND" = str "VALID") from by decide)
      · constructor
        · intro hst
          exact absurd hst (show ¬(str "NOT_FOUND" = str "REMOVED") from by decide)
        · rintro ⟨_, hr⟩
          exact absurd (hVR.mpr hr) hrem
      · intro hst
        exact absurd hst (show ¬(str "NOT_FOUND" = str "REMOVED") from by decide)
      · split
        · simp
        · split
          · simp
          · simp only
            exact List.length_take_le 5 _
      · intro hth
        by_cases hterms : validateTokens hookName = []
        · rw [if_pos hterms]
        · rw [if_neg hterms, if_pos hth]
      · intro sr hsr
        by_cases hterms : validateTokens hookName = []
        · rw [if_pos hterms] at hsr
          cases hsr
        · rw [if_neg hterms] at hsr
          by_cases hth : ftsThrows = true
          · rw [if_pos hth] at hsr
            cases hsr
          · rw [if_neg hth] at hsr
            have hsr2 := (mem_sortByRank _ sr).mp (List.mem_of_mem_take hsr)
            obtain ⟨fr, hfr, hg⟩ := List.mem_filterMap.mp hsr2
            split at hg
            · split at hg
              · next h hfind =>
                split at hg
                · next hact =>
                  obtain ⟨s1, hfs, hsr3⟩ := Option.map_eq_some'.mp hg
                  exact ⟨h, List.mem_of_find?_eq_some hfind, hact, by rw [← hsr3]⟩
                · cases hg
              · cases hg
            · cases hg

/-- The C2 theorem instantiated at the empty database (its foreign-key
hypothesis vacuous) with a trivial match predicate and rank. -/
theorem c2_validate_trichotomy_witness :
    (∀ h ∈ dbEmpty.hooks, ∃ s ∈ dbEmpty.sources, s.id = h.source_id) ∧
      ((validateHook dbEmpty (str "x") (fun _ _ => false) (fun _ => 0) false).status =
          str "VALID" ∨
       (validateHook dbEmpty (str "x") (fun _ _ => false) (fun _ => 0) false).status =
          str "REMOVED" ∨
       (validateHook dbEmpty (str "x") (fun _ _ => false) (fun _ => 0) false).status =
          str "NOT_FOUND") :=
  ⟨fun h hh => absurd hh (List.not_mem_nil h),
   (c2_validate_trichotomy dbEmpty (str "x") (fun _ _ => false) (fun _ => 0) false
      (fun h hh => absurd hh (List.not_mem_nil h))).1⟩

/-! ### C7: the balanced-span scanners and drop-and-continue -/

theorem jsTplBraceLoop_ge (content : Str) :
    ∀ fuel i depth, i ≤ jsTplBraceLoop content fuel i depth := by
  intro fuel
  induction fuel with
  | zero => intro i depth; exact le_refl i
  | succ fuel ih =>
    intro i depth
    rw [jsTplBraceLoop]
    split
    · have hgen : ∀ d2 : Nat,
          i ≤ if d2 > 0 then jsTplBraceLoop content fuel (i + 1) d2 else i := by
        intro d2
        split
        · have := ih (i + 1) d2
          omega
        · exact le_refl i
      exact hgen _
    · exact le_refl i

theorem skipJsStringLoop_ge (content : Str) (quote : Char) :
    ∀ fuel i, i ≤ skipJsStringLoop content quote fuel i := by
  intro fuel
  induction fuel with
  | zero => intro i; exact le_refl i
  | succ fuel ih =>
    intro i
    rw [skipJsStringLoop]
    split
    · split
      · have := ih (i + 2)
        omega
      · have hgen : ∀ i2 : Nat, i ≤ i2 →
            i ≤ (if charIs content i2 quote = true then i2
                 else skipJsStringLoop content quote fuel (i2 + 1)) := by
          intro i2 hi2
          split
          · exact hi2
          · have := ih (i2 + 1)
            omega
        split
        · exact hgen _ (le_trans (by omega)
            (jsTplBraceLoop_ge content (content.length - (i + 2)) (i + 2) 1))
        · exact hgen i (le_refl i)
    · exact le_refl i

theorem skipJsString_ge (content : Str) (i : Nat) : i + 1 ≤ skipJsString content i := by
  unfold skipJsString
  exact skipJsStringLoop_ge content (content.getD i ' ') content.length (i + 1)

theorem blockCommentSkip_ge (content : Str) (maxI : Nat) :
    ∀ fuel i, i ≤ blockCommentSkip content maxI fuel i := by
  intro fuel
  induction fuel with
  | zero => intro i; exact le_refl i
  | succ fuel ih =>
    intro i
    rw [blockCommentSkip]
    split
    · have := ih (i + 1)
      omega
    · exact le_refl i

theorem lineCommentSkip_ge (content : Str) (maxI i : Nat) :
    i ≤ lineCommentSkip content maxI i := by
  unfold lineCommentSkip
  omega

/-- Invariant of the PHP balanced-span loop: the index never moves backwards,
and the loop reports depth 0 only from a closing parenthesis inside the
bounded window. -/
theorem extractArgumentsLoop_spec (content : Str) (maxI : Nat) :
    ∀ fuel i depth, 0 < depth →
      i ≤ (extractArgumentsLoop content maxI fuel i depth).1 ∧
      ((extractArgumentsLoop content maxI fuel i depth).2 = 0 →
        (extractArgumentsLoop content maxI fuel i depth).1 < maxI ∧
        charIs content (extractArgumentsLoop content maxI fuel i depth).1 ')' = true) := by
  intro fuel
  induction fuel with
  | zero =>
    intro i depth hd
    exact ⟨le_refl i, fun h0 => absurd (show depth = 0 from h0) (by omega)⟩
  | succ fuel ih =>
    intro i depth hd
    rw [extractArgumentsLoop]
    by_cases hc : i < maxI ∧ depth > 0
    · rw [if_pos hc]
      have hstep : ∀ st : Nat × Nat, i ≤ st.1 →
          (st.2 = 0 → st.1 < maxI ∧ charIs content st.1 ')' = true) →
          i ≤ (if st.2 > 0 then extractArgumentsLoop content maxI fuel (st.1 + 1) st.2
              else st).1 ∧
          ((if st.2 > 0 then extractArgumentsLoop content maxI fuel (st.1 + 1) st.2
              else st).2 = 0 →
            (if st.2 > 0 then extractArgumentsLoop content maxI fuel (st.1 + 1) st.2
              else st).1 < maxI ∧
            charIs content (if st.2 > 0 then
                extractArgumentsLoop content maxI fuel (st.1 + 1) st.2
              else st).1 ')' = true) := by
        intro st hst hzero
        split
        · next hpos =>
          have hr := ih (st.1 + 1) st.2 hpos
          have hr1 := hr.1
          exact ⟨by omega, hr.2⟩
        · exact ⟨hst, hzero⟩
      refine hstep (if charIs content i '(' then (i, depth + 1)
        else if charIs content i ')' then (i, depth - 1)
        else if charIs content i sqc || charIs content i dqc then (skipString content i, depth)
        else (i, depth)) ?_ ?_
      · split
        · exact le_refl i
        · split
          · exact le_refl i
          · split
            · have := skipString_ge content i
              exact le_of_lt (by omega)
            · exact le_refl i
      · split
        · intro h0
          exact absurd (show depth + 1 = 0 from h0) (by omega)
        · split
          · next h2 =>
            intro _
            exact ⟨hc.1, h2⟩
          · split
            · intro h0
              exact absurd (show depth = 0 from h0) (by omega)
            · intro h0
              exact absurd (show depth = 0 from h0) (by omega)
    · rw [if_neg hc]
      exact ⟨le_refl i, fun h0 => absurd (show depth = 0 from h0) (by omega)⟩

/-- Invariant of the JS balanced-span loop, as for the PHP one. -/
theorem extractJsArgumentsLoop_spec (content : Str) (maxI : Nat) :
    ∀ fuel i depth, 0 < depth →
      i ≤ (extractJsArgumentsLoop content maxI fuel i depth).1 ∧
      ((extractJsArgumentsLoop content maxI fuel i depth).2 = 0 →
        (extractJsArgumentsLoop content maxI fuel i depth).1 < maxI ∧
        charIs content (extractJsArgumentsLoop content maxI fuel i depth).1 ')' = true) := by
  intro fuel
  induction fuel with
  | zero =>
    intro i depth hd
    exact ⟨le_refl i, fun h0 => absurd (show depth = 0 from h0) (by omega)⟩
  | succ fuel ih =>
    intro i depth hd
    rw [extractJsArgumentsLoop]
    by_cases hc : i < maxI ∧ depth > 0
    · rw [if_pos hc]
      have hstep : ∀ st : Nat × Nat, i ≤ st.1 →
          (st.2 = 0 → st.1 < maxI ∧ charIs content st.1 ')' = true) →
          i ≤ (if st.2 > 0 then extractJsArgumentsLoop content maxI fuel (st.1 + 1) st.2
              else st).1 ∧
          ((if st.2 > 0 then extractJsArgumentsLoop content maxI fuel (st.1 + 1) st.2
              else st).2 = 0 →
            (if st.2 > 0 then extractJsArgumentsLoop content maxI fuel (st.1 + 1) st.2
              else st).1 < maxI ∧
            charIs content (if st.2 > 0 then
                extractJsArgumentsLoop content maxI fuel (st.1 + 1) st.2
              else st).1 ')' = true) := by
        intro st hst hzero
        split
        · next hpos =>
          have hr := ih (st.1 + 1) st.2 hpos
          have hr1 := hr.1
          exact ⟨by omega, hr.2⟩
        · exact ⟨hst, hzero⟩
      refine hstep (if charIs content i '(' then (i, depth + 1)
        else if charIs content i ')' then (i, depth - 1)
        else if charIs content i sqc || charIs content i dqc || charIs content i btc then
          (skipJsString content i, depth)
        else if charIs content i '/' ∧ i + 1 < maxI ∧ charIs content (i + 1) '/' then
          (lineCommentSkip content maxI i, depth)
        else if charIs content i '/' ∧ i + 1 < maxI ∧ charIs content (i + 1) '*' then
          (blockCommentSkip content maxI (maxI - (i + 2)) (i + 2) + 1, depth)
        else (i, depth)) ?_ ?_
      · split
        · exact le_refl i
        · split
          · exact le_refl i
          · split
            · have := skipJsString_ge content i
              exact le_of_lt (by omega)
            · split
              · exact lineCommentSkip_ge content maxI i
              · split
                · have := blockCommentSkip_ge content maxI (maxI - (i + 2)) (i + 2)
                  exact le_of_lt (by omega)
                · exact le_refl i
      · split
        · intro h0
          exact absurd (show depth + 1 = 0 from h0) (by omega)
        · split
          · next h2 =>
            intro _
            exact ⟨hc.1, h2⟩
          · split
            · intro h0
              exact absurd (show depth = 0 from h0) (by omega)
            · split
              · intro h0
                exact absurd (show depth = 0 from h0) (by omega)
              · split
                · intro h0
                  exact absurd (show depth = 0 from h0) (by omega)
                · intro h0
                  exact absurd (show depth = 0 from h0) (by omega)
    · rw [if_neg hc]
      exact ⟨le_refl i, fun h0 => absurd (show depth = 0 from h0) (by omega)⟩

/-- A span returned by `extractArguments` lies inside the bounded window: at
most 2000 characters, a literal slice of the content starting at `start`, and
ended by a closing parenthesis. -/
theorem extractArguments_some (content : Str) (start : Nat) (s : Str)
    (h : extractArguments content start = some s) :
    s.length ≤ 2000 ∧ start + s.length ≤ content.length ∧
    s = sliceStr content start (start + s.length) ∧
    charIs content (start + s.length) ')' = true := by
  have he : extractArguments content start =
      (if (extractArgumentsLoop content (min (start + 2000) content.length)
            (min (start + 2000) content.length - start) start 1).2 ≠ 0 then none
       else some (sliceStr content start
         ((extractArgumentsLoop content (min (start + 2000) content.length)
            (min (start + 2000) content.length - start) start 1).1 - start + start))) := rfl
  rw [he] at h
  by_cases hz : (extractArgumentsLoop content (min (start + 2000) content.length)
      (min (start + 2000) content.length - start) start 1).2 ≠ 0
  · rw [if_pos hz] at h
    cases h
  · rw [if_neg hz] at h
    have hz0 : (extractArgumentsLoop content (min (start + 2000) content.length)
        (min (start + 2000) content.length - start) start 1).2 = 0 := not_not.mp hz
    have hspec := extractArgumentsLoop_spec content (min (start + 2000) content.length)
      (min (start + 2000) content.length - start) start 1 (by omega)
    have hge := hspec.1
    have hub := hspec.2 hz0
    have hub1 := hub.1
    have hub2 := hub.2
    have hs : s = sliceStr content start
        ((extractArgumentsLoop content (min (start + 2000) content.length)
          (min (start + 2000) content.length - start) start 1).1 - start + start) :=
      (Option.some.inj h).symm
    have hr1 : (extractArgumentsLoop content (min (start + 2000) content.length)
        (min (start + 2000) content.length - start) start 1).1 - start + start =
        (extractArgumentsLoop content (min (start + 2000) content.length)
          (min (start + 2000) content.length - start) start 1).1 := by omega
    rw [hr1] at hs
    have hminl : min (start + 2000) content.length ≤ start + 2000 := min_le_left _ _
    have hminr : min (start + 2000) content.length ≤ content.length := min_le_right _ _
    have hlen : s.length = (extractArgumentsLoop content (min (start + 2000) content.length)
        (min (start + 2000) content.length - start) start 1).1 - start := by
      rw [hs]
      unfold sliceStr
      rw [List.length_take, List.length_drop]
      omega
    have hsum : start + s.length = (extractArgumentsLoop content
        (min (start + 2000) content.length)
        (min (start + 2000) content.length - start) start 1).1 := by omega
    refine ⟨by omega, by omega, ?_, ?_⟩
    · rw [hsum]
      exact hs
    · rw [hsum]
      exact hub2

/-- As `extractArguments_some`, for the JS scanner and its 5000-character
window. -/
theorem extractJsArguments_some (content : Str) (start : Nat) (s : Str)
    (h : extractJsArguments content start = some s) :
    s.length ≤ 5000 ∧ start + s.length ≤ content.length ∧
    s = sliceStr content start (start + s.length) ∧
    charIs content (start + s.length) ')' = true := by
  have he : extractJsArguments content start =
      (if (extractJsArgumentsLoop content (min (start + 5000) content.length)
            (min (start + 5000) content.length - start) start 1).2 ≠ 0 then none
       else some (sliceStr content start
         ((extractJsArgumentsLoop content (min (start + 5000) content.length)
            (min (start + 5000) content.length - start) start 1).1 - start + start))) := rfl
  rw [he] at h
  by_cases hz : (extractJsArgumentsLoop content (min (start + 5000) content.length)
      (min (start + 5000) content.length - start) start 1).2 ≠ 0
  · rw [if_pos hz] at h
    cases h
  · rw [if_neg hz] at h
    have hz0 : (extractJsArgumentsLoop content (min (start + 5000) content.length)
        (min (start + 5000) content.length - start) start 1).2 = 0 := not_not.mp hz
    have hspec := extractJsArgumentsLoop_spec content (min (start + 5000) content.length)
      (min (start + 5000) content.length - start) start 1 (by omega)
    have hge := hspec.1
    have hub := hspec.2 hz0
    have hub1 := hub.1
    have hub2 := hub.2
    have hs : s = sliceStr content start
        ((extractJsArgumentsLoop content (min (start + 5000) content.length)
          (min (start + 5000) content.length - start) start 1).1 - start + start) :=
      (Option.some.inj h).symm
    have hr1 : (extractJsArgumentsLoop content (min (start + 5000) content.length)
        (min (start + 5000) content.length - start) start 1).1 - start + start =
        (extractJsArgumentsLoop content (min (start + 5000) content.length)
          (min (start + 5000) content.length - start) start 1).1 := by omega
    rw [hr1] at hs
    have hminl : min (start + 5000) content.length ≤ start + 5000 := min_le_left _ _
    have hminr : min (start + 5000) content.length ≤ content.length := min_le_right _ _
    have hlen : s.length = (extractJsArgumentsLoop content (min (start + 5000) content.length)
        (min (start + 5000) content.length - start) start 1).1 - start := by
      rw [hs]
      unfold sliceStr
      rw [List.length_take, List.length_drop]
      omega
    have hsum : start + s.length = (extractJsArgumentsLoop content
        (min (start + 5000) content.length)
        (min (start + 5000) content.length - start) start 1).1 := by omega
    refine ⟨by omega, by omega, ?_, ?_⟩
    · rw [hsum]
      exact hs
    · rw [hsum]
      exact hub2

theorem processPhpMatch_none (content : Str) (lines : List Str) (filePath : Str)
    (sourceId : Nat) (hit : RegexHit) (h : extractArguments content hit.endIdx = none) :
    processPhpMatch content lines filePath sourceId hit = none := by
  unfold processPhpMatch
  rw [h]

theorem processJsHookMatch_none (content : Str) (lines : List Str) (filePath : Str)
    (sourceId : Nat) (hit : RegexHit) (h : extractJsArguments content hit.endIdx = none) :
    processJsHookMatch content lines filePath sourceId hit = none := by
  unfold processJsHookMatch
  rw [h]

theorem jsHooksLoop_eq_filterMap (content : Str) (lines : List Str) (filePath : Str)
    (sourceId : Nat) (lastIndex : Nat) :
    jsHooksLoop content lines filePath sourceId lastIndex =
      (jsHookMatches content lastIndex).filterMap
        (processJsHookMatch content lines filePath sourceId) :=
  jsHooksLoopF_eq_filterMap content lines filePath sourceId _ lastIndex

/-- C7: each balanced-span scanner is a total function returning either the
balanced span — a bounded slice of the input ending at a closing parenthesis
— or `none`; on `none` the per-match body yields no record, and each
extraction loop is exactly the filterMap of the per-match body over the hit
sequence, so an unusable hit is dropped silently and the scan continues with
the following hits; nothing is ever thrown. -/
theorem c7_balanced_span_error_handling :
    (∀ (content : Str) (start : Nat) (s : Str),
      extractArguments content start = some s →
      s.length ≤ 2000 ∧ start + s.length ≤ content.length ∧
      s = sliceStr content start (start + s.length) ∧
      charIs content (start + s.length) ')' = true) ∧
    (∀ (content : Str) (start : Nat) (s : Str),
      extractJsArguments content start = some s →
      s.length ≤ 5000 ∧ start + s.length ≤ content.length ∧
      s = sliceStr content start (start + s.length) ∧
      charIs content (start + s.length) ')' = true) ∧
    (∀ (content : Str) (lines : List Str) (filePath : Str) (sourceId : Nat)
        (hit : RegexHit), extractArguments content hit.endIdx = none →
      processPhpMatch content lines filePath sourceId hit = none) ∧
    (∀ (content : Str) (lines : List Str) (filePath : Str) (sourceId : Nat)
        (hit : RegexHit), extractJsArguments content hit.endIdx = none →
      processJsHookMatch content lines filePath sourceId hit = none) ∧
    (∀ (content : Str) (lines : List Str) (filePath : Str) (sourceId : Nat)
        (lastIndex : Nat),
      phpLoop content lines filePath sourceId lastIndex =
        (phpMatches content lastIndex).filterMap
          (processPhpMatch content lines filePath sourceId)) ∧
    (∀ (content : Str) (lines : List Str) (filePath : Str) (sourceId : Nat)
        (lastIndex : Nat),
      jsHooksLoop content lines filePath sourceId lastIndex =
        (jsHookMatches content lastIndex).filterMap
          (processJsHookMatch content lines filePath sourceId)) :=
  ⟨extractArguments_some, extractJsArguments_some, processPhpMatch_none,
   processJsHookMatch_none, phpLoop_eq_filterMap, jsHooksLoop_eq_filterMap⟩

/-- The span clause of the C7 theorem at a concrete input: the scanner closes
the two-character argument list after the opening parenthesis. -/
theorem c7_balanced_span_error_handling_witness :
    extractArguments (str "a);") 0 = some (str "a") ∧
      (str "a").length ≤ 2000 ∧ 0 + (str "a").length ≤ (str "a);").length ∧
      str "a" = sliceStr (str "a);") 0 (0 + (str "a").length) ∧
      charIs (str "a);") (0 + (str "a").length) ')' = true :=
  ⟨by decide, c7_balanced_span_error_handling.1 (str "a);") 0 (str "a") (by decide)⟩
